import Mathlib

/-!
httpfromtcp: header collection, request parser and their driver

A shallow embedding of internal/headers/headers.go and internal/request/request.go
(with the chunkReader of request_test.go), followed by theorems about them.

Conventions.
* A Go []byte or string is a Bytes, a list of byte values; a byte is a natural
  number below 256.
* Go's -1 for "not found" is none.
* A Go function that returns several values returns a tuple; a Go error is an
  Option Error, with none for nil.
* A method that mutates its receiver returns the new receiver next to its results.
* The Go standard-library functions the program calls (bytes.Index, strings.Split,
  strings.ToLower, strings.TrimSpace, strconv.Atoi, the unicode predicates, UTF-8
  decoding) are embedded after their documented behaviour.
-/

namespace HttpFromTcp

/-! ## Bytes and UTF-8 -/

/-- A Go byte slice or string. -/
abbrev Bytes := List Nat

/-- Go utf8.RuneError, the replacement character U+FFFD. -/
def RuneError : Nat := 0xFFFD

/-- Go utf8.AppendRune: the UTF-8 encoding of a rune; a surrogate or a value above
U+10FFFF is encoded as RuneError. -/
def encodeRune (r : Nat) : Bytes :=
  if r ≤ 0x7F then [r]
  else if r ≤ 0x7FF then [0xC0 + r / 64, 0x80 + r % 64]
  else if 0x10FFFF < r ∨ (0xD800 ≤ r ∧ r ≤ 0xDFFF) then [0xEF, 0xBF, 0xBD]
  else if r ≤ 0xFFFF then [0xE0 + r / 4096, 0x80 + r / 64 % 64, 0x80 + r % 64]
  else [0xF0 + r / 262144, 0x80 + r / 4096 % 64, 0x80 + r / 64 % 64, 0x80 + r % 64]

/-- A Go string literal: the UTF-8 bytes of the text. -/
def str (s : String) : Bytes := s.toList.flatMap fun c => encodeRune c.toNat

/-- The lowest second byte Go accepts after the first byte p0 (the table acceptRanges). -/
def acceptLo (p0 : Nat) : Nat := if p0 = 0xE0 then 0xA0 else if p0 = 0xF0 then 0x90 else 0x80

/-- The highest second byte Go accepts after the first byte p0 (the table acceptRanges). -/
def acceptHi (p0 : Nat) : Nat := if p0 = 0xED then 0x9F else if p0 = 0xF4 then 0x8F else 0xBF

/-- The length of the encoding that starts with the byte p0, 0xC2 ≤ p0 ≤ 0xF4 (the table
first). -/
def runeSize (p0 : Nat) : Nat := if p0 < 0xE0 then 2 else if p0 < 0xF0 then 3 else 4

/-- Go utf8.DecodeRune: the first rune of p and its width in bytes. Invalid or short
input gives (RuneError, 1), empty input (RuneError, 0). -/
def decodeRune : Bytes → Nat × Nat
  | [] => (RuneError, 0)
  | p0 :: rest =>
    if p0 < 0x80 then (p0, 1)
    else if p0 < 0xC2 ∨ 0xF4 < p0 then (RuneError, 1)
    else
      match rest with
      | [] => (RuneError, 1)
      | b1 :: rest1 =>
        if b1 < acceptLo p0 ∨ acceptHi p0 < b1 then (RuneError, 1)
        else if runeSize p0 ≤ 2 then (p0 % 32 * 64 + b1 % 64, 2)
        else
          match rest1 with
          | [] => (RuneError, 1)
          | b2 :: rest2 =>
            if b2 < 0x80 ∨ 0xBF < b2 then (RuneError, 1)
            else if runeSize p0 ≤ 3 then (p0 % 16 * 4096 + b1 % 64 * 64 + b2 % 64, 3)
            else
              match rest2 with
              | [] => (RuneError, 1)
              | b3 :: _ =>
                if b3 < 0x80 ∨ 0xBF < b3 then (RuneError, 1)
                else (p0 % 8 * 262144 + b1 % 64 * 4096 + b2 % 64 * 64 + b3 % 64, 4)

/-- The runes of s from the first position that is not skipped: skip counts the bytes
still belonging to the rune decoded last. -/
def runesAux : Nat → Bytes → List Nat
  | _, [] => []
  | skip + 1, _ :: rest => runesAux skip rest
  | 0, b :: rest =>
    (decodeRune (b :: rest)).1 :: runesAux ((decodeRune (b :: rest)).2 - 1) rest

/-- The runes a Go for _, r := range s loop visits. -/
def runes (s : Bytes) : List Nat := runesAux 0 s

/-- Go bytes.HasPrefix(s, p). -/
def hasPrefix : Bytes → Bytes → Bool
  | _, [] => true
  | [], _ :: _ => false
  | a :: s, b :: p => a == b && hasPrefix s p

/-- Go bytes.Index(data, sep) and strings.Index(s, sep): the index of the first
occurrence of sep. -/
def bytesIndex : Bytes → Bytes → Option Nat
  | [], sep => if hasPrefix [] sep then some 0 else none
  | b :: rest, sep =>
    if hasPrefix (b :: rest) sep then some 0 else (bytesIndex rest sep).map (· + 1)

/-- Go strings.Split(s, sep) for a separator of one byte, the only kind the program
uses: the pieces of s between the occurrences of sep. -/
def stringsSplit (s : Bytes) (sep : Nat) : List Bytes :=
  match s with
  | [] => [[]]
  | b :: rest =>
    if b = sep then [] :: stringsSplit rest sep
    else
      match stringsSplit rest sep with
      | [] => [[b]]
      | p :: ps => (b :: p) :: ps

/-- Go strings.TrimLeft(s, cutset) for a cutset of one ASCII byte. -/
def stringsTrimLeft (s : Bytes) (cut : Nat) : Bytes := s.dropWhile (· == cut)

/-! ## The unicode package -/

/-- Membership of a rune in a range table with strides. -/
def inRangeTable (t : List (Nat × Nat × Nat)) (r : Nat) : Bool :=
  t.any fun e => e.1 ≤ r && r ≤ e.2.1 && (r - e.1) % e.2.2 == 0

/-- Range table of Go unicode.Upper (general category Lu, Unicode 15.0): entries (lo, hi, stride). -/
def tableUpper : List (Nat × Nat × Nat) := [
  (0x41, 0x5a, 1), (0xc0, 0xd6, 1), (0xd8, 0xde, 1), (0x100, 0x136, 2), (0x139, 0x147, 2),
   (0x14a, 0x178, 2), (0x179, 0x17d, 2), (0x181, 0x182, 1), (0x184, 0x184, 1), (0x186, 0x187, 1),
   (0x189, 0x18b, 1), (0x18e, 0x191, 1), (0x193, 0x194, 1), (0x196, 0x198, 1), (0x19c, 0x19d, 1),
   (0x19f, 0x1a0, 1), (0x1a2, 0x1a6, 2), (0x1a7, 0x1a7, 1), (0x1a9, 0x1a9, 1), (0x1ac, 0x1ac, 1),
   (0x1ae, 0x1af, 1), (0x1b1, 0x1b3, 1), (0x1b5, 0x1b5, 1), (0x1b7, 0x1b8, 1), (0x1bc, 0x1bc, 1),
   (0x1c4, 0x1cd, 3), (0x1cf, 0x1db, 2), (0x1de, 0x1ee, 2), (0x1f1, 0x1f1, 1), (0x1f4, 0x1f4, 1),
   (0x1f6, 0x1f8, 1), (0x1fa, 0x232, 2), (0x23a, 0x23b, 1), (0x23d, 0x23e, 1), (0x241, 0x241, 1),
   (0x243, 0x246, 1), (0x248, 0x24e, 2), (0x370, 0x370, 1), (0x372, 0x372, 1), (0x376, 0x376, 1),
   (0x37f, 0x37f, 1), (0x386, 0x386, 1), (0x388, 0x38a, 1), (0x38c, 0x38c, 1), (0x38e, 0x38f, 1),
   (0x391, 0x3a1, 1), (0x3a3, 0x3ab, 1), (0x3cf, 0x3cf, 1), (0x3d2, 0x3d4, 1), (0x3d8, 0x3ee, 2),
   (0x3f4, 0x3f4, 1), (0x3f7, 0x3f7, 1), (0x3f9, 0x3fa, 1), (0x3fd, 0x42f, 1), (0x460, 0x480, 2),
   (0x48a, 0x4c0, 2), (0x4c1, 0x4cd, 2), (0x4d0, 0x52e, 2), (0x531, 0x556, 1),
   (0x10a0, 0x10c5, 1), (0x10c7, 0x10c7, 1), (0x10cd, 0x10cd, 1), (0x13a0, 0x13f5, 1),
   (0x1c90, 0x1cba, 1), (0x1cbd, 0x1cbf, 1), (0x1e00, 0x1e94, 2), (0x1e9e, 0x1efe, 2),
   (0x1f08, 0x1f0f, 1), (0x1f18, 0x1f1d, 1), (0x1f28, 0x1f2f, 1), (0x1f38, 0x1f3f, 1),
   (0x1f48, 0x1f4d, 1), (0x1f59, 0x1f5f, 2), (0x1f68, 0x1f6f, 1), (0x1fb8, 0x1fbb, 1),
   (0x1fc8, 0x1fcb, 1), (0x1fd8, 0x1fdb, 1), (0x1fe8, 0x1fec, 1), (0x1ff8, 0x1ffb, 1),
   (0x2102, 0x2102, 1), (0x2107, 0x2107, 1), (0x210b, 0x210d, 1), (0x2110, 0x2112, 1),
   (0x2115, 0x2115, 1), (0x2119, 0x211d, 1), (0x2124, 0x212a, 2), (0x212b, 0x212d, 1),
   (0x2130, 0x2133, 1), (0x213e, 0x213f, 1), (0x2145, 0x2145, 1), (0x2183, 0x2183, 1),
   (0x2c00, 0x2c2f, 1), (0x2c60, 0x2c60, 1), (0x2c62, 0x2c64, 1), (0x2c67, 0x2c6d, 2),
   (0x2c6e, 0x2c70, 1), (0x2c72, 0x2c72, 1), (0x2c75, 0x2c75, 1), (0x2c7e, 0x2c80, 1),
   (0x2c82, 0x2ce2, 2), (0x2ceb, 0x2ceb, 1), (0x2ced, 0x2ced, 1), (0x2cf2, 0x2cf2, 1),
   (0xa640, 0xa66c, 2), (0xa680, 0xa69a, 2), (0xa722, 0xa72e, 2), (0xa732, 0xa76e, 2),
   (0xa779, 0xa77d, 2), (0xa77e, 0xa786, 2), (0xa78b, 0xa78b, 1), (0xa78d, 0xa78d, 1),
   (0xa790, 0xa790, 1), (0xa792, 0xa792, 1), (0xa796, 0xa7aa, 2), (0xa7ab, 0xa7ae, 1),
   (0xa7b0, 0xa7b4, 1), (0xa7b6, 0xa7c4, 2), (0xa7c5, 0xa7c7, 1), (0xa7c9, 0xa7c9, 1),
   (0xa7d0, 0xa7d0, 1), (0xa7d6, 0xa7d6, 1), (0xa7d8, 0xa7d8, 1), (0xa7f5, 0xa7f5, 1),
   (0xff21, 0xff3a, 1), (0x10400, 0x10427, 1), (0x104b0, 0x104d3, 1), (0x10570, 0x1057a, 1),
   (0x1057c, 0x1058a, 1), (0x1058c, 0x10592, 1), (0x10594, 0x10595, 1), (0x10c80, 0x10cb2, 1),
   (0x118a0, 0x118bf, 1), (0x16e40, 0x16e5f, 1), (0x1d400, 0x1d419, 1), (0x1d434, 0x1d44d, 1),
   (0x1d468, 0x1d481, 1), (0x1d49c, 0x1d49c, 1), (0x1d49e, 0x1d49f, 1), (0x1d4a2, 0x1d4a2, 1),
   (0x1d4a5, 0x1d4a6, 1), (0x1d4a9, 0x1d4ac, 1), (0x1d4ae, 0x1d4b5, 1), (0x1d4d0, 0x1d4e9, 1),
   (0x1d504, 0x1d505, 1), (0x1d507, 0x1d50a, 1), (0x1d50d, 0x1d514, 1), (0x1d516, 0x1d51c, 1),
   (0x1d538, 0x1d539, 1), (0x1d53b, 0x1d53e, 1), (0x1d540, 0x1d544, 1), (0x1d546, 0x1d546, 1),
   (0x1d54a, 0x1d550, 1), (0x1d56c, 0x1d585, 1), (0x1d5a0, 0x1d5b9, 1), (0x1d5d4, 0x1d5ed, 1),
   (0x1d608, 0x1d621, 1), (0x1d63c, 0x1d655, 1), (0x1d670, 0x1d689, 1), (0x1d6a8, 0x1d6c0, 1),
   (0x1d6e2, 0x1d6fa, 1), (0x1d71c, 0x1d734, 1), (0x1d756, 0x1d76e, 1), (0x1d790, 0x1d7a8, 1),
   (0x1d7ca, 0x1d7ca, 1), (0x1e900, 0x1e921, 1)]

/-- Range table of Go unicode.Digit (general category Nd, Unicode 15.0): entries (lo, hi, stride). -/
def tableDigit : List (Nat × Nat × Nat) := [
  (0x30, 0x39, 1), (0x660, 0x669, 1), (0x6f0, 0x6f9, 1), (0x7c0, 0x7c9, 1), (0x966, 0x96f, 1),
   (0x9e6, 0x9ef, 1), (0xa66, 0xa6f, 1), (0xae6, 0xaef, 1), (0xb66, 0xb6f, 1), (0xbe6, 0xbef, 1),
   (0xc66, 0xc6f, 1), (0xce6, 0xcef, 1), (0xd66, 0xd6f, 1), (0xde6, 0xdef, 1), (0xe50, 0xe59, 1),
   (0xed0, 0xed9, 1), (0xf20, 0xf29, 1), (0x1040, 0x1049, 1), (0x1090, 0x1099, 1),
   (0x17e0, 0x17e9, 1), (0x1810, 0x1819, 1), (0x1946, 0x194f, 1), (0x19d0, 0x19d9, 1),
   (0x1a80, 0x1a89, 1), (0x1a90, 0x1a99, 1), (0x1b50, 0x1b59, 1), (0x1bb0, 0x1bb9, 1),
   (0x1c40, 0x1c49, 1), (0x1c50, 0x1c59, 1), (0xa620, 0xa629, 1), (0xa8d0, 0xa8d9, 1),
   (0xa900, 0xa909, 1), (0xa9d0, 0xa9d9, 1), (0xa9f0, 0xa9f9, 1), (0xaa50, 0xaa59, 1),
   (0xabf0, 0xabf9, 1), (0xff10, 0xff19, 1), (0x104a0, 0x104a9, 1), (0x10d30, 0x10d39, 1),
   (0x11066, 0x1106f, 1), (0x110f0, 0x110f9, 1), (0x11136, 0x1113f, 1), (0x111d0, 0x111d9, 1),
   (0x112f0, 0x112f9, 1), (0x11450, 0x11459, 1), (0x114d0, 0x114d9, 1), (0x11650, 0x11659, 1),
   (0x116c0, 0x116c9, 1), (0x11730, 0x11739, 1), (0x118e0, 0x118e9, 1), (0x11950, 0x11959, 1),
   (0x11c50, 0x11c59, 1), (0x11d50, 0x11d59, 1), (0x11da0, 0x11da9, 1), (0x11f50, 0x11f59, 1),
   (0x16a60, 0x16a69, 1), (0x16ac0, 0x16ac9, 1), (0x16b50, 0x16b59, 1), (0x1d7ce, 0x1d7ff, 1),
   (0x1e140, 0x1e149, 1), (0x1e2f0, 0x1e2f9, 1), (0x1e4f0, 0x1e4f9, 1), (0x1e950, 0x1e959, 1),
   (0x1fbf0, 0x1fbf9, 1)]

/-- Simple lower-case mappings of Go unicode.CaseRanges above ASCII (Unicode 15.0): entries (lo, hi, stride, delta), the lower case of a listed rune r is r + delta. -/
def tableToLower : List (Nat × Nat × Nat × Int) := [
  (0xc0, 0xd6, 1, 32), (0xd8, 0xde, 1, 32), (0x100, 0x12e, 2, 1), (0x130, 0x130, 1, -199),
   (0x132, 0x136, 2, 1), (0x139, 0x147, 2, 1), (0x14a, 0x176, 2, 1), (0x178, 0x178, 1, -121),
   (0x179, 0x17d, 2, 1), (0x181, 0x181, 1, 210), (0x182, 0x184, 2, 1), (0x186, 0x186, 1, 206),
   (0x187, 0x187, 1, 1), (0x189, 0x18a, 1, 205), (0x18b, 0x18b, 1, 1), (0x18e, 0x18e, 1, 79),
   (0x18f, 0x18f, 1, 202), (0x190, 0x190, 1, 203), (0x191, 0x191, 1, 1), (0x193, 0x193, 1, 205),
   (0x194, 0x194, 1, 207), (0x196, 0x196, 1, 211), (0x197, 0x197, 1, 209), (0x198, 0x198, 1, 1),
   (0x19c, 0x19c, 1, 211), (0x19d, 0x19d, 1, 213), (0x19f, 0x19f, 1, 214), (0x1a0, 0x1a4, 2, 1),
   (0x1a6, 0x1a6, 1, 218), (0x1a7, 0x1a7, 1, 1), (0x1a9, 0x1a9, 1, 218), (0x1ac, 0x1ac, 1, 1),
   (0x1ae, 0x1ae, 1, 218), (0x1af, 0x1af, 1, 1), (0x1b1, 0x1b2, 1, 217), (0x1b3, 0x1b5, 2, 1),
   (0x1b7, 0x1b7, 1, 219), (0x1b8, 0x1b8, 1, 1), (0x1bc, 0x1bc, 1, 1), (0x1c4, 0x1c4, 1, 2),
   (0x1c5, 0x1c5, 1, 1), (0x1c7, 0x1c7, 1, 2), (0x1c8, 0x1c8, 1, 1), (0x1ca, 0x1ca, 1, 2),
   (0x1cb, 0x1db, 2, 1), (0x1de, 0x1ee, 2, 1), (0x1f1, 0x1f1, 1, 2), (0x1f2, 0x1f4, 2, 1),
   (0x1f6, 0x1f6, 1, -97), (0x1f7, 0x1f7, 1, -56), (0x1f8, 0x21e, 2, 1), (0x220, 0x220, 1, -130),
   (0x222, 0x232, 2, 1), (0x23a, 0x23a, 1, 10795), (0x23b, 0x23b, 1, 1), (0x23d, 0x23d, 1, -163),
   (0x23e, 0x23e, 1, 10792), (0x241, 0x241, 1, 1), (0x243, 0x243, 1, -195), (0x244, 0x244, 1, 69),
   (0x245, 0x245, 1, 71), (0x246, 0x24e, 2, 1), (0x370, 0x372, 2, 1), (0x376, 0x376, 1, 1),
   (0x37f, 0x37f, 1, 116), (0x386, 0x386, 1, 38), (0x388, 0x38a, 1, 37), (0x38c, 0x38c, 1, 64),
   (0x38e, 0x38f, 1, 63), (0x391, 0x3a1, 1, 32), (0x3a3, 0x3ab, 1, 32), (0x3cf, 0x3cf, 1, 8),
   (0x3d8, 0x3ee, 2, 1), (0x3f4, 0x3f4, 1, -60), (0x3f7, 0x3f7, 1, 1), (0x3f9, 0x3f9, 1, -7),
   (0x3fa, 0x3fa, 1, 1), (0x3fd, 0x3ff, 1, -130), (0x400, 0x40f, 1, 80), (0x410, 0x42f, 1, 32),
   (0x460, 0x480, 2, 1), (0x48a, 0x4be, 2, 1), (0x4c0, 0x4c0, 1, 15), (0x4c1, 0x4cd, 2, 1),
   (0x4d0, 0x52e, 2, 1), (0x531, 0x556, 1, 48), (0x10a0, 0x10c5, 1, 7264),
   (0x10c7, 0x10c7, 1, 7264), (0x10cd, 0x10cd, 1, 7264), (0x13a0, 0x13ef, 1, 38864),
   (0x13f0, 0x13f5, 1, 8), (0x1c90, 0x1cba, 1, -3008), (0x1cbd, 0x1cbf, 1, -3008),
   (0x1e00, 0x1e94, 2, 1), (0x1e9e, 0x1e9e, 1, -7615), (0x1ea0, 0x1efe, 2, 1),
   (0x1f08, 0x1f0f, 1, -8), (0x1f18, 0x1f1d, 1, -8), (0x1f28, 0x1f2f, 1, -8),
   (0x1f38, 0x1f3f, 1, -8), (0x1f48, 0x1f4d, 1, -8), (0x1f59, 0x1f5f, 2, -8),
   (0x1f68, 0x1f6f, 1, -8), (0x1f88, 0x1f8f, 1, -8), (0x1f98, 0x1f9f, 1, -8),
   (0x1fa8, 0x1faf, 1, -8), (0x1fb8, 0x1fb9, 1, -8), (0x1fba, 0x1fbb, 1, -74),
   (0x1fbc, 0x1fbc, 1, -9), (0x1fc8, 0x1fcb, 1, -86), (0x1fcc, 0x1fcc, 1, -9),
   (0x1fd8, 0x1fd9, 1, -8), (0x1fda, 0x1fdb, 1, -100), (0x1fe8, 0x1fe9, 1, -8),
   (0x1fea, 0x1feb, 1, -112), (0x1fec, 0x1fec, 1, -7), (0x1ff8, 0x1ff9, 1, -128),
   (0x1ffa, 0x1ffb, 1, -126), (0x1ffc, 0x1ffc, 1, -9), (0x2126, 0x2126, 1, -7517),
   (0x212a, 0x212a, 1, -8383), (0x212b, 0x212b, 1, -8262), (0x2132, 0x2132, 1, 28),
   (0x2160, 0x216f, 1, 16), (0x2183, 0x2183, 1, 1), (0x24b6, 0x24cf, 1, 26),
   (0x2c00, 0x2c2f, 1, 48), (0x2c60, 0x2c60, 1, 1), (0x2c62, 0x2c62, 1, -10743),
   (0x2c63, 0x2c63, 1, -3814), (0x2c64, 0x2c64, 1, -10727), (0x2c67, 0x2c6b, 2, 1),
   (0x2c6d, 0x2c6d, 1, -10780), (0x2c6e, 0x2c6e, 1, -10749), (0x2c6f, 0x2c6f, 1, -10783),
   (0x2c70, 0x2c70, 1, -10782), (0x2c72, 0x2c72, 1, 1), (0x2c75, 0x2c75, 1, 1),
   (0x2c7e, 0x2c7f, 1, -10815), (0x2c80, 0x2ce2, 2, 1), (0x2ceb, 0x2ced, 2, 1),
   (0x2cf2, 0x2cf2, 1, 1), (0xa640, 0xa66c, 2, 1), (0xa680, 0xa69a, 2, 1), (0xa722, 0xa72e, 2, 1),
   (0xa732, 0xa76e, 2, 1), (0xa779, 0xa77b, 2, 1), (0xa77d, 0xa77d, 1, -35332),
   (0xa77e, 0xa786, 2, 1), (0xa78b, 0xa78b, 1, 1), (0xa78d, 0xa78d, 1, -42280),
   (0xa790, 0xa792, 2, 1), (0xa796, 0xa7a8, 2, 1), (0xa7aa, 0xa7aa, 1, -42308),
   (0xa7ab, 0xa7ab, 1, -42319), (0xa7ac, 0xa7ac, 1, -42315), (0xa7ad, 0xa7ad, 1, -42305),
   (0xa7ae, 0xa7ae, 1, -42308), (0xa7b0, 0xa7b0, 1, -42258), (0xa7b1, 0xa7b1, 1, -42282),
   (0xa7b2, 0xa7b2, 1, -42261), (0xa7b3, 0xa7b3, 1, 928), (0xa7b4, 0xa7c2, 2, 1),
   (0xa7c4, 0xa7c4, 1, -48), (0xa7c5, 0xa7c5, 1, -42307), (0xa7c6, 0xa7c6, 1, -35384),
   (0xa7c7, 0xa7c9, 2, 1), (0xa7d0, 0xa7d0, 1, 1), (0xa7d6, 0xa7d8, 2, 1), (0xa7f5, 0xa7f5, 1, 1),
   (0xff21, 0xff3a, 1, 32), (0x10400, 0x10427, 1, 40), (0x104b0, 0x104d3, 1, 40),
   (0x10570, 0x1057a, 1, 39), (0x1057c, 0x1058a, 1, 39), (0x1058c, 0x10592, 1, 39),
   (0x10594, 0x10595, 1, 39), (0x10c80, 0x10cb2, 1, 64), (0x118a0, 0x118bf, 1, 32),
   (0x16e40, 0x16e5f, 1, 32), (0x1e900, 0x1e921, 1, 34)]

/-- Go unicode.IsUpper: Latin-1 is answered directly, the rest by the table. -/
def unicodeIsUpper (r : Nat) : Bool :=
  if r ≤ 0xFF then
    (0x41 ≤ r && r ≤ 0x5A) || (0xC0 ≤ r && r ≤ 0xD6) || (0xD8 ≤ r && r ≤ 0xDE)
  else inRangeTable tableUpper r

/-- Go unicode.IsDigit: Latin-1 is answered directly, the rest by the table. -/
def unicodeIsDigit (r : Nat) : Bool :=
  if r ≤ 0xFF then 0x30 ≤ r && r ≤ 0x39 else inRangeTable tableDigit r

/-- Go unicode.IsSpace: the White_Space property. -/
def unicodeIsSpace (r : Nat) : Bool :=
  if r ≤ 0xFF then
    r = 0x09 || r = 0x0A || r = 0x0B || r = 0x0C || r = 0x0D || r = 0x20 || r = 0x85 || r = 0xA0
  else
    r = 0x1680 || (0x2000 ≤ r && r ≤ 0x200A) || r = 0x2028 || r = 0x2029 || r = 0x202F
      || r = 0x205F || r = 0x3000

/-- Go unicode.ToLower: ASCII is mapped directly, the rest through the case ranges. -/
def unicodeToLower (r : Nat) : Nat :=
  if r ≤ 0x7F then (if 0x41 ≤ r ∧ r ≤ 0x5A then r + 0x20 else r)
  else
    match tableToLower.find? fun e => e.1 ≤ r && r ≤ e.2.1 && (r - e.1) % e.2.2.1 == 0 with
    | some e => ((r : Int) + e.2.2.2).toNat
    | none => r

/-! ## Further string functions of the standard library -/

/-- Go strings.ToLower: an all-ASCII string is mapped byte by byte; otherwise every rune is
mapped by unicode.ToLower and re-encoded, an invalid byte becoming the replacement
character. -/
def stringsToLower (s : Bytes) : Bytes :=
  if s.all (· < 0x80) then s.map fun c => if 0x41 ≤ c ∧ c ≤ 0x5A then c + 0x20 else c
  else (runes s).flatMap fun r => encodeRune (unicodeToLower r)

/-- Go utf8.RuneStart: the byte is not a continuation byte. -/
def runeStart (b : Nat) : Bool := !(0x80 ≤ b && b ≤ 0xBF)

/-- Go utf8.DecodeLastRune: the last rune of s and its width. -/
def decodeLastRune (s : Bytes) : Nat × Nat :=
  let e := s.length
  if e = 0 then (RuneError, 0)
  else
    let last := s.getD (e - 1) 0
    if last < 0x80 then (last, 1)
    else
      let lim := e - 4
      let start : Nat :=
        if lim + 2 ≤ e ∧ runeStart (s.getD (e - 2) 0) then e - 2
        else if lim + 3 ≤ e ∧ runeStart (s.getD (e - 3) 0) then e - 3
        else if lim + 4 ≤ e ∧ runeStart (s.getD (e - 4) 0) then e - 4
        else lim - 1
      let d := decodeRune (s.drop start)
      if start + d.2 ≠ e then (RuneError, 1) else d

/-- Go strings.TrimLeftFunc(s, unicode.IsSpace); skip counts the bytes still belonging to
the white-space rune decoded last. -/
def trimLeftSpaceAux : Nat → Bytes → Bytes
  | _, [] => []
  | skip + 1, _ :: rest => trimLeftSpaceAux skip rest
  | 0, b :: rest =>
    if unicodeIsSpace (decodeRune (b :: rest)).1 then
      trimLeftSpaceAux ((decodeRune (b :: rest)).2 - 1) rest
    else b :: rest

/-- The loop of Go lastIndexFunc(s, unicode.IsSpace, false), started at index i: the start of
the last rune of s[0:i] that is not white space. The first argument bounds the number of
iterations; i iterations always suffice, each one lowering i. -/
def lastIndexNotSpace (s : Bytes) : Nat → Nat → Option Nat
  | 0, _ => none
  | fuel + 1, i =>
    if i = 0 then none
    else
      let d := decodeLastRune (s.take i)
      if unicodeIsSpace d.1 then lastIndexNotSpace s fuel (i - d.2) else some (i - d.2)

/-- Go strings.TrimRightFunc(s, unicode.IsSpace). -/
def trimRightSpace (s : Bytes) : Bytes :=
  match lastIndexNotSpace s s.length s.length with
  | some i =>
    if 0x80 ≤ s.getD i 0 then s.take (i + (decodeRune (s.drop i)).2) else s.take (i + 1)
  | none => []

/-- Go strings.TrimSpace(s): s without its leading and trailing Unicode white space. -/
def stringsTrimSpace (s : Bytes) : Bytes := trimRightSpace (trimLeftSpaceAux 0 s)

/-! ## Errors -/

/-- The error values of the three packages, and those of the library calls they pass on. -/
inductive Error where
  | ERROR_MALFORMED_REQUEST_LINE
  | ERROR_INVALID_METHOD
  | ERROR_UNSUPPORTED_HTTP_VERSION
  | ERROR_MISSING_HOST_HEADER
  | ERROR_CONTENT_LENGTH_EXCEEDED
  | ERROR_MALFORMED_HEADER
  | ERROR_INVALID_FIELD_NAME
  /-- The strconv.ErrSyntax of strconv.Atoi. -/
  | strconvSyntax
  /-- The strconv.ErrRange of strconv.Atoi. -/
  | strconvRange
  /-- An error returned by the reader. -/
  | readError (code : Nat)
  /-- The run-time panic of dereferencing a nil pointer. -/
  | nilDereference
  /-- The error value of internal/response/response.go. -/
  | ERROR_WRONG_WRITE_ORDER
  /-- An error returned by the Write of the sink. -/
  | writeError (code : Nat)
  deriving DecidableEq, Repr

/-- The digit loop of Go strconv.ParseUint(s, 10, 64), n being the value read so far: the
value, or the error of the first byte that is no digit or overflows 64 bits. -/
def parseUintLoop : Bytes → Nat → Nat × Option Error
  | [], n => (n, none)
  | c :: rest, n =>
    if c < 0x30 ∨ 0x39 < c then (0, some .strconvSyntax)
    else if 2 ^ 64 ≤ n * 10 + (c - 0x30) then (2 ^ 64 - 1, some .strconvRange)
    else parseUintLoop rest (n * 10 + (c - 0x30))

/-- Go strconv.Atoi with a 64-bit int: an optional sign and decimal digits. -/
def strconvAtoi (s : Bytes) : Int × Option Error :=
  match s with
  | [] => (0, some .strconvSyntax)
  | c :: rest =>
    let neg : Bool := c = 0x2D
    let digits := if c = 0x2B ∨ c = 0x2D then rest else c :: rest
    if digits = [] then (0, some .strconvSyntax)
    else
      match parseUintLoop digits 0 with
      | (_, some .strconvSyntax) => (0, some .strconvSyntax)
      | (un, _) =>
        if neg = false ∧ 2 ^ 63 ≤ un then (2 ^ 63 - 1, some .strconvRange)
        else if neg = true ∧ 2 ^ 63 < un then (- 2 ^ 63, some .strconvRange)
        else (if neg then - (un : Int) else (un : Int), none)

/-! ## internal/headers/headers.go -/

/-- The two bytes of var CRLF. -/
def CRLF : Bytes := [13, 10]

/-- The value of var CRLF_LEN. -/
def CRLF_LEN : Nat := CRLF.length

/-- The runes of var VALID_SPECIAL_CHARS. -/
def VALID_SPECIAL_CHARS : List Nat :=
  [0x21, 0x23, 0x24, 0x25, 0x26, 0x27, 0x2A, 0x2B, 0x2D, 0x2E, 0x5E, 0x5F, 0x60, 0x7C, 0x7E]

/-- Go type Headers map[string]string: the entries of the map as a list of key and value.
A read returns the first entry of a key and a write replaces it, so a key never gets a second
entry. -/
def Headers := List (Bytes × Bytes)

instance : DecidableEq Headers := inferInstanceAs (DecidableEq (List (Bytes × Bytes)))

/-- Go NewHeaders. -/
def NewHeaders : Headers := []

/-- The Go map read v, found := h[k]. -/
def Headers.lookup : Headers → Bytes → Option Bytes
  | [], _ => none
  | (k1, v1) :: rest, k => if k1 = k then some v1 else Headers.lookup rest k

/-- The Go map write h[k] = v. -/
def Headers.store : Headers → Bytes → Bytes → Headers
  | [], k, v => [(k, v)]
  | (k1, v1) :: rest, k, v =>
    if k1 = k then (k, v) :: rest else (k1, v1) :: Headers.store rest k v

/-- Go Headers.Get. -/
def Headers.Get (h : Headers) (key : Bytes) : Bytes :=
  let lowercasedKey := stringsToLower key
  (h.lookup lowercasedKey).getD []

/-- Go Headers.Set. -/
def Headers.Set (h : Headers) (key value : Bytes) : Headers :=
  let lowercasedKey := stringsToLower key
  match h.lookup lowercasedKey with
  | some existingValue => h.store lowercasedKey (existingValue ++ str "," ++ value)
  | none => h.store lowercasedKey value

/-- Go Headers.Replace. -/
def Headers.Replace (h : Headers) (key value : Bytes) : Headers :=
  h.store (stringsToLower key) value

/-- Go Headers.Delete. -/
def Headers.Delete (h : Headers) (key : Bytes) : Headers :=
  List.filter (fun e => decide (e.1 ≠ stringsToLower key)) h

/-- Go validHeaderKey. -/
def validHeaderKey (key : Bytes) : Bool :=
  if key.length = 0 then false
  else
    (runes key).all fun r =>
      !(!unicodeIsDigit r && (r < 0x61 || r > 0x7A) && (r < 0x41 || r > 0x5A)
        && !VALID_SPECIAL_CHARS.contains r)

/-- Go Headers.Parse: the collection after the call, then the three results. -/
def Headers.Parse (h : Headers) (data : Bytes) : Headers × Nat × Bool × Option Error :=
  match bytesIndex data CRLF with
  | none => (h, 0, false, none)
  | some crlfIndex =>
    if crlfIndex = 0 then (h, CRLF_LEN, true, none)
    else
      let s := data.take crlfIndex
      match bytesIndex s (str ":") with
      | none => (h, 0, false, some .ERROR_MALFORMED_HEADER)
      | some colonIndex =>
        let key := s.take colonIndex
        let key := stringsTrimLeft key 0x20
        if !validHeaderKey key then (h, 0, false, some .ERROR_INVALID_FIELD_NAME)
        else
          let value := s.drop (colonIndex + 1)
          let value := stringsTrimSpace value
          (h.Set key value, s.length + CRLF_LEN, false, none)

/-! ## internal/request/request.go -/

/-- Go const BUFFER_SIZE. -/
def BUFFER_SIZE : Nat := 8

/-- Go type RequestLine. -/
structure RequestLine where
  HttpVersion : Bytes
  RequestTarget : Bytes
  Method : Bytes
  deriving DecidableEq, Repr

/-- Go type parserState with its four constants. -/
inductive ParserState where
  | INITIALIZED
  | PARSING_HEADERS
  | PARSING_BODY
  | DONE
  deriving DecidableEq, Repr

/-- Go type Request. -/
structure Request where
  RequestLine : RequestLine
  Headers : Headers
  Body : Bytes
  parserState : ParserState
  deriving DecidableEq

/-- Go newRequest. -/
def newRequest : Request :=
  { RequestLine := { HttpVersion := [], RequestTarget := [], Method := [] }
    Headers := NewHeaders
    Body := []
    parserState := .INITIALIZED }

/-- Go isUpper. -/
def isUpper (s : Bytes) : Bool := (runes s).all unicodeIsUpper

/-- Go parseRequestLine: the three results. -/
def parseRequestLine (data : Bytes) : Option RequestLine × Nat × Option Error :=
  match bytesIndex data CRLF with
  | none => (none, 0, none)
  | some index =>
    let line := data.take index
    let bytesParsed := index + CRLF.length
    match stringsSplit line 0x20 with
    | [method, target, version] =>
      if !isUpper method then (none, 0, some .ERROR_INVALID_METHOD)
      else
        match stringsSplit version 0x2F with
        | [name, number] =>
          if name ≠ str "HTTP" ∨ number ≠ str "1.1" then
            (none, 0, some .ERROR_UNSUPPORTED_HTTP_VERSION)
          else
            (some { Method := method, RequestTarget := target, HttpVersion := number },
              bytesParsed, none)
        | _ => (none, 0, some .ERROR_UNSUPPORTED_HTTP_VERSION)
    | _ => (none, 0, some .ERROR_MALFORMED_REQUEST_LINE)

/-- Go Request.done. -/
def Request.done (r : Request) : Bool := r.parserState = .DONE

/-- One turn of the loop labelled outer in Request.parse: either the loop goes on with a new
request, startIndex and totalBytesParsed, or the method returns. -/
inductive Turn where
  | again (r : Request) (startIndex totalBytesParsed : Nat)
  | returns (r : Request) (n : Nat) (err : Option Error)

/-- The body of the loop labelled outer in Request.parse. -/
def Request.parseTurn (r : Request) (data : Bytes) (startIndex totalBytesParsed : Nat) : Turn :=
  match r.parserState with
  | .INITIALIZED =>
    match parseRequestLine (data.drop startIndex) with
    | (_, _, some err) => .returns r 0 (some err)
    | (rl, n, none) =>
      if n = 0 then .returns r totalBytesParsed none
      else
        match rl with
        | none => .returns r 0 (some .nilDereference)
        | some rl =>
          .again { r with RequestLine := rl, parserState := .PARSING_HEADERS }
            (totalBytesParsed + n) (totalBytesParsed + n)
  | .PARSING_HEADERS =>
    match r.Headers.Parse (data.drop startIndex) with
    | (h, _, _, some err) => .returns { r with Headers := h } 0 (some err)
    | (h, n, done, none) =>
      if n = 0 then .returns { r with Headers := h } totalBytesParsed none
      else if done then
        if h.Get (str "host") = [] then
          .returns { r with Headers := h } 0 (some .ERROR_MISSING_HOST_HEADER)
        else
          .again { r with Headers := h, parserState := .PARSING_BODY }
            (totalBytesParsed + n) (totalBytesParsed + n)
      else .again { r with Headers := h } (totalBytesParsed + n) (totalBytesParsed + n)
  | .PARSING_BODY =>
    let contentLen := r.Headers.Get (str "content-length")
    if contentLen = [] ∨ contentLen = str "0" then
      .returns { r with parserState := .DONE } totalBytesParsed none
    else
      match strconvAtoi contentLen with
      | (_, some err) => .returns r 0 (some err)
      | (specifiedBodyLen, none) =>
        let oldLen := r.Body.length
        let body := r.Body ++ data.drop startIndex
        let newLen := body.length
        if specifiedBodyLen < (newLen : Int) then
          .returns { r with Body := body } 0 (some .ERROR_CONTENT_LENGTH_EXCEEDED)
        else if (newLen : Int) = specifiedBodyLen then
          .again { r with Body := body, parserState := .DONE } startIndex
            (totalBytesParsed + (newLen - oldLen))
        else .returns { r with Body := body } (totalBytesParsed + (newLen - oldLen)) none
  | .DONE => .returns r totalBytesParsed none

/-- The loop labelled outer in Request.parse, for at most the given number of turns: the
request after the call, then the two results; none when the turns do not suffice. -/
def Request.parseLoop : Nat → Request → Bytes → Nat → Nat → Option (Request × Nat × Option Error)
  | 0, _, _, _, _ => none
  | turns + 1, r, data, startIndex, totalBytesParsed =>
    match r.parseTurn data startIndex totalBytesParsed with
    | .again r1 s1 t1 => Request.parseLoop turns r1 data s1 t1
    | .returns r1 n err => some (r1, n, err)

/-- Go Request.parse. Every turn but the last three consumes at least two bytes, so
len(data) + 4 turns are enough (theorem parse_total). -/
def Request.parse (r : Request) (data : Bytes) : Option (Request × Nat × Option Error) :=
  Request.parseLoop (data.length + 4) r data 0 0

/-! ## The reader of request_test.go and RequestFromReader -/

/-- Go type chunkReader. -/
structure ChunkReader where
  data : Bytes
  byteCountPerRead : Nat
  pos : Nat
  deriving DecidableEq

/-- Go chunkReader.Read(p) for a p of the given length: the reader after the call, the bytes
copied into p (n is their number) and the error. -/
def ChunkReader.Read (cr : ChunkReader) (lenP : Nat) : ChunkReader × Bytes × Option Error :=
  let dataLength := cr.data.length
  if cr.pos ≥ dataLength then (cr, [], none)
  else
    let endIndex := min (cr.pos + cr.byteCountPerRead) dataLength
    let copied := ((cr.data.take endIndex).drop cr.pos).take lenP
    ({ cr with pos := cr.pos + copied.length }, copied, none)

/-- The loop of Go RequestFromReader for at most the given number of turns. The buffer is
kept as len(buf) and the bytes buf[:bufLen], the only part of it that is read. The reader is
any state with a Read function. The result is none when the turns do not suffice. -/
def readLoop {σ : Type} (read : σ → Nat → σ × Bytes × Option Error) :
    Nat → Request → Nat → Bytes → σ → Option (Option Request × Option Error)
  | 0, _, _, _, _ => none
  | turns + 1, request, lenBuf, buf, reader =>
    if request.done then some (some request, none)
    else
      let lenBuf := if buf.length ≥ lenBuf then lenBuf + BUFFER_SIZE else lenBuf
      match read reader (lenBuf - buf.length) with
      | (_, _, some err) => some (none, some err)
      | (reader, bytes, none) =>
        let buf := buf ++ bytes
        match request.parse buf with
        | none => none
        | some (_, _, some err) => some (none, some err)
        | some (request, parsedN, none) => readLoop read turns request lenBuf (buf.drop parsedN) reader

/-- Go RequestFromReader, its loop bounded by the given number of turns. -/
def RequestFromReader {σ : Type} (read : σ → Nat → σ × Bytes × Option Error) (reader : σ)
    (turns : Nat) : Option (Option Request × Option Error) :=
  readLoop read turns newRequest BUFFER_SIZE [] reader

/-- The request RequestFromReader returns for the given input and read size. -/
def fromChunks (data : Bytes) (byteCountPerRead turns : Nat) :
    Option (Option Request × Option Error) :=
  RequestFromReader ChunkReader.Read { data := data, byteCountPerRead := byteCountPerRead, pos := 0 }
    turns

/-- The states of the reader after each read that the loop of RequestFromReader makes, in the
order of the reads: the loop is that of readLoop, and a read that fails is not listed. -/
def readTrace {σ : Type} (read : σ → Nat → σ × Bytes × Option Error) :
    Nat → Request → Nat → Bytes → σ → List σ
  | 0, _, _, _, _ => []
  | turns + 1, request, lenBuf, buf, reader =>
    if request.done then []
    else
      let lenBuf := if buf.length ≥ lenBuf then lenBuf + BUFFER_SIZE else lenBuf
      match read reader (lenBuf - buf.length) with
      | (_, _, some _) => []
      | (reader, bytes, none) =>
        let buf := buf ++ bytes
        match request.parse buf with
        | some (request, parsedN, none) =>
          reader :: readTrace read turns request lenBuf (buf.drop parsedN) reader
        | _ => [reader]

/-- The positions in the input at which the reads of RequestFromReader over the chunk reader
end: the number of bytes the reader has handed over after each read. -/
def readEnds (data : Bytes) (byteCountPerRead turns : Nat) : List Nat :=
  (readTrace ChunkReader.Read turns newRequest BUFFER_SIZE []
    { data := data, byteCountPerRead := byteCountPerRead, pos := 0 }).map fun cr => cr.pos

/-- An ASCII letter. -/
def isAsciiLetter (b : Nat) : Bool := (0x41 ≤ b && b ≤ 0x5A) || (0x61 ≤ b && b ≤ 0x7A)

/-- Two bytes are equal or are the upper-case and lower-case form of one ASCII letter. -/
def sameLetter (a b : Nat) : Bool :=
  a == b || (isAsciiLetter a && isAsciiLetter b && (a == b + 0x20 || b == a + 0x20))

/-- Two strings differ only in the case of their ASCII letters. -/
def differOnlyInCase : Bytes → Bytes → Bool
  | [], [] => true
  | a :: s, b :: t => sameLetter a b && differOnlyInCase s t
  | _, _ => false

/-- The results of a parse call on a buffer that starts s bytes into the caller's buffer:
without an error the consumed count grows by s, with an error it is zero. -/
def shiftRes (s : Nat) (x : Request × Nat × Option Error) : Request × Nat × Option Error :=
  (x.1, (match x.2.2 with
    | none => s + x.2.1
    | some _ => 0), x.2.2)

/-- The number of turns that is enough for a request in the given phase. -/
def phaseTurns : ParserState → Nat
  | .INITIALIZED => 4
  | .PARSING_HEADERS => 3
  | .PARSING_BODY => 2
  | .DONE => 1

/-- How the result x of Request.parse on a buffer a bounds the result on a longer buffer
a ++ b: an error stays; a request that is DONE stays or runs into the content-length error; a
request that is not DONE goes on from where it stopped. -/
def Ext (r : Request) (a b : Bytes) (x : Request × Nat × Option Error) : Prop :=
  (∃ e r2, x.2.2 = some e ∧ r.parse (a ++ b) = some (r2, 0, some e)) ∨
  (x.2.2 = none ∧ x.1.parserState = .DONE ∧
    (r.parse (a ++ b) = some x ∨
      ∃ r2, r.parse (a ++ b) = some (r2, 0, some .ERROR_CONTENT_LENGTH_EXCEEDED))) ∨
  (x.2.2 = none ∧ x.1.parserState ≠ .DONE ∧
    r.parse (a ++ b) = (x.1.parse (a.drop x.2.1 ++ b)).map (shiftRes x.2.1))

/-- What RequestFromReader returns once Request.parse has returned x with an error or with
the request DONE. -/
def outcome (x : Request × Nat × Option Error) : Option Request × Option Error :=
  match x.2.2 with
  | some e => (none, some e)
  | none => (some x.1, none)

/-- Request.parse has returned an error or left the request DONE. -/
def settled (x : Request × Nat × Option Error) : Prop :=
  x.2.2 ≠ none ∨ x.1.parserState = .DONE

/-- The text of a request line, METHOD SP TARGET SP HTTP/1.1, without its CRLF. -/
def requestLineText (method target : Bytes) : Bytes :=
  method ++ 0x20 :: (target ++ 0x20 :: str "HTTP/1.1")

/-- A method and a target that make a valid request line: no space in either, only
upper-case runes in the method, no CRLF in the line. -/
def validRequestLine (method target : Bytes) : Bool :=
  decide (0x20 ∉ method) && decide (0x20 ∉ target) && isUpper method &&
    decide (bytesIndex (requestLineText method target) CRLF = none)

/-- The field name of a header line: the text before the first colon, leading spaces
stripped. -/
def lineName (l : Bytes) : Bytes := (l.takeWhile (· ≠ 0x3A)).dropWhile (· == 0x20)

/-- The field value of a header line: the text after the first colon, white space
trimmed. -/
def lineValue (l : Bytes) : Bytes := stringsTrimSpace ((l.dropWhile (· ≠ 0x3A)).drop 1)

/-- A valid header line, without its CRLF: not empty, no CRLF inside, a colon, and a valid
field name before it. -/
def validLine (l : Bytes) : Bool :=
  decide (l ≠ []) && decide (bytesIndex l CRLF = none) && decide (0x3A ∈ l) &&
    validHeaderKey (lineName l)

/-- A header block: every line followed by CRLF, then the blank line. -/
def headerBlock (lines : List Bytes) : Bytes := lines.flatMap (· ++ CRLF) ++ CRLF

/-- The collection c after Set for the header lines, in their order. -/
def setLines (c : Headers) (lines : List Bytes) : Headers :=
  lines.foldl (fun h l => h.Set (lineName l) (lineValue l)) c

/-- The head of a request on the wire: the request line, its CRLF and the header block. -/
def headBytes (method target : Bytes) (lines : List Bytes) : Bytes :=
  requestLineText method target ++ (CRLF ++ headerBlock lines)

/-- A request as it is written on the wire: the method and target of its request line, its
header lines and its body. -/
structure WireRequest where
  method : Bytes
  target : Bytes
  lines : List Bytes
  body : Bytes

/-- The bytes of a request on the wire. -/
def WireRequest.bytes (w : WireRequest) : Bytes := headBytes w.method w.target w.lines ++ w.body

/-- A well-formed request with a body: a valid request line, valid header lines, a
non-empty Host, and a Content-Length that reads as the length of the body, which is not
empty. -/
def WireRequest.wellFormed (w : WireRequest) : Bool :=
  validRequestLine w.method w.target && w.lines.all validLine &&
    decide ((setLines NewHeaders w.lines).Get (str "host") ≠ []) &&
    decide (strconvAtoi ((setLines NewHeaders w.lines).Get (str "content-length")) =
      ((w.body.length : Int), none)) &&
    decide (w.body ≠ [])

/-- The request the parser is to return for a request on the wire. -/
def WireRequest.parsed (w : WireRequest) : Request :=
  { RequestLine := { Method := w.method, RequestTarget := w.target, HttpVersion := str "1.1" }
    Headers := setLines NewHeaders w.lines
    Body := w.body
    parserState := .DONE }

/-- How a run of Headers.Parse over a buffer ends: more bytes are needed, the blank line was
reached, or a line was rejected. -/
inductive Outcome where
  | waiting
  | terminator
  | failed (err : Error)
  deriving DecidableEq, Repr

/-- The PARSING_HEADERS case of the loop of Request.parse, on its own: Headers.Parse is
called again and again, each time on the bytes after those consumed, until it consumes
nothing, reaches the blank line or fails. The results are the collection, the bytes consumed
by the calls that succeeded, and how the run ended; none when the turns do not suffice. -/
def driveHeaders : Nat → Headers → Bytes → Option (Headers × Nat × Outcome)
  | 0, _, _ => none
  | turns + 1, h, data =>
    match h.Parse data with
    | (h1, _, _, some err) => some (h1, 0, .failed err)
    | (h1, n, done, none) =>
      if n = 0 then some (h1, 0, .waiting)
      else if done then some (h1, n, .terminator)
      else (driveHeaders turns h1 (data.drop n)).map fun x => (x.1, n + x.2.1, x.2.2)

/-- Driving Headers.Parse over a buffer; len(data) + 1 turns are enough, every turn but the
last consuming bytes. -/
def drive (h : Headers) (data : Bytes) : Option (Headers × Nat × Outcome) :=
  driveHeaders (data.length + 1) h data

/-- Driving Headers.Parse over a first piece a of the input and then, when that run ended
waiting for bytes, over the unconsumed rest of a followed by the second piece b: the final
collection, the bytes consumed in total, and how the second run ended. When the first run
reached the blank line or failed, its results stand. -/
def driveTwice (h : Headers) (a b : Bytes) : Option (Headers × Nat × Outcome) :=
  match drive h a with
  | some (h1, n1, .waiting) => (drive h1 (a.drop n1 ++ b)).map fun x => (x.1, n1 + x.2.1, x.2.2)
  | other => other

/-! ## The fmt verbs the response writer uses -/

/-- The digit characters of Go fmt: 0 to 9, then a to f, or A to F for the verb %X. -/
def digitByte (upper : Bool) (d : Nat) : Nat :=
  if d < 10 then 0x30 + d else (if upper then 0x41 else 0x61) + (d - 10)

/-- The digit loop of Go fmt.fmtInteger for an unsigned value u, writing the digits in front
of acc from the last to the first. The first argument bounds the number of turns; u turns
are enough, each one dividing u by the base. -/
def fmtUintLoop (base : Nat) (upper : Bool) : Nat → Nat → Bytes → Bytes
  | 0, u, acc => digitByte upper u :: acc
  | turns + 1, u, acc =>
    if base ≤ u then
      fmtUintLoop base upper turns (u / base) (digitByte upper (u % base) :: acc)
    else digitByte upper u :: acc

/-- Go fmt verbs %d (base 10) and %X (base 16, upper) on an int: a minus sign for a negative
value, then the digits of its absolute value. -/
def fmtInteger (base : Nat) (upper : Bool) (v : Int) : Bytes :=
  (if v < 0 then [0x2D] else []) ++ fmtUintLoop base upper v.natAbs v.natAbs []

/-- The value of a numeral in base 16 with the digits 0 to 9 and A to F. -/
def hexValue (s : Bytes) : Nat :=
  s.foldl (fun a c => a * 16 + (if c < 0x3A then c - 0x30 else c - 0x41 + 10)) 0

/-- A digit 0 to 9 or an upper-case letter A to F. -/
def isUpperHexDigit (c : Nat) : Bool := (0x30 ≤ c && c ≤ 0x39) || (0x41 ≤ c && c ≤ 0x46)

/-! ## internal/response/response.go -/

/-- Go const REASON_OK. -/
def REASON_OK : Bytes := str "OK"

/-- Go const REASON_BAD_REQUEST. -/
def REASON_BAD_REQUEST : Bytes := str "Bad Request"

/-- Go const REASON_INTERNAL_ERROR, spelled as in the source. -/
def REASON_INTERNAL_ERROR : Bytes := str "Interval Server Error"

/-- Go const HTTP_VERSION. -/
def HTTP_VERSION : Bytes := str "HTTP/1.1"

/-- Go var ZERO_CRLF. -/
def ZERO_CRLF : Bytes := str "0\r\n"

/-- Go type WriterState with its six constants. -/
inductive WriterState where
  | INITIALIZED
  | STATUS_LINE_DONE
  | HEADERS
  | BODY
  | BODY_DONE
  | TRAILERS
  deriving DecidableEq, Repr

/-- Go type Writer; the io.Writer it holds is a state s of the sink. -/
structure Writer (σ : Type) where
  writerState : WriterState
  writer : σ

/-- Go NewWriter. -/
def NewWriter {σ : Type} (w : σ) : Writer σ := { writerState := .INITIALIZED, writer := w }

/-- The entries a Go range loop over the map visits: every key once, with the value a read
of the key returns. The order, which Go leaves open, is that of the list. -/
def Headers.entriesFrom : List Bytes → Headers → List (Bytes × Bytes)
  | _, [] => []
  | seen, (k, v) :: rest =>
    if k ∈ seen then Headers.entriesFrom seen rest
    else (k, v) :: Headers.entriesFrom (k :: seen) rest

/-- The entries of the map, as a range loop visits them. -/
def Headers.entries (h : Headers) : List (Bytes × Bytes) := Headers.entriesFrom [] h

/-- The bytes writeHeadersImpl builds: a line key, colon, space, value, CRLF for every entry,
then a CRLF. -/
def headerBytes (h : Headers) : Bytes :=
  (h.entries.flatMap fun e => e.1 ++ str ": " ++ e.2 ++ CRLF) ++ CRLF

/-- Go Writer.writeHeadersImpl. The Write method of the sink is the function write: from
the state of the sink and the bytes to the new state, the count n and the error. -/
def Writer.writeHeadersImpl {σ : Type} (write : σ → Bytes → σ × Nat × Option Error)
    (w : Writer σ) (h : Headers) : Writer σ × Option Error :=
  match write w.writer (headerBytes h) with
  | (s, _, some err) => ({ w with writer := s }, some err)
  | (s, _, none) => ({ w with writer := s }, none)

/-- Go Writer.WriteStatusLine: the writer after the call and the error. -/
def Writer.WriteStatusLine {σ : Type} (write : σ → Bytes → σ × Nat × Option Error)
    (w : Writer σ) (statusCode : Int) : Writer σ × Option Error :=
  if w.writerState ≠ .INITIALIZED then (w, some .ERROR_WRONG_WRITE_ORDER)
  else
    let reason : Bytes :=
      if statusCode = 200 then REASON_OK
      else if statusCode = 400 then REASON_BAD_REQUEST
      else if statusCode = 500 then REASON_INTERNAL_ERROR
      else []
    let statusLine :=
      HTTP_VERSION ++ str " " ++ fmtInteger 10 false statusCode ++ str " " ++ reason ++ CRLF
    match write w.writer statusLine with
    | (s, _, some err) => ({ w with writer := s }, some err)
    | (s, _, none) => ({ writerState := .STATUS_LINE_DONE, writer := s }, none)

/-- Go Writer.WriteHeaders. -/
def Writer.WriteHeaders {σ : Type} (write : σ → Bytes → σ × Nat × Option Error)
    (w : Writer σ) (h : Headers) : Writer σ × Option Error :=
  if w.writerState ≠ .STATUS_LINE_DONE ∧ w.writerState ≠ .HEADERS then
    (w, some .ERROR_WRONG_WRITE_ORDER)
  else Writer.writeHeadersImpl write { w with writerState := .HEADERS } h

/-- Go Writer.WriteBody: the writer after the call, the count and the error. -/
def Writer.WriteBody {σ : Type} (write : σ → Bytes → σ × Nat × Option Error)
    (w : Writer σ) (body : Bytes) : Writer σ × Nat × Option Error :=
  if w.writerState ≠ .HEADERS ∧ w.writerState ≠ .BODY then
    (w, 0, some .ERROR_WRONG_WRITE_ORDER)
  else
    match write w.writer body with
    | (s, n, some err) => ({ writerState := .BODY, writer := s }, n, some err)
    | (s, n, none) => ({ writerState := .BODY, writer := s }, n, none)

/-- Go Writer.WriteChunkedBody. -/
def Writer.WriteChunkedBody {σ : Type} (write : σ → Bytes → σ × Nat × Option Error)
    (w : Writer σ) (body : Bytes) : Writer σ × Nat × Option Error :=
  if w.writerState ≠ .HEADERS ∧ w.writerState ≠ .BODY then
    (w, 0, some .ERROR_WRONG_WRITE_ORDER)
  else
    let bodyLen := body.length
    let s := fmtInteger 16 true bodyLen ++ CRLF
    let c := s ++ body ++ CRLF
    match write w.writer c with
    | (sink, _, some err) => ({ writerState := .BODY, writer := sink }, 0, some err)
    | (sink, n, none) => ({ writerState := .BODY, writer := sink }, n, none)

/-- Go Writer.WriteChunkedBodyDone. -/
def Writer.WriteChunkedBodyDone {σ : Type} (write : σ → Bytes → σ × Nat × Option Error)
    (w : Writer σ) : Writer σ × Nat × Option Error :=
  if w.writerState ≠ .BODY then (w, 0, some .ERROR_WRONG_WRITE_ORDER)
  else
    let c := ZERO_CRLF ++ CRLF
    match write w.writer c with
    | (sink, _, some err) => ({ w with writer := sink }, 0, some err)
    | (sink, n, none) => ({ writerState := .BODY_DONE, writer := sink }, n, none)

/-- Go Writer.WriteTrailers. -/
def Writer.WriteTrailers {σ : Type} (write : σ → Bytes → σ × Nat × Option Error)
    (w : Writer σ) (h : Headers) : Writer σ × Option Error :=
  if w.writerState ≠ .BODY_DONE ∧ w.writerState ≠ .TRAILERS then
    (w, some .ERROR_WRONG_WRITE_ORDER)
  else Writer.writeHeadersImpl write { w with writerState := .TRAILERS } h

/-- A sink that accepts every write and keeps the bytes, as a bytes.Buffer does. -/
def bufferWrite (s : Bytes) (p : Bytes) : Bytes × Nat × Option Error := (s ++ p, p.length, none)

/-- A sink whose every write fails, having taken no byte. -/
def brokenWrite (s : Bytes) (_ : Bytes) : Bytes × Nat × Option Error :=
  (s, 0, some (.writeError 0))

/-- A call of one of the six operations of the writer. -/
inductive Call where
  | WriteStatusLine (statusCode : Int)
  | WriteHeaders (h : Headers)
  | WriteBody (body : Bytes)
  | WriteChunkedBody (body : Bytes)
  | WriteChunkedBodyDone
  | WriteTrailers (h : Headers)

/-- The phases an operation is legal in. -/
def Call.legal : Call → WriterState → Bool
  | .WriteStatusLine _, s => s = .INITIALIZED
  | .WriteHeaders _, s => s = .STATUS_LINE_DONE || s = .HEADERS
  | .WriteBody _, s => s = .HEADERS || s = .BODY
  | .WriteChunkedBody _, s => s = .HEADERS || s = .BODY
  | .WriteChunkedBodyDone, s => s = .BODY
  | .WriteTrailers _, s => s = .BODY_DONE || s = .TRAILERS

/-- The phase an operation moves to. -/
def Call.target : Call → WriterState
  | .WriteStatusLine _ => .STATUS_LINE_DONE
  | .WriteHeaders _ => .HEADERS
  | .WriteBody _ => .BODY
  | .WriteChunkedBody _ => .BODY
  | .WriteChunkedBodyDone => .BODY_DONE
  | .WriteTrailers _ => .TRAILERS

/-- The writer after a call and the error the call returns. -/
def Writer.call {σ : Type} (write : σ → Bytes → σ × Nat × Option Error) (w : Writer σ) :
    Call → Writer σ × Option Error
  | .WriteStatusLine c => w.WriteStatusLine write c
  | .WriteHeaders h => w.WriteHeaders write h
  | .WriteBody b => ((w.WriteBody write b).1, (w.WriteBody write b).2.2)
  | .WriteChunkedBody b => ((w.WriteChunkedBody write b).1, (w.WriteChunkedBody write b).2.2)
  | .WriteChunkedBodyDone => ((w.WriteChunkedBodyDone write).1, (w.WriteChunkedBodyDone write).2.2)
  | .WriteTrailers h => w.WriteTrailers write h

/-- The writer after a sequence of calls, whatever errors they return. -/
def Writer.calls {σ : Type} (write : σ → Bytes → σ × Nat × Option Error) (w : Writer σ)
    (cs : List Call) : Writer σ :=
  cs.foldl (fun w c => (w.call write c).1) w

/-- The place of a phase in the order INITIALIZED, STATUS_LINE_DONE, HEADERS, BODY,
BODY_DONE, TRAILERS. -/
def WriterState.rank : WriterState → Nat
  | .INITIALIZED => 0
  | .STATUS_LINE_DONE => 1
  | .HEADERS => 2
  | .BODY => 3
  | .BODY_DONE => 4
  | .TRAILERS => 5

/-- The status line WriteStatusLine builds for a status code. -/
def statusLine (statusCode : Int) : Bytes :=
  HTTP_VERSION ++ str " " ++ fmtInteger 10 false statusCode ++ str " " ++
    (if statusCode = 200 then REASON_OK
      else if statusCode = 400 then REASON_BAD_REQUEST
      else if statusCode = 500 then REASON_INTERNAL_ERROR
      else []) ++ CRLF

/-! ## Sequences of calls, and the check of the case ranges -/

/-- The place of a phase in the order INITIALIZED, PARSING_HEADERS, PARSING_BODY, DONE. -/
def ParserState.rank : ParserState → Nat
  | .INITIALIZED => 0
  | .PARSING_HEADERS => 1
  | .PARSING_BODY => 2
  | .DONE => 3

/-- Calls of Request.parse on the given buffers one after the other, as long as no call
returns an error: the request the last call made leaves, and the error of that call. -/
def Request.parseCalls : Request → List Bytes → Option (Request × Option Error)
  | r, [] => some (r, none)
  | r, data :: rest =>
    match r.parse data with
    | none => none
    | some (r1, _, some err) => some (r1, some err)
    | some (r1, _, none) => Request.parseCalls r1 rest

/-- The body of the request is within the length its Content-Length header declares: empty
before the phase PARSING_BODY, empty or shorter than the declared length in that phase, and
of the declared length, or empty with no length declared, in the phase DONE. -/
def Request.bodyWithin (r : Request) : Prop :=
  match r.parserState with
  | .INITIALIZED => r.Body = []
  | .PARSING_HEADERS => r.Body = []
  | .PARSING_BODY =>
    r.Body = [] ∨
      (r.Headers.Get (str "content-length") ≠ [] ∧
        r.Headers.Get (str "content-length") ≠ str "0" ∧
        (strconvAtoi (r.Headers.Get (str "content-length"))).2 = none ∧
        (r.Body.length : Int) < (strconvAtoi (r.Headers.Get (str "content-length"))).1)
  | .DONE =>
    ((r.Headers.Get (str "content-length") = [] ∨
        r.Headers.Get (str "content-length") = str "0") ∧ r.Body = []) ∨
      (r.Headers.Get (str "content-length") ≠ [] ∧
        r.Headers.Get (str "content-length") ≠ str "0" ∧
        (strconvAtoi (r.Headers.Get (str "content-length"))).2 = none ∧
        (r.Body.length : Int) = (strconvAtoi (r.Headers.Get (str "content-length"))).1)

/-- The request is in the phase PARSING_BODY with a body longer than the length its
Content-Length header declares. -/
def Request.bodyExceeds (r : Request) : Prop :=
  r.parserState = .PARSING_BODY ∧
    r.Headers.Get (str "content-length") ≠ [] ∧
    r.Headers.Get (str "content-length") ≠ str "0" ∧
    (strconvAtoi (r.Headers.Get (str "content-length"))).2 = none ∧
    (strconvAtoi (r.Headers.Get (str "content-length"))).1 < (r.Body.length : Int)

/-- A Unicode scalar value: a rune up to U+10FFFF that is not a surrogate. -/
def validRune (r : Nat) : Bool := r < 0xD800 || (0xE000 ≤ r && r ≤ 0x10FFFF)

/-- The number of runes a case range lists. -/
def caseRangeCount (e : Nat × Nat × Nat × Int) : Nat := (e.2.1 - e.1) / e.2.2.1 + 1

/-- The set of the first n runes lo, lo + stride, ... of a case range, as the bits of a
number. -/
def pointMask (lo stride : Nat) : Nat → Nat
  | 0 => 0
  | n + 1 => pointMask lo stride n ||| 2 ^ (lo + n * stride)

/-- The set of the runes the case ranges list, as the bits of a number. -/
def tableMask : List (Nat × Nat × Nat × Int) → Nat
  | [] => 0
  | e :: rest => pointMask e.1 e.2.2.1 (caseRangeCount e) ||| tableMask rest

/-- The rune y is a scalar value, no ASCII capital and not in the set. -/
def lowerFixed (mask y : Nat) : Bool :=
  validRune y && (0x80 ≤ y || 0x5B ≤ y || y ≤ 0x40) && !mask.testBit y

/-- The lower-case forms of the first n runes of a case range are fixed. -/
def imagesFixed (mask lo stride : Nat) (delta : Int) : Nat → Bool
  | 0 => true
  | n + 1 =>
    lowerFixed mask (((lo + n * stride : Nat) : Int) + delta).toNat &&
      imagesFixed mask lo stride delta n

/-- The lower-case forms of all runes of the case ranges are fixed. -/
def tableFixed (mask : Nat) : List (Nat × Nat × Nat × Int) → Bool
  | [] => true
  | e :: rest => imagesFixed mask e.1 e.2.2.1 e.2.2.2 (caseRangeCount e) && tableFixed mask rest

/-- The check that the lower-case form of every rune the case ranges list is a scalar value
that the case ranges do not list; the set of the listed runes is computed once. -/
def caseRangesFixed (t : List (Nat × Nat × Nat × Int)) : Bool :=
  match tableMask t with
  | 0 => tableFixed 0 t
  | k + 1 => tableFixed (k + 1) t

/-- A call of one of the four operations that change a header collection. -/
inductive HeaderCall where
  | Set (key value : Bytes)
  | Replace (key value : Bytes)
  | Delete (key : Bytes)
  | Parse (data : Bytes)

/-- The collection after a call. -/
def Headers.call (h : Headers) : HeaderCall → Headers
  | .Set key value => h.Set key value
  | .Replace key value => h.Replace key value
  | .Delete key => h.Delete key
  | .Parse data => (h.Parse data).1

/-- The collection after a sequence of calls. -/
def Headers.calls (h : Headers) (cs : List HeaderCall) : Headers := cs.foldl Headers.call h

/-! # Theorems -/

/-! ## Splitting -/

theorem stringsSplit_nil (sep : Nat) : stringsSplit [] sep = [[]] := rfl

theorem stringsSplit_cons (b : Nat) (rest : Bytes) (sep : Nat) :
    stringsSplit (b :: rest) sep =
      if b = sep then [] :: stringsSplit rest sep
      else
        match stringsSplit rest sep with
        | [] => [[b]]
        | p :: ps => (b :: p) :: ps := rfl

theorem stringsSplit_ne_nil (s : Bytes) (sep : Nat) : stringsSplit s sep ≠ [] := by
  induction s with
  | nil => simp [stringsSplit_nil]
  | cons b rest ih =>
    rw [stringsSplit_cons]
    split_ifs
    · simp
    · cases h : stringsSplit rest sep <;> simp

theorem stringsSplit_of_not_mem (a : Bytes) (sep : Nat) (h : sep ∉ a) :
    stringsSplit a sep = [a] := by
  induction a with
  | nil => simp [stringsSplit_nil]
  | cons b rest ih =>
    simp only [List.mem_cons, not_or] at h
    rw [stringsSplit_cons, if_neg (fun e => h.1 e.symm), ih h.2]

theorem stringsSplit_append (a rest : Bytes) (sep : Nat) (h : sep ∉ a) :
    stringsSplit (a ++ sep :: rest) sep = a :: stringsSplit rest sep := by
  induction a with
  | nil => simp [stringsSplit_cons]
  | cons b t ih =>
    simp only [List.mem_cons, not_or] at h
    rw [List.cons_append, stringsSplit_cons, if_neg (fun e => h.1 e.symm), ih h.2]

/-- The pieces of a split, joined by the separator, give the string back, and no piece
contains the separator. -/
theorem stringsSplit_spec (s : Bytes) (sep : Nat) :
    s = List.intercalate [sep] (stringsSplit s sep) ∧ ∀ p ∈ stringsSplit s sep, sep ∉ p := by
  induction s with
  | nil => simp [stringsSplit_nil, List.intercalate]
  | cons b rest ih =>
    rw [stringsSplit_cons]
    split_ifs with hb
    · obtain ⟨h1, h2⟩ := ih
      constructor
      · cases hr : stringsSplit rest sep with
        | nil => exact absurd hr (stringsSplit_ne_nil _ _)
        | cons p ps =>
          rw [hr] at h1
          cases ps with
          | nil => simp [List.intercalate] at h1 ⊢; simp [h1, hb]
          | cons q qs => simp [List.intercalate] at h1 ⊢; simp [h1, hb]
      · intro p hp
        simp only [List.mem_cons] at hp
        rcases hp with rfl | hp
        · simp
        · exact h2 p hp
    · obtain ⟨h1, h2⟩ := ih
      cases hr : stringsSplit rest sep with
      | nil => exact absurd hr (stringsSplit_ne_nil _ _)
      | cons p ps =>
        rw [hr] at h1 h2
        constructor
        · cases ps with
          | nil => simp [List.intercalate] at h1 ⊢; exact h1
          | cons q qs => simp [List.intercalate] at h1 ⊢; exact h1
        · intro x hx
          simp only [List.mem_cons] at hx
          rcases hx with rfl | hx
          · simp only [List.mem_cons, not_or]
            exact ⟨fun e => hb e.symm, h2 p (by simp)⟩
          · exact h2 x (by simp [hx])

theorem stringsSplit_eq_three (s a b c : Bytes) (sep : Nat) :
    stringsSplit s sep = [a, b, c] ↔
      s = a ++ sep :: (b ++ sep :: c) ∧ sep ∉ a ∧ sep ∉ b ∧ sep ∉ c := by
  constructor
  · intro h
    have hs := stringsSplit_spec s sep
    rw [h] at hs
    refine ⟨?_, hs.2 a (by simp), hs.2 b (by simp), hs.2 c (by simp)⟩
    have := hs.1
    simpa [List.intercalate] using this
  · rintro ⟨rfl, ha, hb, hc⟩
    rw [stringsSplit_append _ _ _ ha, stringsSplit_append _ _ _ hb, stringsSplit_of_not_mem _ _ hc]

theorem stringsSplit_eq_two (s a b : Bytes) (sep : Nat) :
    stringsSplit s sep = [a, b] ↔ s = a ++ sep :: b ∧ sep ∉ a ∧ sep ∉ b := by
  constructor
  · intro h
    have hs := stringsSplit_spec s sep
    rw [h] at hs
    refine ⟨?_, hs.2 a (by simp), hs.2 b (by simp)⟩
    have := hs.1
    simpa [List.intercalate] using this
  · rintro ⟨rfl, ha, hb⟩
    rw [stringsSplit_append _ _ _ ha, stringsSplit_of_not_mem _ _ hb]

/-! ## parseRequestLine -/

theorem stringsSplit_version (version : Bytes) :
    stringsSplit version 0x2F = [str "HTTP", str "1.1"] ↔ version = str "HTTP/1.1" := by
  rw [stringsSplit_eq_two]
  constructor
  · rintro ⟨h, -, -⟩
    rw [h]; decide
  · rintro rfl
    decide

/-- C3. When the buffer holds a CRLF, first at index, parseRequestLine succeeds exactly when
the text before it is method, space, target, space, HTTP/1.1 with no space inside method and
target and only upper-case runes in method; it then returns that method and target, the
version 1.1 and index + 2 as the consumed count. In every other case it returns an error and
consumes nothing. -/
theorem parseRequestLine_iff (data : Bytes) (index : Nat)
    (hidx : bytesIndex data CRLF = some index) :
    (∀ rl n, parseRequestLine data = (some rl, n, none) ↔
      ∃ method target,
        data.take index = method ++ 0x20 :: (target ++ 0x20 :: str "HTTP/1.1") ∧
        0x20 ∉ method ∧ 0x20 ∉ target ∧ (∀ r ∈ runes method, unicodeIsUpper r = true) ∧
        rl = { Method := method, RequestTarget := target, HttpVersion := str "1.1" } ∧
        n = index + 2) ∧
    ((¬ ∃ rl n, parseRequestLine data = (some rl, n, none)) →
      ∃ e, parseRequestLine data = (none, 0, some e)) := by
  have hsp : (0x20 : Nat) ∉ str "HTTP/1.1" := by decide
  constructor
  · intro rl n
    simp only [parseRequestLine, hidx]
    constructor
    · intro h
      split at h
      · rename_i method target version hsplit
        split_ifs at h with hup
        · simp at h
        · split at h
          · rename_i name number hv
            split_ifs at h with hver
            · simp at h
            · simp only [Prod.mk.injEq, Option.some.injEq, and_true] at h
              obtain ⟨hrl, hn⟩ := h
              have hname : name = str "HTTP" := by
                by_contra hc; exact hver (Or.inl hc)
              have hnum : number = str "1.1" := by
                by_contra hc; exact hver (Or.inr hc)
              subst hname hnum
              have hversion := (stringsSplit_version version).1 hv
              subst hversion
              obtain ⟨hline, hm, ht, -⟩ := (stringsSplit_eq_three _ _ _ _ _).1 hsplit
              refine ⟨method, target, hline, hm, ht, ?_, hrl.symm, ?_⟩
              · simpa [isUpper] using hup
              · simp [CRLF] at hn; omega
          · simp at h
      · simp at h
    · rintro ⟨method, target, hline, hm, ht, hup, rfl, rfl⟩
      have hsplit := (stringsSplit_eq_three _ method target (str "HTTP/1.1") 0x20).2
        ⟨hline, hm, ht, hsp⟩
      rw [hsplit]
      have hup2 : isUpper method = true := by simpa [isUpper] using hup
      simp only [hup2, (stringsSplit_version _).2 rfl]
      simp [CRLF]
  · intro hne
    have hcases : (∃ e, parseRequestLine data = (none, 0, some e)) ∨
        ∃ rl n, parseRequestLine data = (some rl, n, none) := by
      simp only [parseRequestLine, hidx]
      split
      · split_ifs
        · exact Or.inl ⟨_, rfl⟩
        · split
          · split_ifs
            · exact Or.inl ⟨_, rfl⟩
            · exact Or.inr ⟨_, _, rfl⟩
          · exact Or.inl ⟨_, rfl⟩
      · exact Or.inl ⟨_, rfl⟩
    rcases hcases with h | h
    · exact h
    · exact absurd h hne

/-! ## Searching -/

theorem hasPrefix_nil (s : Bytes) : hasPrefix s [] = true := by
  cases s <;> rfl

theorem hasPrefix_cons (a : Nat) (s : Bytes) (b : Nat) (p : Bytes) :
    hasPrefix (a :: s) (b :: p) = (a == b && hasPrefix s p) := rfl

theorem hasPrefix_iff (s p : Bytes) : hasPrefix s p = true ↔ ∃ t, s = p ++ t := by
  induction p generalizing s with
  | nil => simp [hasPrefix_nil]
  | cons b p ih =>
    cases s with
    | nil => simp [hasPrefix]
    | cons a s =>
      rw [hasPrefix_cons, Bool.and_eq_true, ih, beq_iff_eq]
      constructor
      · rintro ⟨rfl, t, rfl⟩
        exact ⟨t, rfl⟩
      · rintro ⟨t, ht⟩
        simp only [List.cons_append, List.cons.injEq] at ht
        exact ⟨ht.1, t, ht.2⟩

theorem hasPrefix_length (s p : Bytes) (h : hasPrefix s p = true) : p.length ≤ s.length := by
  obtain ⟨t, rfl⟩ := (hasPrefix_iff s p).1 h
  simp

theorem hasPrefix_append (s p b : Bytes) (h : hasPrefix s p = true) :
    hasPrefix (s ++ b) p = true := by
  obtain ⟨t, rfl⟩ := (hasPrefix_iff s p).1 h
  exact (hasPrefix_iff _ _).2 ⟨t ++ b, by simp⟩

theorem hasPrefix_of_append (s p b : Bytes) (h : hasPrefix (s ++ b) p = true)
    (hlen : p.length ≤ s.length) : hasPrefix s p = true := by
  induction p generalizing s with
  | nil => exact hasPrefix_nil s
  | cons c p ih =>
    cases s with
    | nil => simp at hlen
    | cons a s =>
      rw [List.cons_append, hasPrefix_cons, Bool.and_eq_true] at h
      rw [hasPrefix_cons, Bool.and_eq_true]
      exact ⟨h.1, ih s h.2 (by simpa using hlen)⟩

theorem bytesIndex_nil (sep : Bytes) :
    bytesIndex [] sep = if hasPrefix [] sep then some 0 else none := by
  cases sep <;> rfl

theorem bytesIndex_cons (b : Nat) (rest sep : Bytes) :
    bytesIndex (b :: rest) sep =
      if hasPrefix (b :: rest) sep then some 0 else (bytesIndex rest sep).map (· + 1) := by
  cases sep <;> rfl

/-- The index bytes.Index returns is that of an occurrence, and no occurrence starts
earlier. -/
theorem bytesIndex_eq_some_iff (s sep : Bytes) (i : Nat) :
    bytesIndex s sep = some i ↔
      i ≤ s.length ∧ hasPrefix (s.drop i) sep = true ∧
        ∀ j, j < i → hasPrefix (s.drop j) sep = false := by
  induction s generalizing i with
  | nil =>
    rw [bytesIndex_nil]
    by_cases h : hasPrefix [] sep = true
    · simp only [h, if_true, Option.some.injEq]
      constructor
      · rintro rfl; simp [h]
      · rintro ⟨h1, -, -⟩; simp at h1; exact h1.symm
    · simp only [h]
      constructor
      · intro hh; exact absurd hh (by simp)
      · rintro ⟨hi, h2, -⟩
        simp only [List.drop_nil] at h2
        exact absurd h2 h
  | cons b rest ih =>
    rw [bytesIndex_cons]
    by_cases h : hasPrefix (b :: rest) sep = true
    · simp only [h, if_true, Option.some.injEq]
      constructor
      · rintro rfl; simp [h]
      · rintro ⟨-, -, h3⟩
        by_contra hne
        have := h3 0 (by omega)
        simp [h] at this
    · simp only [h]
      cases i with
      | zero =>
        constructor
        · intro hh
          simp only [Bool.false_eq_true, if_false, Option.map_eq_some'] at hh
          obtain ⟨k, -, hk⟩ := hh
          omega
        · rintro ⟨-, h2, -⟩
          simp only [List.drop_zero] at h2
          exact absurd h2 h
      | succ i =>
        simp only [Bool.false_eq_true, if_false, Option.map_eq_some', List.length_cons,
          List.drop_succ_cons]
        constructor
        · rintro ⟨k, hk, hki⟩
          have hki2 : k = i := by omega
          subst hki2
          obtain ⟨h1, h2, h3⟩ := (ih k).1 hk
          refine ⟨by omega, h2, ?_⟩
          intro j hj
          cases j with
          | zero => simpa using h
          | succ j => simpa using h3 j (by omega)
        · rintro ⟨h1, h2, h3⟩
          refine ⟨i, (ih i).2 ⟨by omega, h2, ?_⟩, rfl⟩
          intro j hj
          simpa using h3 (j + 1) (by omega)

theorem bytesIndex_eq_none_iff (s sep : Bytes) :
    bytesIndex s sep = none ↔ ∀ j, j ≤ s.length → hasPrefix (s.drop j) sep = false := by
  induction s with
  | nil =>
    rw [bytesIndex_nil]
    by_cases h : hasPrefix [] sep = true
    · simp [h]
    · simp only [h]
      simp
      simpa using h
  | cons b rest ih =>
    rw [bytesIndex_cons]
    by_cases h : hasPrefix (b :: rest) sep = true
    · simp only [h, if_true]
      simp
      exact ⟨0, by simp, by simpa using h⟩
    · simp only [h, Bool.false_eq_true, if_false, Option.map_eq_none', ih]
      constructor
      · intro hr j hj
        cases j with
        | zero => simpa using h
        | succ j => simpa using hr j (by simpa using hj)
      · intro hr j hj
        simpa using hr (j + 1) (by simpa using hj)

theorem bytesIndex_le (s sep : Bytes) (i : Nat) (h : bytesIndex s sep = some i) :
    i + sep.length ≤ s.length := by
  obtain ⟨h1, h2, -⟩ := (bytesIndex_eq_some_iff s sep i).1 h
  have := hasPrefix_length _ _ h2
  simp at this
  omega

theorem bytesIndex_append (a b sep : Bytes) (i : Nat) (h : bytesIndex a sep = some i) :
    bytesIndex (a ++ b) sep = some i := by
  have hle := bytesIndex_le a sep i h
  obtain ⟨h1, h2, h3⟩ := (bytesIndex_eq_some_iff a sep i).1 h
  rw [bytesIndex_eq_some_iff]
  refine ⟨by simp; omega, ?_, ?_⟩
  · rw [List.drop_append_of_le_length h1]
    exact hasPrefix_append _ _ _ h2
  · intro j hj
    have hja : j ≤ a.length := by omega
    rw [List.drop_append_of_le_length hja]
    by_contra hc
    have hc2 : hasPrefix (a.drop j ++ b) sep = true := by simpa using hc
    have := hasPrefix_of_append _ _ _ hc2 (by simp; omega)
    rw [h3 j hj] at this
    exact absurd this (by simp)

theorem bytesIndex_of_append (a b sep : Bytes) (i : Nat)
    (h : bytesIndex (a ++ b) sep = some i) (hlen : i + sep.length ≤ a.length) :
    bytesIndex a sep = some i := by
  obtain ⟨h1, h2, h3⟩ := (bytesIndex_eq_some_iff (a ++ b) sep i).1 h
  rw [bytesIndex_eq_some_iff]
  refine ⟨by omega, ?_, ?_⟩
  · rw [List.drop_append_of_le_length (by omega)] at h2
    exact hasPrefix_of_append _ _ _ h2 (by simp; omega)
  · intro j hj
    have := h3 j hj
    rw [List.drop_append_of_le_length (by omega)] at this
    by_contra hc
    have hc2 : hasPrefix (a.drop j) sep = true := by simpa using hc
    rw [hasPrefix_append _ _ b hc2] at this
    exact absurd this (by simp)

/-- A buffer too short to hold the occurrence found in an extension of it holds none. -/
theorem bytesIndex_none_of_append (a b sep : Bytes) (i : Nat)
    (h : bytesIndex (a ++ b) sep = some i) (hlen : a.length < i + sep.length) :
    bytesIndex a sep = none := by
  cases ha : bytesIndex a sep with
  | none => rfl
  | some k =>
    have := bytesIndex_append a b sep k ha
    rw [h] at this
    have hk := bytesIndex_le a sep k ha
    simp at this
    omega

theorem parseRequestLine_iff_witness :
    parseRequestLine (str "GET /x HTTP/1.1\r\n") =
      (some { Method := str "GET", RequestTarget := str "/x", HttpVersion := str "1.1" },
        17, none) :=
  ((parseRequestLine_iff (str "GET /x HTTP/1.1\r\n") 15 (by decide)).1 _ _).2
    ⟨str "GET", str "/x", by decide, by decide, by decide, by decide, rfl, rfl⟩

/-- A line without CRLF, followed by CRLF, has its first CRLF right after the line. -/
theorem bytesIndex_line (l rest : Bytes) (h : bytesIndex l CRLF = none) :
    bytesIndex (l ++ (CRLF ++ rest)) CRLF = some l.length := by
  induction l with
  | nil =>
    simp only [List.nil_append, List.length_nil]
    rw [bytesIndex_eq_some_iff]
    refine ⟨by simp, ?_, by simp⟩
    exact (hasPrefix_iff _ _).2 ⟨rest, rfl⟩
  | cons x l ih =>
    rw [bytesIndex_cons] at h
    split_ifs at h with hp
    simp only [Option.map_eq_none'] at h
    have := ih h
    rw [List.cons_append, bytesIndex_cons, this]
    have hnp : hasPrefix (x :: (l ++ (CRLF ++ rest))) CRLF = false := by
      cases l with
      | nil =>
        simp only [CRLF, List.nil_append, List.cons_append, hasPrefix_cons]
        simp
      | cons y l =>
        simp only [CRLF, List.cons_append, hasPrefix_cons, hasPrefix_nil] at hp ⊢
        simpa using hp
    simp [hnp]

theorem bytesIndex_single (s : Bytes) (c : Nat) :
    bytesIndex s [c] = if c ∈ s then some (s.takeWhile (· ≠ c)).length else none := by
  induction s with
  | nil => simp [bytesIndex_nil, hasPrefix]
  | cons b s ih =>
    rw [bytesIndex_cons, hasPrefix_cons, hasPrefix_nil, ih]
    by_cases hb : b = c
    · subst hb; simp
    · have hcb : ¬ c = b := fun e => hb e.symm
      by_cases hc : c ∈ s
      · simp [hb, hc, List.takeWhile_cons]
      · simp [hb, hc, hcb]

theorem sameLetter_cases (a b : Nat) (h : sameLetter a b = true) :
    a = b ∨ (a < 0x80 ∧ b < 0x80 ∧
      (if 0x41 ≤ a ∧ a ≤ 0x5A then a + 0x20 else a) =
        (if 0x41 ≤ b ∧ b ≤ 0x5A then b + 0x20 else b)) := by
  simp only [sameLetter, isAsciiLetter, Bool.or_eq_true, Bool.and_eq_true, beq_iff_eq,
    decide_eq_true_eq] at h
  rcases h with h | ⟨⟨ha, hb⟩, hab⟩
  · exact Or.inl h
  · right
    refine ⟨by omega, by omega, ?_⟩
    split_ifs <;> omega

theorem decodeRune_congr (a : Nat) (s t : Bytes)
    (h : differOnlyInCase s t = true) : decodeRune (a :: s) = decodeRune (a :: t) := by
  have key : ∀ x y : Nat, sameLetter x y = true → x = y ∨ (x < 0x80 ∧ y < 0x80) := by
    intro x y hxy
    rcases sameLetter_cases x y hxy with h1 | ⟨h1, h2, -⟩
    · exact Or.inl h1
    · exact Or.inr ⟨h1, h2⟩
  cases s with
  | nil => cases t with
    | nil => rfl
    | cons y t => simp [differOnlyInCase] at h
  | cons x s => cases t with
    | nil => simp [differOnlyInCase] at h
    | cons y t =>
      simp only [differOnlyInCase, Bool.and_eq_true] at h
      rcases key x y h.1 with rfl | ⟨hx, hy⟩
      · cases s with
        | nil => cases t with
          | nil => rfl
          | cons y t => simp [differOnlyInCase] at h
        | cons x2 s => cases t with
          | nil => simp [differOnlyInCase] at h
          | cons y2 t =>
            simp only [differOnlyInCase, Bool.and_eq_true] at h
            rcases key x2 y2 h.2.1 with rfl | ⟨hx, hy⟩
            · cases s with
              | nil => cases t with
                | nil => rfl
                | cons y t => simp [differOnlyInCase] at h
              | cons x3 s => cases t with
                | nil => simp [differOnlyInCase] at h
                | cons y3 t =>
                  simp only [differOnlyInCase, Bool.and_eq_true] at h
                  rcases key x3 y3 h.2.2.1 with rfl | ⟨hx, hy⟩
                  · simp only [decodeRune]
                  · simp only [decodeRune]
                    have h3 : (x3 < 0x80 ∨ 0xBF < x3) := Or.inl hx
                    have h4 : (y3 < 0x80 ∨ 0xBF < y3) := Or.inl hy
                    simp only [h3, h4, if_true]
            · simp only [decodeRune]
              have h3 : (x2 < 0x80 ∨ 0xBF < x2) := Or.inl hx
              have h4 : (y2 < 0x80 ∨ 0xBF < y2) := Or.inl hy
              simp only [h3, h4, if_true]
      · simp only [decodeRune]
        have hlo : ∀ p : Nat, 0x80 ≤ acceptLo p := by
          intro p; unfold acceptLo; split_ifs <;> omega
        have h3 : (x < acceptLo a ∨ acceptHi a < x) := Or.inl (lt_of_lt_of_le hx (hlo a))
        have h4 : (y < acceptLo a ∨ acceptHi a < y) := Or.inl (lt_of_lt_of_le hy (hlo a))
        simp only [h3, h4, if_true]

theorem unicodeToLower_ascii (r : Nat) (h : r < 0x80) :
    unicodeToLower r = if 0x41 ≤ r ∧ r ≤ 0x5A then r + 0x20 else r := by
  unfold unicodeToLower
  rw [if_pos (by omega)]

theorem runesAux_cons_zero (b : Nat) (rest : Bytes) :
    runesAux 0 (b :: rest) =
      (decodeRune (b :: rest)).1 :: runesAux ((decodeRune (b :: rest)).2 - 1) rest := rfl

theorem runesAux_cons_succ (k b : Nat) (rest : Bytes) :
    runesAux (k + 1) (b :: rest) = runesAux k rest := rfl

theorem decodeRune_ascii (b : Nat) (rest : Bytes) (h : b < 0x80) :
    decodeRune (b :: rest) = (b, 1) := by
  simp only [decodeRune, h, if_true]

theorem runesAux_lower_congr (s t : Bytes) (h : differOnlyInCase s t = true) (k : Nat) :
    (runesAux k s).map unicodeToLower = (runesAux k t).map unicodeToLower := by
  induction s generalizing t k with
  | nil =>
    cases t with
    | nil => rfl
    | cons b t => simp [differOnlyInCase] at h
  | cons a s ih =>
    cases t with
    | nil => simp [differOnlyInCase] at h
    | cons b t =>
      simp only [differOnlyInCase, Bool.and_eq_true] at h
      cases k with
      | succ k => rw [runesAux_cons_succ, runesAux_cons_succ]; exact ih t h.2 k
      | zero =>
        rw [runesAux_cons_zero, runesAux_cons_zero]
        rcases sameLetter_cases a b h.1 with rfl | ⟨ha, hb, hab⟩
        · rw [decodeRune_congr a s t h.2, List.map_cons, List.map_cons, ih t h.2]
        · rw [decodeRune_ascii a s ha, decodeRune_ascii b t hb, List.map_cons, List.map_cons,
            ih t h.2, unicodeToLower_ascii a ha, unicodeToLower_ascii b hb, hab]

/-- Lower-casing does not see a difference in the case of ASCII letters. -/
theorem stringsToLower_congr (s t : Bytes) (h : differOnlyInCase s t = true) :
    stringsToLower s = stringsToLower t := by
  have hall : ∀ s t : Bytes, differOnlyInCase s t = true →
      (s.all (· < 0x80) = t.all (· < 0x80)) ∧
      (s.map fun c => if 0x41 ≤ c ∧ c ≤ 0x5A then c + 0x20 else c) =
        (t.map fun c => if 0x41 ≤ c ∧ c ≤ 0x5A then c + 0x20 else c) ∨
      (s.all (· < 0x80) = false ∧ t.all (· < 0x80) = false) := by
    intro s
    induction s with
    | nil =>
      intro t ht
      cases t with
      | nil => exact Or.inl ⟨rfl, rfl⟩
      | cons b t => simp [differOnlyInCase] at ht
    | cons a s ih =>
      intro t ht
      cases t with
      | nil => simp [differOnlyInCase] at ht
      | cons b t =>
        simp only [differOnlyInCase, Bool.and_eq_true] at ht
        rcases sameLetter_cases a b ht.1 with rfl | ⟨ha, hb, hab⟩
        · rcases ih t ht.2 with ⟨h1, h2⟩ | ⟨h1, h2⟩
          · by_cases ha : a < 0x80
            · left; simp only [List.all_cons, List.map_cons, h1, h2, and_self]
            · right; simp [ha]
          · right; simp only [List.all_cons, h1, h2, Bool.and_false, and_self]
        · rcases ih t ht.2 with ⟨h1, h2⟩ | ⟨h1, h2⟩
          · left
            simp only [List.all_cons, List.map_cons, h1, h2, hab, ha, hb, decide_True]
            exact ⟨trivial, trivial⟩
          · right; simp only [List.all_cons, h1, h2, Bool.and_false, and_self]
  have e : ∀ l : List Nat, (l.flatMap fun r => encodeRune (unicodeToLower r)) =
      (l.map unicodeToLower).flatMap encodeRune := by
    intro l; induction l <;> simp [List.flatMap_cons, *]
  have hr := runesAux_lower_congr s t h 0
  unfold stringsToLower
  rcases hall s t h with ⟨h1, h2⟩ | ⟨h1, h2⟩
  · rw [h1, h2]
    split_ifs
    · rfl
    · unfold runes
      rw [e, e, hr]
  · rw [h1, h2]
    simp only [Bool.false_eq_true, if_false]
    unfold runes
    rw [e, e, hr]

/-! ## The header collection -/

theorem lookup_store_same (h : Headers) (k v : Bytes) : (h.store k v).lookup k = some v := by
  induction h with
  | nil => simp [Headers.store, Headers.lookup]
  | cons e rest ih =>
    obtain ⟨k1, v1⟩ := e
    by_cases hk : k1 = k
    · simp [Headers.store, Headers.lookup, hk]
    · simp [Headers.store, Headers.lookup, hk, ih]

theorem lookup_store_other (h : Headers) (k v k2 : Bytes) (hne : k2 ≠ k) :
    (h.store k v).lookup k2 = h.lookup k2 := by
  induction h with
  | nil => simp [Headers.store, Headers.lookup, hne.symm]
  | cons e rest ih =>
    obtain ⟨k1, v1⟩ := e
    by_cases hk : k1 = k
    · subst hk
      simp [Headers.store, Headers.lookup, hne.symm]
    · by_cases hk2 : k1 = k2
      · subst hk2
        simp [Headers.store, Headers.lookup, hk]
      · simp [Headers.store, Headers.lookup, hk, hk2, ih]

theorem Get_eq (h : Headers) (key : Bytes) :
    h.Get key = (h.lookup (stringsToLower key)).getD [] := rfl

/-- What Set stores under the lower-cased key, and that it leaves every other key alone. -/
theorem lookup_Set (h : Headers) (key value : Bytes) :
    (h.Set key value).lookup (stringsToLower key) =
        some (match h.lookup (stringsToLower key) with
          | some old => old ++ str "," ++ value
          | none => value) ∧
      ∀ k2, k2 ≠ stringsToLower key → (h.Set key value).lookup k2 = h.lookup k2 := by
  cases hl : h.lookup (stringsToLower key) with
  | none =>
    simp only [Headers.Set, hl]
    exact ⟨lookup_store_same _ _ _, fun k2 hk => lookup_store_other _ _ _ _ hk⟩
  | some old =>
    simp only [Headers.Set, hl]
    exact ⟨lookup_store_same _ _ _, fun k2 hk => lookup_store_other _ _ _ _ hk⟩

/-- C8. In a collection with no entry for name, Get of any spelling of name that differs
only in letter case returns the value just Set; and Get of a name with no entry returns the
empty string. -/
theorem Get_Set (h : Headers) (name name2 v : Bytes)
    (hno : h.lookup (stringsToLower name) = none)
    (hcase : differOnlyInCase name name2 = true) :
    (h.Set name v).Get name2 = v ∧
      ∀ other, h.lookup (stringsToLower other) = none → h.Get other = [] := by
  constructor
  · have h1 := (lookup_Set h name v).1
    rw [hno] at h1
    rw [Get_eq, ← stringsToLower_congr name name2 hcase, h1]
    rfl
  · intro other ho
    rw [Get_eq, ho]
    rfl

theorem Get_Set_witness :
    differOnlyInCase (str "Host") (str "hOST") = true ∧
      (NewHeaders.Set (str "Host") (str "localhost:42069")).Get (str "hOST") =
        str "localhost:42069" ∧
      NewHeaders.Get (str "Accept") = [] :=
  ⟨by decide,
    (Get_Set NewHeaders (str "Host") (str "hOST") (str "localhost:42069") (by decide)
      (by decide)).1,
    (Get_Set NewHeaders (str "Host") (str "hOST") (str "localhost:42069") (by decide)
      (by decide)).2 (str "Accept") (by decide)⟩

/-- C9. Two Set calls for names equal up to letter case, on a collection with no entry for
them, store the first value, a comma and the second value. In general Set on a present key
stores the old value, a comma and the new value, and Set changes no other key. -/
theorem Set_Set (h : Headers) (n1 n2 v1 v2 : Bytes)
    (hno : h.lookup (stringsToLower n1) = none)
    (hcase : differOnlyInCase n1 n2 = true) :
    ((h.Set n1 v1).Set n2 v2).lookup (stringsToLower n1) = some (v1 ++ str "," ++ v2) ∧
      ((h.Set n1 v1).Set n2 v2).Get n1 = v1 ++ str "," ++ v2 ∧
      (∀ (c : Headers) (key old value : Bytes), c.lookup (stringsToLower key) = some old →
        (c.Set key value).lookup (stringsToLower key) = some (old ++ str "," ++ value)) ∧
      ∀ (c : Headers) (key value k2 : Bytes), k2 ≠ stringsToLower key →
        (c.Set key value).lookup k2 = c.lookup k2 := by
  have hgen : ∀ (c : Headers) (key old value : Bytes), c.lookup (stringsToLower key) = some old →
      (c.Set key value).lookup (stringsToLower key) = some (old ++ str "," ++ value) := by
    intro c key old value hc
    have := (lookup_Set c key value).1
    rw [hc] at this
    exact this
  have h1 : (h.Set n1 v1).lookup (stringsToLower n2) = some v1 := by
    have := (lookup_Set h n1 v1).1
    rw [hno] at this
    rw [← stringsToLower_congr n1 n2 hcase]
    exact this
  have h2 := hgen (h.Set n1 v1) n2 v1 v2 h1
  rw [← stringsToLower_congr n1 n2 hcase] at h2
  refine ⟨h2, ?_, hgen, fun c key value k2 hk => (lookup_Set c key value).2 k2 hk⟩
  rw [Get_eq, h2]
  rfl

theorem Set_Set_witness :
    ((NewHeaders.Set (str "Set-Person'") (str "prime-loves-zig")).Set (str "Set-Person'")
        (str "lane-loves-go")).Get (str "Set-Person'") =
      str "prime-loves-zig,lane-loves-go" :=
  (Set_Set NewHeaders (str "Set-Person'") (str "Set-Person'") (str "prime-loves-zig")
    (str "lane-loves-go") (by decide) (by decide)).2.1

/-! ## Headers.Parse -/

theorem take_length_takeWhile (s : Bytes) (p : Nat → Bool) :
    s.take (s.takeWhile p).length = s.takeWhile p ∧
      s.drop (s.takeWhile p).length = s.dropWhile p := by
  induction s with
  | nil => simp
  | cons b s ih =>
    by_cases hb : p b = true
    · simp [List.takeWhile_cons, List.dropWhile_cons, hb, ih.1, ih.2]
    · simp [List.takeWhile_cons, List.dropWhile_cons, hb]

/-- No occurrence of the separator is reported exactly when the buffer holds none. -/
theorem bytesIndex_eq_none_iff_forall (s sep : Bytes) :
    bytesIndex s sep = none ↔ ∀ a b, s ≠ a ++ (sep ++ b) := by
  rw [bytesIndex_eq_none_iff]
  constructor
  · intro h a b hs
    have := h a.length (by rw [hs]; simp)
    rw [hs, List.drop_left] at this
    rw [(hasPrefix_iff _ _).2 ⟨b, rfl⟩] at this
    exact absurd this (by simp)
  · intro h j hj
    by_contra hc
    have hc2 : hasPrefix (s.drop j) sep = true := by simpa using hc
    obtain ⟨t, ht⟩ := (hasPrefix_iff _ _).1 hc2
    apply h (s.take j) t
    rw [← ht, List.take_append_drop]

/-- C4. When the first CRLF of the buffer is at index i > 0, the line before it holds a
colon and the text before the first colon, leading spaces stripped, is a valid field name,
Headers.Parse returns i + 2, false and no error, and the collection afterwards is the
collection before with Set applied to that name and to the text after the first colon with
its leading and trailing white space trimmed. -/
theorem Parse_valid (h : Headers) (data : Bytes) (i : Nat)
    (hidx : bytesIndex data CRLF = some i) (hpos : 0 < i)
    (hcolon : 0x3A ∈ data.take i)
    (hkey : validHeaderKey
      (((data.take i).takeWhile (· ≠ 0x3A)).dropWhile (· == 0x20)) = true) :
    h.Parse data =
      (h.Set (((data.take i).takeWhile (· ≠ 0x3A)).dropWhile (· == 0x20))
          (stringsTrimSpace (((data.take i).dropWhile (· ≠ 0x3A)).drop 1)),
        i + 2, false, none) := by
  have hle := bytesIndex_le data CRLF i hidx
  have hlen : (data.take i).length = i := by
    rw [List.length_take]; simp [CRLF] at hle; omega
  have hc : bytesIndex (data.take i) (str ":") =
      some ((data.take i).takeWhile (· ≠ 0x3A)).length := by
    have : str ":" = [0x3A] := by decide
    rw [this, bytesIndex_single, if_pos hcolon]
  have ht := take_length_takeWhile (data.take i) (· ≠ 0x3A)
  simp only [Headers.Parse, hidx, hc, Nat.pos_iff_ne_zero.1 hpos, if_false, stringsTrimLeft,
    ht.1, hkey, Bool.not_true, Bool.false_eq_true, hlen, CRLF_LEN, ← List.drop_drop, ht.2]
  simp [CRLF]

theorem Parse_valid_witness :
    (NewHeaders.Parse (str "       Host:    localhost:42069      \r\n\r\n")).2.1 =
        (str "       Host:    localhost:42069      \r\n").length ∧
      (NewHeaders.Parse (str "       Host:    localhost:42069      \r\n\r\n")).1.Get
        (str "Host") = str "localhost:42069" := by
  rw [Parse_valid NewHeaders (str "       Host:    localhost:42069      \r\n\r\n") 37
    (by decide) (by decide) (by decide) (by decide)]
  decide

/-- C5. The field name made of the one rune U+0660, an Arabic-Indic digit that is neither
an ASCII letter or digit nor one of the fifteen punctuation characters, passes
validHeaderKey: Headers.Parse stores the header and reports no error. -/
theorem Parse_accepts_non_ascii_digit :
    validHeaderKey [0xD9, 0xA0] = true ∧
      NewHeaders.Parse [0xD9, 0xA0, 0x3A, 0x20, 0x78, 0x0D, 0x0A] =
        ([([0xD9, 0xA0], [0x78])], 7, false, none) := by
  decide

theorem parse_eq (r : Request) (data : Bytes) :
    r.parse data = Request.parseLoop (data.length + 4) r data 0 0 := rfl

theorem parseLoop_succ (turns : Nat) (r : Request) (data : Bytes) (s t : Nat) :
    Request.parseLoop (turns + 1) r data s t =
      match r.parseTurn data s t with
      | .again r1 s1 t1 => Request.parseLoop turns r1 data s1 t1
      | .returns r1 n err => some (r1, n, err) := rfl

/-- C6. On a buffer that holds no CRLF, the empty buffer included, Headers.Parse returns 0,
false and no error and leaves the collection as it was, and Request.parse in the phase
INITIALIZED returns 0 and no error and leaves the request, its phase included, as it was. -/
theorem need_more_data (h : Headers) (r : Request) (data : Bytes)
    (hno : ∀ a b, data ≠ a ++ (CRLF ++ b)) :
    h.Parse data = (h, 0, false, none) ∧
      (r.parserState = .INITIALIZED → r.parse data = some (r, 0, none)) := by
  have hidx := (bytesIndex_eq_none_iff_forall data CRLF).2 hno
  constructor
  · simp only [Headers.Parse, hidx]
  · intro hs
    rw [parse_eq, parseLoop_succ]
    simp only [Request.parseTurn, hs, List.drop_zero, parseRequestLine, hidx]
    rfl

theorem need_more_data_witness :
    NewHeaders.Parse (str "Host: localho") = (NewHeaders, 0, false, none) ∧
      newRequest.parse [] = some (newRequest, 0, none) :=
  ⟨(need_more_data NewHeaders newRequest (str "Host: localho")
      ((bytesIndex_eq_none_iff_forall _ _).1 (by decide))).1,
    (need_more_data NewHeaders newRequest []
      ((bytesIndex_eq_none_iff_forall _ _).1 (by decide))).2 rfl⟩

/-! ## The loop of Request.parse -/

theorem shiftRes_shiftRes (s t : Nat) (x : Request × Nat × Option Error) :
    shiftRes s (shiftRes t x) = shiftRes (s + t) x := by
  obtain ⟨r, n, e⟩ := x
  cases e <;> simp [shiftRes, Nat.add_assoc]

theorem parseLoop_zero (r : Request) (data : Bytes) (s t : Nat) :
    Request.parseLoop 0 r data s t = none := rfl

theorem parseLoop_mono (turns : Nat) (r : Request) (data : Bytes) (s t : Nat)
    (x : Request × Nat × Option Error) (h : Request.parseLoop turns r data s t = some x) :
    Request.parseLoop (turns + 1) r data s t = some x := by
  induction turns generalizing r s t with
  | zero => simp [parseLoop_zero] at h
  | succ n ih =>
    rw [parseLoop_succ] at h ⊢
    cases hturn : r.parseTurn data s t with
    | again r1 s1 t1 =>
      rw [hturn] at h
      simp only at h ⊢
      exact ih r1 s1 t1 h
    | returns r1 n1 e1 =>
      rw [hturn] at h
      exact h

theorem parseLoop_mono_le (t1 t2 : Nat) (hle : t1 ≤ t2) (r : Request) (data : Bytes)
    (s t : Nat) (x : Request × Nat × Option Error)
    (h : Request.parseLoop t1 r data s t = some x) :
    Request.parseLoop t2 r data s t = some x := by
  induction t2 with
  | zero =>
    have : t1 = 0 := by omega
    subst this; exact h
  | succ n ih =>
    by_cases hn : t1 ≤ n
    · exact parseLoop_mono n r data s t x (ih hn)
    · have : t1 = n + 1 := by omega
      subst this; exact h

theorem parseLoop_done (turns : Nat) (r : Request) (data : Bytes) (s t : Nat)
    (hd : r.parserState = .DONE) :
    Request.parseLoop (turns + 1) r data s t = some (r, t, none) := by
  rw [parseLoop_succ]
  simp only [Request.parseTurn, hd]

theorem parseRequestLine_le (data : Bytes) (rl : Option RequestLine) (n : Nat)
    (e : Option Error) (h : parseRequestLine data = (rl, n, e)) : n ≤ data.length := by
  unfold parseRequestLine at h
  cases hidx : bytesIndex data CRLF with
  | none => rw [hidx] at h; simp at h; omega
  | some i =>
    have hle := bytesIndex_le data CRLF i hidx
    rw [hidx] at h
    simp only at h
    split at h
    · split_ifs at h
      · simp at h; omega
      · split at h
        · split_ifs at h
          · simp at h; omega
          · simp at h; omega
        · simp at h; omega
    · simp at h; omega

theorem Parse_le (c : Headers) (data : Bytes) (c1 : Headers) (n : Nat) (done : Bool)
    (e : Option Error) (h : c.Parse data = (c1, n, done, e)) : n ≤ data.length := by
  unfold Headers.Parse at h
  cases hidx : bytesIndex data CRLF with
  | none => rw [hidx] at h; simp at h; omega
  | some i =>
    have hle := bytesIndex_le data CRLF i hidx
    simp only [CRLF, List.length_cons, List.length_nil] at hle
    rw [hidx] at h
    simp only at h
    split_ifs at h
    · simp [CRLF_LEN, CRLF] at h; omega
    · split at h
      · simp at h; omega
      · split_ifs at h
        · simp at h; omega
        · simp [CRLF_LEN, CRLF] at h; omega

/-- The shapes of a turn that goes on: out of INITIALIZED and PARSING_HEADERS it has consumed
bytes and startIndex equals totalBytesParsed; out of PARSING_BODY the phase is DONE. -/
theorem parseTurn_again (r : Request) (data : Bytes) (s t : Nat) (r1 : Request) (s1 t1 : Nat)
    (h : r.parseTurn data s t = .again r1 s1 t1) :
    (r.parserState = .INITIALIZED ∧ r1.parserState = .PARSING_HEADERS ∧ s1 = t1 ∧
      (t < t1 ∧ t1 ≤ t + (data.drop s).length)) ∨
    (r.parserState = .PARSING_HEADERS ∧ r1.parserState = .PARSING_HEADERS ∧ s1 = t1 ∧
      (t < t1 ∧ t1 ≤ t + (data.drop s).length)) ∨
    (r.parserState = .PARSING_HEADERS ∧ r1.parserState = .PARSING_BODY ∧ s1 = t1 ∧
      (t < t1 ∧ t1 ≤ t + (data.drop s).length)) ∨
    (r.parserState = .PARSING_BODY ∧ r1.parserState = .DONE ∧ s1 = s) := by
  unfold Request.parseTurn at h
  cases hs : r.parserState with
  | INITIALIZED =>
    rw [hs] at h
    simp only at h
    split at h
    · simp at h
    · rename_i hprl
      have hle := parseRequestLine_le _ _ _ _ hprl
      split_ifs at h with hn
      split at h
      · simp at h
      · simp only [Turn.again.injEq] at h
        obtain ⟨rfl, rfl, rfl⟩ := h
        left
        exact ⟨rfl, rfl, rfl, by omega, by omega⟩
  | PARSING_HEADERS =>
    rw [hs] at h
    simp only at h
    split at h
    · simp at h
    · rename_i hprl
      have hle := Parse_le _ _ _ _ _ _ hprl
      split_ifs at h with hn hdone hhost
      · simp only [Turn.again.injEq] at h
        obtain ⟨rfl, rfl, rfl⟩ := h
        right; right; left
        exact ⟨rfl, rfl, rfl, by omega, by omega⟩
      · simp only [Turn.again.injEq] at h
        obtain ⟨rfl, rfl, rfl⟩ := h
        right; left
        exact ⟨rfl, rfl, rfl, by omega, by omega⟩
  | PARSING_BODY =>
    rw [hs] at h
    simp only at h
    split_ifs at h with hc
    split at h
    · simp at h
    · split_ifs at h with h1 h2
      simp only [Turn.again.injEq] at h
      obtain ⟨rfl, rfl, rfl⟩ := h
      right; right; right
      exact ⟨rfl, rfl, rfl⟩
  | DONE =>
    rw [hs] at h
    simp at h

/-- A turn looks at data[startIndex:] only. -/
theorem parseTurn_shift (r : Request) (data : Bytes) (s : Nat) :
    r.parseTurn data s s =
      match r.parseTurn (data.drop s) 0 0 with
      | .again r1 s1 t1 => .again r1 (s + s1) (s + t1)
      | .returns r1 n e => .returns r1 (shiftRes s (r1, n, e)).2.1 e := by
  unfold Request.parseTurn
  cases hs : r.parserState with
  | INITIALIZED =>
    simp only [List.drop_drop, Nat.add_zero, Nat.zero_add]
    split
    · rfl
    · split_ifs
      · simp [shiftRes]
      · split <;> rfl
  | PARSING_HEADERS =>
    simp only [List.drop_drop, Nat.add_zero, Nat.zero_add]
    split
    · rfl
    · split_ifs
      · simp [shiftRes]
      · rfl
      · rfl
      · rfl
  | PARSING_BODY =>
    simp only [List.drop_drop, Nat.add_zero, Nat.zero_add]
    split_ifs
    · simp [shiftRes]
    · split
      · rfl
      · split_ifs
        · rfl
        · rfl
        · simp [shiftRes]
  | DONE => simp [shiftRes]

theorem parseLoop_shift (turns : Nat) (r : Request) (data : Bytes) (s : Nat) :
    Request.parseLoop turns r data s s =
      (Request.parseLoop turns r (data.drop s) 0 0).map (shiftRes s) := by
  induction turns generalizing r data s with
  | zero => simp [parseLoop_zero]
  | succ n ih =>
    rw [parseLoop_succ, parseLoop_succ, parseTurn_shift]
    cases hturn : r.parseTurn (data.drop s) 0 0 with
    | returns r1 n1 e1 =>
      simp only [Option.map_some', shiftRes]
    | again r1 s1 t1 =>
      simp only
      rcases parseTurn_again _ _ _ _ _ _ _ hturn with ⟨-, -, hst, -⟩ | ⟨-, -, hst, -⟩ |
        ⟨-, -, hst, -⟩ | ⟨-, hd, -⟩
      · subst hst
        rw [ih r1 data (s + s1), ih r1 (data.drop s) s1, Option.map_map, List.drop_drop]
        congr 1
        funext x; simp [shiftRes_shiftRes]
      · subst hst
        rw [ih r1 data (s + s1), ih r1 (data.drop s) s1, Option.map_map, List.drop_drop]
        congr 1
        funext x; simp [shiftRes_shiftRes]
      · subst hst
        rw [ih r1 data (s + s1), ih r1 (data.drop s) s1, Option.map_map, List.drop_drop]
        congr 1
        funext x; simp [shiftRes_shiftRes]
      · cases n with
        | zero => simp [parseLoop_zero]
        | succ m =>
          rw [parseLoop_done _ _ _ _ _ hd, parseLoop_done _ _ _ _ _ hd]
          simp [shiftRes]

theorem parseLoop_total (turns : Nat) (r : Request) (data : Bytes)
    (h : data.length + phaseTurns r.parserState ≤ turns) :
    ∃ x, Request.parseLoop turns r data 0 0 = some x := by
  induction turns generalizing r data with
  | zero =>
    cases hs : r.parserState <;> rw [hs] at h <;> simp [phaseTurns] at h
  | succ n ih =>
    rw [parseLoop_succ]
    cases hturn : r.parseTurn data 0 0 with
    | returns r1 n1 e1 => exact ⟨_, rfl⟩
    | again r1 s1 t1 =>
      simp only
      rcases parseTurn_again _ _ _ _ _ _ _ hturn with ⟨h1, h2, hst, hlt, hle⟩ |
        ⟨h1, h2, hst, hlt, hle⟩ | ⟨h1, h2, hst, hlt, hle⟩ | ⟨h1, hd, -⟩
      · subst hst
        rw [parseLoop_shift]
        obtain ⟨x, hx⟩ := ih r1 (data.drop s1) (by
          rw [h1] at h; rw [h2]
          simp only [List.length_drop, phaseTurns, List.drop_zero] at h hle ⊢; omega)
        exact ⟨_, by rw [hx]; rfl⟩
      · subst hst
        rw [parseLoop_shift]
        obtain ⟨x, hx⟩ := ih r1 (data.drop s1) (by
          rw [h1] at h; rw [h2]
          simp only [List.length_drop, phaseTurns, List.drop_zero] at h hle ⊢; omega)
        exact ⟨_, by rw [hx]; rfl⟩
      · subst hst
        rw [parseLoop_shift]
        obtain ⟨x, hx⟩ := ih r1 (data.drop s1) (by
          rw [h1] at h; rw [h2]
          simp only [List.length_drop, phaseTurns, List.drop_zero] at h hle ⊢; omega)
        exact ⟨_, by rw [hx]; rfl⟩
      · cases n with
        | zero => rw [h1] at h; simp [phaseTurns] at h
        | succ m => exact ⟨_, parseLoop_done _ _ _ _ _ hd⟩

/-- Request.parse returns: the turns it is given are enough. -/
theorem parse_total (r : Request) (data : Bytes) : ∃ x, r.parse data = some x := by
  apply parseLoop_total
  cases r.parserState <;> simp [phaseTurns]

/-- More turns than Request.parse takes change nothing. -/
theorem parseLoop_eq_parse (turns : Nat) (r : Request) (data : Bytes)
    (h : data.length + phaseTurns r.parserState ≤ turns) :
    Request.parseLoop turns r data 0 0 = r.parse data := by
  obtain ⟨x, hx⟩ := parseLoop_total _ r data (le_refl _)
  have h1 := parseLoop_mono_le _ turns h r data 0 0 x hx
  have h2 := parseLoop_mono_le _ (data.length + 4)
    (by cases r.parserState <;> simp [phaseTurns]) r data 0 0 x hx
  rw [h1, parse_eq, h2]

/-- Request.parse, one turn at a time: after a turn that goes on, the rest of the call is a
call on the bytes not yet consumed. -/
theorem parse_unfold (r : Request) (data : Bytes) :
    r.parse data =
      match r.parseTurn data 0 0 with
      | .returns r1 n e => some (r1, n, e)
      | .again r1 s1 t1 =>
        if r1.parserState = .DONE then some (r1, t1, none)
        else (r1.parse (data.drop s1)).map (shiftRes s1) := by
  rw [parse_eq, parseLoop_succ]
  cases hturn : r.parseTurn data 0 0 with
  | returns r1 n1 e1 => rfl
  | again r1 s1 t1 =>
    simp only
    rcases parseTurn_again _ _ _ _ _ _ _ hturn with ⟨h1, h2, hst, hlt, hle⟩ |
      ⟨h1, h2, hst, hlt, hle⟩ | ⟨h1, h2, hst, hlt, hle⟩ | ⟨h1, hd, -⟩
    · subst hst
      rw [if_neg (by rw [h2]; simp), parseLoop_shift, parseLoop_eq_parse]
      rw [h2]; simp only [List.length_drop, phaseTurns, List.drop_zero] at hle ⊢; omega
    · subst hst
      rw [if_neg (by rw [h2]; simp), parseLoop_shift, parseLoop_eq_parse]
      rw [h2]; simp only [List.length_drop, phaseTurns, List.drop_zero] at hle ⊢; omega
    · subst hst
      rw [if_neg (by rw [h2]; simp), parseLoop_shift, parseLoop_eq_parse]
      rw [h2]; simp only [List.length_drop, phaseTurns, List.drop_zero] at hle ⊢; omega
    · rw [if_pos hd, parseLoop_done _ _ _ _ _ hd]

/-! ## Request.parse phase by phase -/

theorem parse_done (r : Request) (data : Bytes) (hd : r.parserState = .DONE) :
    r.parse data = some (r, 0, none) := by
  rw [parse_eq]; exact parseLoop_done _ _ _ _ _ hd

theorem parse_initialized (r : Request) (data : Bytes) (hs : r.parserState = .INITIALIZED) :
    r.parse data =
      match parseRequestLine data with
      | (_, _, some err) => some (r, 0, some err)
      | (rl, n, none) =>
        if n = 0 then some (r, 0, none)
        else
          match rl with
          | none => some (r, 0, some .nilDereference)
          | some rl =>
            (Request.parse { r with RequestLine := rl, parserState := .PARSING_HEADERS }
              (data.drop n)).map (shiftRes n) := by
  rw [parse_unfold]
  simp only [Request.parseTurn, hs, List.drop_zero, Nat.zero_add]
  rcases hprl : parseRequestLine data with ⟨rl, n, e⟩
  cases e with
  | some err => rfl
  | none =>
    by_cases hn : n = 0
    · simp [hn]
    · cases rl <;> simp [hn]

theorem parse_headers (r : Request) (data : Bytes) (hs : r.parserState = .PARSING_HEADERS) :
    r.parse data =
      match r.Headers.Parse data with
      | (h, _, _, some err) => some ({ r with Headers := h }, 0, some err)
      | (h, n, done, none) =>
        if n = 0 then some ({ r with Headers := h }, 0, none)
        else if done then
          if h.Get (str "host") = [] then
            some ({ r with Headers := h }, 0, some .ERROR_MISSING_HOST_HEADER)
          else
            (Request.parse { r with Headers := h, parserState := .PARSING_BODY }
              (data.drop n)).map (shiftRes n)
        else (Request.parse { r with Headers := h } (data.drop n)).map (shiftRes n) := by
  rw [parse_unfold]
  simp only [Request.parseTurn, hs, List.drop_zero, Nat.zero_add]
  rcases hprl : r.Headers.Parse data with ⟨h, n, done, e⟩
  cases e with
  | some err => rfl
  | none =>
    by_cases hn : n = 0
    · simp [hn]
    · cases done
      · simp [hn, hs]
      · by_cases hh : h.Get (str "host") = []
        · simp [hn, hh]
        · simp [hn, hh]

theorem parse_body (r : Request) (data : Bytes) (hs : r.parserState = .PARSING_BODY) :
    r.parse data =
      if r.Headers.Get (str "content-length") = [] ∨
          r.Headers.Get (str "content-length") = str "0" then
        some ({ r with parserState := .DONE }, 0, none)
      else
        match strconvAtoi (r.Headers.Get (str "content-length")) with
        | (_, some err) => some (r, 0, some err)
        | (specifiedBodyLen, none) =>
          if specifiedBodyLen < ((r.Body ++ data).length : Int) then
            some ({ r with Body := r.Body ++ data }, 0, some .ERROR_CONTENT_LENGTH_EXCEEDED)
          else if ((r.Body ++ data).length : Int) = specifiedBodyLen then
            some ({ r with Body := r.Body ++ data, parserState := .DONE }, data.length, none)
          else some ({ r with Body := r.Body ++ data }, data.length, none) := by
  rw [parse_unfold]
  simp only [Request.parseTurn, hs, List.drop_zero, Nat.zero_add]
  by_cases hc : r.Headers.Get (str "content-length") = [] ∨
      r.Headers.Get (str "content-length") = str "0"
  · simp only [hc, if_true]
  · simp only [hc, if_false]
    rcases hat : strconvAtoi (r.Headers.Get (str "content-length")) with ⟨v, e⟩
    cases e with
    | some err => rfl
    | none =>
      simp only
      by_cases h1 : v < ((r.Body ++ data).length : Int)
      · simp only [h1, if_true]
      · simp only [h1, if_false]
        by_cases h2 : ((r.Body ++ data).length : Int) = v
        · rw [if_pos h2, if_pos h2]; simp
        · rw [if_neg h2, if_neg h2]; simp [hs]

/-- An error comes with a consumed count of zero. -/
theorem parse_error_zero (r : Request) (data : Bytes) (r1 : Request) (n : Nat) (e : Error)
    (h : r.parse data = some (r1, n, some e)) : n = 0 := by
  have key : ∀ turns (r : Request) (s t : Nat),
      Request.parseLoop turns r data s t = some (r1, n, some e) → n = 0 := by
    intro turns
    induction turns with
    | zero => intro r s t h; simp [parseLoop_zero] at h
    | succ k ih =>
      intro r s t h
      rw [parseLoop_succ] at h
      cases hturn : r.parseTurn data s t with
      | again r2 s2 t2 => rw [hturn] at h; exact ih _ _ _ h
      | returns r2 n2 e2 =>
        rw [hturn] at h
        simp only [Option.some.injEq, Prod.mk.injEq] at h
        obtain ⟨rfl, rfl, rfl⟩ := h
        unfold Request.parseTurn at hturn
        cases hs : r.parserState with
        | INITIALIZED =>
          rw [hs] at hturn
          simp only at hturn
          split at hturn
          · simp at hturn; exact hturn.2.1.symm
          · split_ifs at hturn
            · simp at hturn
            · split at hturn
              · simp at hturn; exact hturn.2.1.symm
              · simp at hturn
        | PARSING_HEADERS =>
          rw [hs] at hturn
          simp only at hturn
          split at hturn
          · simp at hturn; exact hturn.2.1.symm
          · split_ifs at hturn
            · simp at hturn
            · simp at hturn; exact hturn.2.1.symm
        | PARSING_BODY =>
          rw [hs] at hturn
          simp only at hturn
          split_ifs at hturn
          · simp at hturn
          · split at hturn
            · simp at hturn; exact hturn.2.1.symm
            · split_ifs at hturn
              · simp at hturn; exact hturn.2.1.symm
              · simp at hturn
        | DONE =>
          rw [hs] at hturn
          simp at hturn
  exact key _ r 0 0 h

theorem parse_shift_zero (r : Request) (data : Bytes) :
    (r.parse data).map (shiftRes 0) = r.parse data := by
  cases h : r.parse data with
  | none => rfl
  | some x =>
    obtain ⟨r1, n, e⟩ := x
    cases e with
    | none => simp [shiftRes]
    | some e =>
      have := parse_error_zero r data r1 n e h
      subst this
      simp [shiftRes]

theorem parseRequestLine_cases (data : Bytes) (index : Nat)
    (hidx : bytesIndex data CRLF = some index) :
    (∃ e, parseRequestLine data = (none, 0, some e)) ∨
      ∃ rl, parseRequestLine data = (some rl, index + 2, none) := by
  simp only [parseRequestLine, hidx]
  split
  · split_ifs
    · exact Or.inl ⟨_, rfl⟩
    · split
      · split_ifs
        · exact Or.inl ⟨_, rfl⟩
        · exact Or.inr ⟨_, rfl⟩
      · exact Or.inl ⟨_, rfl⟩
  · exact Or.inl ⟨_, rfl⟩

theorem parseRequestLine_append (a b : Bytes) (index : Nat)
    (hidx : bytesIndex a CRLF = some index) :
    parseRequestLine (a ++ b) = parseRequestLine a := by
  have hle := bytesIndex_le a CRLF index hidx
  simp only [parseRequestLine, hidx, bytesIndex_append a b CRLF index hidx]
  rw [List.take_append_of_le_length (by omega)]

theorem Parse_append (c : Headers) (a b : Bytes) (index : Nat)
    (hidx : bytesIndex a CRLF = some index) :
    c.Parse (a ++ b) = c.Parse a := by
  have hle := bytesIndex_le a CRLF index hidx
  simp only [Headers.Parse, hidx, bytesIndex_append a b CRLF index hidx]
  rw [List.take_append_of_le_length (by omega)]

theorem Parse_cases (c : Headers) (data : Bytes) (index : Nat)
    (hidx : bytesIndex data CRLF = some index) :
    (∃ e, c.Parse data = (c, 0, false, some e)) ∨
      (index = 0 ∧ c.Parse data = (c, 2, true, none)) ∨
      (0 < index ∧ ∃ c1, c.Parse data = (c1, index + 2, false, none)) := by
  have hle := bytesIndex_le data CRLF index hidx
  simp only [CRLF, List.length_cons, List.length_nil] at hle
  simp only [Headers.Parse, hidx]
  split_ifs with h0
  · exact Or.inr (Or.inl ⟨h0, rfl⟩)
  · split
    · exact Or.inl ⟨_, rfl⟩
    · split_ifs
      · exact Or.inl ⟨_, rfl⟩
      · refine Or.inr (Or.inr ⟨by omega, ?_⟩)
        have hl : (data.take index).length = index := by
          rw [List.length_take]; omega
        rw [hl]
        exact ⟨_, rfl⟩

/-! ## Longer buffers -/

theorem Ext_lift (r r2 : Request) (a b : Bytes) (n : Nat)
    (ha : r.parse a = (r2.parse (a.drop n)).map (shiftRes n))
    (hab : r.parse (a ++ b) = (r2.parse (a.drop n ++ b)).map (shiftRes n))
    (ih : ∀ y, r2.parse (a.drop n) = some y → Ext r2 (a.drop n) b y)
    (x : Request × Nat × Option Error) (hx : r.parse a = some x) : Ext r a b x := by
  rw [ha] at hx
  simp only [Option.map_eq_some'] at hx
  obtain ⟨y, hy, rfl⟩ := hx
  obtain ⟨r1, m, e1⟩ := y
  rcases ih _ hy with ⟨e, r3, he, h3⟩ | ⟨he, hd, h3⟩ | ⟨he, hd, h3⟩
  · simp only at he
    subst he
    left
    refine ⟨e, r3, rfl, ?_⟩
    rw [hab, h3]
    rfl
  · simp only at he hd
    subst he
    right; left
    refine ⟨rfl, hd, ?_⟩
    rcases h3 with h3 | ⟨r3, h3⟩
    · left; rw [hab, h3]; rfl
    · right; exact ⟨r3, by rw [hab, h3]; rfl⟩
  · simp only at he hd h3
    subst he
    right; right
    refine ⟨rfl, hd, ?_⟩
    rw [hab, h3, Option.map_map]
    simp only [shiftRes, List.drop_drop]
    congr 1
    funext z
    obtain ⟨z1, z2, z3⟩ := z
    cases z3 <;> simp [shiftRes, Nat.add_assoc]

theorem Ext_body (r : Request) (a b : Bytes) (hs : r.parserState = .PARSING_BODY)
    (x : Request × Nat × Option Error) (hx : r.parse a = some x) : Ext r a b x := by
  rw [parse_body r a hs] at hx
  have hab := parse_body r (a ++ b) hs
  by_cases hc : r.Headers.Get (str "content-length") = [] ∨
      r.Headers.Get (str "content-length") = str "0"
  · rw [if_pos hc] at hx hab
    simp only [Option.some.injEq] at hx
    subst hx
    right; left
    exact ⟨rfl, rfl, Or.inl hab⟩
  · rw [if_neg hc] at hx hab
    rcases hat : strconvAtoi (r.Headers.Get (str "content-length")) with ⟨v, e⟩
    rw [hat] at hx hab
    cases e with
    | some err =>
      simp only [Option.some.injEq] at hx
      subst hx
      left
      exact ⟨err, r, rfl, hab⟩
    | none =>
      simp only at hx hab
      by_cases h1 : v < ((r.Body ++ a).length : Int)
      · rw [if_pos h1] at hx
        simp only [Option.some.injEq] at hx
        subst hx
        have h1b : v < ((r.Body ++ (a ++ b)).length : Int) := by
          simp only [List.length_append, Nat.cast_add] at h1 ⊢; omega
        rw [if_pos h1b] at hab
        left
        exact ⟨_, _, rfl, hab⟩
      · rw [if_neg h1] at hx
        by_cases h2 : ((r.Body ++ a).length : Int) = v
        · rw [if_pos h2] at hx
          simp only [Option.some.injEq] at hx
          subst hx
          right; left
          refine ⟨rfl, rfl, ?_⟩
          by_cases hb : b = []
          · subst hb
            left
            rw [List.append_nil, parse_body r a hs, if_neg hc, hat]
            simp only
            rw [if_neg h1, if_pos h2]
          · right
            have h1b : v < ((r.Body ++ (a ++ b)).length : Int) := by
              have : 0 < b.length := List.length_pos.2 hb
              simp only [List.length_append, Nat.cast_add] at h2 ⊢; omega
            rw [if_pos h1b] at hab
            exact ⟨_, hab⟩
        · rw [if_neg h2] at hx
          simp only [Option.some.injEq] at hx
          subst hx
          right; right
          refine ⟨rfl, by simp [hs], ?_⟩
          simp only [List.drop_length, List.nil_append]
          rw [hab, parse_body _ b (by simp [hs])]
          simp only [if_neg hc, hat, List.append_assoc]
          by_cases h3 : v < ((r.Body ++ (a ++ b)).length : Int)
          · simp only [h3, if_true, Option.map_some', shiftRes]
          · simp only [h3, if_false]
            by_cases h4 : ((r.Body ++ (a ++ b)).length : Int) = v
            · simp only [h4, if_true, Option.map_some', shiftRes]
              simp
            · simp only [h4, if_false, Option.map_some', shiftRes]
              simp

theorem parse_ext_aux (k : Nat) : ∀ (r : Request) (a : Bytes),
    a.length + phaseTurns r.parserState ≤ k →
    ∀ (b : Bytes) (x : Request × Nat × Option Error), r.parse a = some x → Ext r a b x := by
  induction k with
  | zero =>
    intro r a h
    cases hs : r.parserState <;> rw [hs] at h <;> simp [phaseTurns] at h
  | succ k ih =>
    intro r a hk b x hx
    cases hs : r.parserState with
    | DONE =>
      rw [parse_done r a hs] at hx
      simp only [Option.some.injEq] at hx
      subst hx
      right; left
      exact ⟨rfl, hs, Or.inl (parse_done r (a ++ b) hs)⟩
    | PARSING_BODY => exact Ext_body r a b hs x hx
    | INITIALIZED =>
      rw [hs] at hk
      simp only [phaseTurns] at hk
      have hab := parse_initialized r (a ++ b) hs
      cases hidx : bytesIndex a CRLF with
      | none =>
        have hprl : parseRequestLine a = (none, 0, none) := by
          simp only [parseRequestLine, hidx]
        rw [parse_initialized r a hs, hprl] at hx
        simp only [if_true, Option.some.injEq] at hx
        subst hx
        right; right
        refine ⟨rfl, by simp [hs], ?_⟩
        simp only [List.drop_zero]
        rw [parse_shift_zero]
      | some i =>
        have hle := bytesIndex_le a CRLF i hidx
        simp only [CRLF, List.length_cons, List.length_nil] at hle
        rw [parseRequestLine_append a b i hidx] at hab
        rcases parseRequestLine_cases a i hidx with ⟨e, he⟩ | ⟨rl, hrl⟩
        · rw [parse_initialized r a hs, he] at hx
          rw [he] at hab
          simp only [Option.some.injEq] at hx
          subst hx
          left
          exact ⟨e, r, rfl, hab⟩
        · rw [hrl] at hab
          simp only [Nat.add_one_ne_zero, if_false] at hab
          rw [List.drop_append_of_le_length (by omega)] at hab
          have ha := parse_initialized r a hs
          rw [hrl] at ha
          simp only [Nat.add_one_ne_zero, if_false] at ha
          refine Ext_lift r _ a b (i + 2) ha hab ?_ x hx
          intro y hy
          exact ih _ _ (by simp only [List.length_drop, phaseTurns]; omega) b y hy
    | PARSING_HEADERS =>
      rw [hs] at hk
      simp only [phaseTurns] at hk
      have hab := parse_headers r (a ++ b) hs
      cases hidx : bytesIndex a CRLF with
      | none =>
        have hprl : r.Headers.Parse a = (r.Headers, 0, false, none) := by
          simp only [Headers.Parse, hidx]
        rw [parse_headers r a hs, hprl] at hx
        simp only [if_true, Option.some.injEq] at hx
        subst hx
        right; right
        refine ⟨rfl, by simp [hs], ?_⟩
        simp only [List.drop_zero]
        rw [parse_shift_zero]
      | some i =>
        have hle := bytesIndex_le a CRLF i hidx
        simp only [CRLF, List.length_cons, List.length_nil] at hle
        rw [Parse_append r.Headers a b i hidx] at hab
        rcases Parse_cases r.Headers a i hidx with ⟨e, he⟩ | ⟨h0, hblank⟩ | ⟨hpos, c1, hline⟩
        · rw [parse_headers r a hs, he] at hx
          rw [he] at hab
          simp only [Option.some.injEq] at hx
          subst hx
          left
          exact ⟨e, _, rfl, hab⟩
        · rw [hblank] at hab
          have ha := parse_headers r a hs
          rw [hblank] at ha
          simp only [OfNat.ofNat_ne_zero, if_false, if_true] at ha hab
          by_cases hh : r.Headers.Get (str "host") = []
          · rw [if_pos hh] at ha hab
            rw [ha] at hx
            simp only [Option.some.injEq] at hx
            subst hx
            left
            exact ⟨_, _, rfl, hab⟩
          · rw [if_neg hh] at ha hab
            rw [List.drop_append_of_le_length (by omega)] at hab
            refine Ext_lift r _ a b 2 ha hab ?_ x hx
            intro y hy
            exact ih _ _ (by simp only [List.length_drop, phaseTurns]; omega) b y hy
        · rw [hline] at hab
          have ha := parse_headers r a hs
          rw [hline] at ha
          simp only [Nat.add_one_ne_zero, if_false, Bool.false_eq_true] at ha hab
          rw [List.drop_append_of_le_length (by omega)] at hab
          refine Ext_lift r _ a b (i + 2) ha hab ?_ x hx
          intro y hy
          exact ih _ _ (by simp only [List.length_drop, phaseTurns, hs]; omega) b y hy

theorem parse_ext (r : Request) (a b : Bytes) (x : Request × Nat × Option Error)
    (hx : r.parse a = some x) : Ext r a b x :=
  parse_ext_aux _ r a (le_refl _) b x hx

/-- An error of Request.parse stays when more bytes follow in the buffer. -/
theorem parse_error_stable (r : Request) (a b : Bytes) (r1 : Request) (n : Nat) (e : Error)
    (h : r.parse a = some (r1, n, some e)) :
    ∃ r2, r.parse (a ++ b) = some (r2, 0, some e) := by
  rcases parse_ext r a b _ h with ⟨e2, r2, he, h2⟩ | ⟨he, -⟩ | ⟨he, -⟩
  · simp only [Option.some.injEq] at he
    subst he
    exact ⟨r2, h2⟩
  · simp at he
  · simp at he

/-- A request that Request.parse left DONE stays as it is when more bytes follow in the
buffer, or the call runs into the content-length error. -/
theorem parse_done_stable (r : Request) (a b : Bytes) (r1 : Request) (n : Nat)
    (h : r.parse a = some (r1, n, none)) (hd : r1.parserState = .DONE) :
    r.parse (a ++ b) = some (r1, n, none) ∨
      ∃ r2, r.parse (a ++ b) = some (r2, 0, some .ERROR_CONTENT_LENGTH_EXCEEDED) := by
  rcases parse_ext r a b _ h with ⟨e2, r2, he, h2⟩ | ⟨-, -, h2⟩ | ⟨-, hnd, -⟩
  · simp at he
  · exact h2
  · exact absurd hd hnd

/-- Resumption: when Request.parse stopped for want of bytes, a call on the unconsumed bytes
followed by new ones does what a call on the whole input does. -/
theorem parse_resume (r : Request) (a b : Bytes) (r1 : Request) (n : Nat)
    (h : r.parse a = some (r1, n, none)) (hd : r1.parserState ≠ .DONE) :
    r.parse (a ++ b) = (r1.parse (a.drop n ++ b)).map (shiftRes n) := by
  rcases parse_ext r a b _ h with ⟨e2, r2, he, h2⟩ | ⟨-, hnd, -⟩ | ⟨-, -, h2⟩
  · simp at he
  · exact absurd hnd hd
  · exact h2

/-! ## The driver RequestFromReader -/

theorem parse_consumed_le_aux (k : Nat) : ∀ (r : Request) (data : Bytes),
    data.length + phaseTurns r.parserState ≤ k →
    ∀ (r1 : Request) (n : Nat) (e : Option Error), r.parse data = some (r1, n, e) →
      n ≤ data.length := by
  induction k with
  | zero =>
    intro r a h
    cases hs : r.parserState <;> rw [hs] at h <;> simp [phaseTurns] at h
  | succ k ih =>
    intro r data hk r1 n e hx
    rw [parse_unfold] at hx
    cases hturn : r.parseTurn data 0 0 with
    | returns r2 n2 e2 =>
      rw [hturn] at hx
      simp only [Option.some.injEq, Prod.mk.injEq] at hx
      obtain ⟨rfl, rfl, rfl⟩ := hx
      unfold Request.parseTurn at hturn
      cases hs : r.parserState with
      | INITIALIZED =>
        rw [hs] at hturn
        simp only at hturn
        split at hturn
        · simp at hturn; omega
        · split_ifs at hturn
          · simp at hturn; omega
          · split at hturn
            · simp at hturn; omega
            · simp at hturn
      | PARSING_HEADERS =>
        rw [hs] at hturn
        simp only at hturn
        split at hturn
        · simp at hturn; omega
        · split_ifs at hturn
          · simp at hturn; omega
          · simp at hturn; omega
      | PARSING_BODY =>
        rw [hs] at hturn
        simp only at hturn
        split_ifs at hturn
        · simp at hturn; omega
        · split at hturn
          · simp at hturn; omega
          · split_ifs at hturn
            · simp at hturn; omega
            · simp at hturn; omega
      | DONE =>
        rw [hs] at hturn
        simp at hturn; omega
    | again r2 s2 t2 =>
      rw [hturn] at hx
      simp only at hx
      rcases parseTurn_again _ _ _ _ _ _ _ hturn with ⟨h1, h2, hst, hlt, hle⟩ |
        ⟨h1, h2, hst, hlt, hle⟩ | ⟨h1, h2, hst, hlt, hle⟩ | ⟨h1, hd, -⟩
      all_goals first
        | (subst hst
           rw [if_neg (by rw [h2]; simp)] at hx
           simp only [Option.map_eq_some'] at hx
           obtain ⟨y, hy, hyx⟩ := hx
           obtain ⟨y1, y2, y3⟩ := y
           have := ih r2 (data.drop s2) (by
             rw [h1] at hk; rw [h2]
             simp only [List.length_drop, phaseTurns, List.drop_zero] at hk hle ⊢; omega)
             y1 y2 y3 hy
           simp only [List.length_drop, List.drop_zero] at this hle
           cases y3 with
           | none => simp [shiftRes] at hyx; omega
           | some e3 => simp [shiftRes] at hyx; omega)
        | (rw [if_pos hd] at hx
           simp only [Option.some.injEq, Prod.mk.injEq] at hx
           obtain ⟨rfl, rfl, rfl⟩ := hx
           unfold Request.parseTurn at hturn
           rw [h1] at hturn
           simp only at hturn
           split_ifs at hturn
           split at hturn
           · simp at hturn
           · split_ifs at hturn
             simp at hturn
             omega)

/-- Request.parse never reports more bytes consumed than the buffer holds. -/
theorem parse_consumed_le (r : Request) (data : Bytes) (r1 : Request) (n : Nat)
    (e : Option Error) (h : r.parse data = some (r1, n, e)) : n ≤ data.length :=
  parse_consumed_le_aux _ r data (le_refl _) r1 n e h

/-- A read of the chunk reader before the end of its data hands over at least one byte, at
most as many as fit, and they are the next bytes of the data. -/
theorem Read_spec (D : Bytes) (k pos lenP : Nat) (hpos : pos < D.length) (hk : 1 ≤ k)
    (hl : 1 ≤ lenP) :
    ∃ n, 1 ≤ n ∧ n ≤ lenP ∧ pos + n ≤ D.length ∧
      ChunkReader.Read { data := D, byteCountPerRead := k, pos := pos } lenP =
        ({ data := D, byteCountPerRead := k, pos := pos + n }, (D.drop pos).take n, none) := by
  refine ⟨min (min (pos + k) D.length - pos) lenP, ?_, ?_, ?_, ?_⟩
  · omega
  · omega
  · omega
  · simp only [ChunkReader.Read]
    rw [if_neg (by omega)]
    have e1 : ((D.take (min (pos + k) D.length)).drop pos).take lenP =
        (D.drop pos).take (min (min (pos + k) D.length - pos) lenP) := by
      rw [List.drop_take, List.take_take, Nat.min_comm]
    rw [e1]
    simp only [List.length_take, List.length_drop, Prod.mk.injEq, and_true,
      ChunkReader.mk.injEq, true_and]
    omega

theorem readLoop_succ {σ : Type} (read : σ → Nat → σ × Bytes × Option Error) (turns : Nat)
    (request : Request) (lenBuf : Nat) (buf : Bytes) (reader : σ) :
    readLoop read (turns + 1) request lenBuf buf reader =
      if request.done then some (some request, none)
      else
        match read reader
            ((if buf.length ≥ lenBuf then lenBuf + BUFFER_SIZE else lenBuf) - buf.length) with
        | (_, _, some err) => some (none, some err)
        | (reader, bytes, none) =>
          match request.parse (buf ++ bytes) with
          | none => none
          | some (_, _, some err) => some (none, some err)
          | some (request, parsedN, none) =>
            readLoop read turns request
              (if buf.length ≥ lenBuf then lenBuf + BUFFER_SIZE else lenBuf)
              ((buf ++ bytes).drop parsedN) reader := rfl

/-- The loop of RequestFromReader over the chunk reader, started after pos bytes of the
input D have been read: it ends at a read position p where Request.parse on the first p bytes
of D is settled, and returns the outcome of that call. -/
theorem readLoop_chunks (D : Bytes) (k : Nat) (hk : 1 ≤ k)
    (hset : ∃ x, newRequest.parse D = some x ∧ settled x) :
    ∀ (m pos : Nat) (request : Request) (c lenBuf : Nat), D.length - pos ≤ m → pos ≤ D.length →
      newRequest.parse (D.take pos) = some (request, c, none) → c ≤ pos →
      ((D.take pos).drop c).length ≤ lenBuf →
      ∃ p x, pos ≤ p ∧ p ≤ D.length ∧ newRequest.parse (D.take p) = some x ∧ settled x ∧
        ∀ turns, m + 1 ≤ turns →
          readLoop ChunkReader.Read turns request lenBuf ((D.take pos).drop c)
            { data := D, byteCountPerRead := k, pos := pos } = some (outcome x) := by
  intro m
  induction m with
  | zero =>
    intro pos request c lenBuf hm hpos hparse hc hbuf
    have hp : pos = D.length := by omega
    subst hp
    rw [List.take_length] at hparse
    obtain ⟨x, hx, hsx⟩ := hset
    rw [hparse] at hx
    simp only [Option.some.injEq] at hx
    subst hx
    have hd : request.parserState = .DONE := by
      rcases hsx with h | h
      · exact absurd rfl h
      · exact h
    refine ⟨D.length, (request, c, none), le_refl _, le_refl _, ?_, Or.inr hd, ?_⟩
    · rw [List.take_length]; exact hparse
    · intro turns ht
      obtain ⟨t, rfl⟩ : ∃ t, turns = t + 1 := ⟨turns - 1, by omega⟩
      rw [readLoop_succ, if_pos (by simp [Request.done, hd])]
      rfl
  | succ m ih =>
    intro pos request c lenBuf hm hpos hparse hc hbuf
    by_cases hd : request.parserState = .DONE
    · refine ⟨pos, (request, c, none), le_refl _, hpos, hparse, Or.inr hd, ?_⟩
      intro turns ht
      obtain ⟨t, rfl⟩ : ∃ t, turns = t + 1 := ⟨turns - 1, by omega⟩
      rw [readLoop_succ, if_pos (by simp [Request.done, hd])]
      rfl
    · have hlt : pos < D.length := by
        by_contra hge
        have hp : pos = D.length := by omega
        subst hp
        rw [List.take_length] at hparse
        obtain ⟨x, hx, hsx⟩ := hset
        rw [hparse] at hx
        simp only [Option.some.injEq] at hx
        subst hx
        rcases hsx with h | h
        · exact absurd rfl h
        · exact hd h
      have hblen : ((D.take pos).drop c).length = pos - c := by
        simp only [List.length_drop, List.length_take]; omega
      obtain ⟨n, hn1, hn2, hn3, hread⟩ := Read_spec D k pos
        ((if ((D.take pos).drop c).length ≥ lenBuf then lenBuf + BUFFER_SIZE else lenBuf) -
          ((D.take pos).drop c).length) hlt hk (by
            simp only [BUFFER_SIZE]; split_ifs <;> omega)
      have htake : D.take (pos + n) = D.take pos ++ (D.drop pos).take n := List.take_add _ _ _
      have hres := parse_resume newRequest (D.take pos) ((D.drop pos).take n) request c hparse hd
      rw [← htake] at hres
      have hbuf2 : (D.take pos).drop c ++ (D.drop pos).take n = (D.take (pos + n)).drop c := by
        rw [htake, List.drop_append_of_le_length (by simp only [List.length_take]; omega)]
      obtain ⟨y, hy⟩ := parse_total request ((D.take pos).drop c ++ (D.drop pos).take n)
      rw [hy] at hres
      obtain ⟨r2, n2, e2⟩ := y
      have hn2le := parse_consumed_le _ _ _ _ _ hy
      rw [hbuf2] at hn2le
      simp only [List.length_drop, List.length_take] at hn2le
      cases e2 with
      | some e =>
        refine ⟨pos + n, (r2, 0, some e), by omega, hn3, hres, Or.inl (by simp), ?_⟩
        intro turns ht
        obtain ⟨t, rfl⟩ : ∃ t, turns = t + 1 := ⟨turns - 1, by omega⟩
        rw [readLoop_succ, if_neg (by simp [Request.done, hd]), hread]
        simp only [hy]
        rfl
      | none =>
        have hparse2 : newRequest.parse (D.take (pos + n)) = some (r2, c + n2, none) := hres
        obtain ⟨p, x, hp1, hp2, hp3, hp4, hp5⟩ := ih (pos + n) r2 (c + n2)
          (if ((D.take pos).drop c).length ≥ lenBuf then lenBuf + BUFFER_SIZE else lenBuf)
          (by omega) hn3 hparse2 (by omega) (by
            simp only [List.length_drop, List.length_take]
            simp only [List.length_drop, List.length_take] at hn2 hbuf
            split_ifs at hn2 ⊢ <;> omega)
        refine ⟨p, x, by omega, hp2, hp3, hp4, ?_⟩
        intro turns ht
        obtain ⟨t, rfl⟩ : ∃ t, turns = t + 1 := ⟨turns - 1, by omega⟩
        rw [readLoop_succ, if_neg (by simp [Request.done, hd]), hread]
        simp only [hy]
        rw [hbuf2, List.drop_drop]
        exact hp5 t (by omega)

/-- RequestFromReader over the chunk reader with a read size of at least 1, on an input
for which Request.parse on the whole input is settled: it returns, after at most len(D) + 1
turns, the outcome of Request.parse on the first p bytes of D for a position p at which that
call is settled. -/
theorem fromChunks_settles (D : Bytes) (k : Nat) (hk : 1 ≤ k)
    (hset : ∃ x, newRequest.parse D = some x ∧ settled x) :
    ∃ p x, p ≤ D.length ∧ newRequest.parse (D.take p) = some x ∧ settled x ∧
      ∀ turns, D.length + 1 ≤ turns → fromChunks D k turns = some (outcome x) := by
  obtain ⟨p, x, -, hp2, hp3, hp4, hp5⟩ := readLoop_chunks D k hk hset D.length 0 newRequest 0
    BUFFER_SIZE (by omega) (by omega) (by simp; rfl) (le_refl _) (by simp)
  exact ⟨p, x, hp2, hp3, hp4, fun turns ht => hp5 turns ht⟩

/-! ## Requests on the wire -/

theorem parseRequestLine_valid (method target rest : Bytes)
    (h : validRequestLine method target = true) :
    parseRequestLine (requestLineText method target ++ (CRLF ++ rest)) =
      (some { Method := method, RequestTarget := target, HttpVersion := str "1.1" },
        (requestLineText method target).length + 2, none) := by
  simp only [validRequestLine, Bool.and_eq_true, decide_eq_true_eq] at h
  obtain ⟨⟨⟨hm, ht⟩, hup⟩, hno⟩ := h
  have hidx := bytesIndex_line _ rest hno
  have hsp : (0x20 : Nat) ∉ str "HTTP/1.1" := by decide
  have hsplit := (stringsSplit_eq_three (requestLineText method target) method target
    (str "HTTP/1.1") 0x20).2 ⟨rfl, hm, ht, hsp⟩
  simp only [parseRequestLine, hidx, List.take_left, hsplit, hup,
    (stringsSplit_version _).2 rfl]
  simp [CRLF]

theorem Parse_line (c : Headers) (l rest : Bytes) (h : validLine l = true) :
    c.Parse (l ++ (CRLF ++ rest)) =
      (c.Set (lineName l) (lineValue l), l.length + 2, false, none) := by
  simp only [validLine, Bool.and_eq_true, decide_eq_true_eq] at h
  obtain ⟨⟨⟨hne, hno⟩, hcolon⟩, hkey⟩ := h
  have hidx := bytesIndex_line l rest hno
  have hpos : l.length ≠ 0 := fun e => hne (List.length_eq_zero.1 e)
  have hc : bytesIndex l (str ":") = some (l.takeWhile (· ≠ 0x3A)).length := by
    have : str ":" = [0x3A] := by decide
    rw [this, bytesIndex_single, if_pos hcolon]
  have ht := take_length_takeWhile l (· ≠ 0x3A)
  have hkey2 : validHeaderKey ((l.takeWhile (· ≠ 0x3A)).dropWhile (· == 0x20)) = true := hkey
  simp only [Headers.Parse, hidx, List.take_left, hc, hpos, if_false, stringsTrimLeft,
    ht.1, hkey2, Bool.not_true, Bool.false_eq_true, CRLF_LEN, ← List.drop_drop, ht.2]
  simp [CRLF, lineName, lineValue]

theorem Parse_blank (c : Headers) (rest : Bytes) :
    c.Parse (CRLF ++ rest) = (c, 2, true, none) := by
  have hidx : bytesIndex (CRLF ++ rest) CRLF = some 0 := by
    have := bytesIndex_line [] rest (by decide)
    simpa using this
  simp only [Headers.Parse, hidx, if_true]
  rfl

theorem headerBlock_cons (l : Bytes) (lines : List Bytes) :
    headerBlock (l :: lines) = l ++ (CRLF ++ headerBlock lines) := by
  simp [headerBlock, List.flatMap_cons]

theorem headerBlock_length_cons (l : Bytes) (lines : List Bytes) :
    (headerBlock (l :: lines)).length = l.length + 2 + (headerBlock lines).length := by
  rw [headerBlock_cons]
  simp [CRLF]; omega

/-- Request.parse over a whole header block: the lines are Set in their order, then the
Host check decides, and the call goes on with the bytes after the blank line. -/
theorem parse_headerBlock (lines : List Bytes) : ∀ (r : Request) (rest : Bytes),
    r.parserState = .PARSING_HEADERS → lines.all validLine = true →
    r.parse (headerBlock lines ++ rest) =
      if (setLines r.Headers lines).Get (str "host") = [] then
        some ({ r with Headers := setLines r.Headers lines }, 0,
          some .ERROR_MISSING_HOST_HEADER)
      else
        (Request.parse
          { r with Headers := setLines r.Headers lines, parserState := .PARSING_BODY }
          rest).map (shiftRes (headerBlock lines).length) := by
  induction lines with
  | nil =>
    intro r rest hs _
    rw [parse_headers r _ hs]
    have hb : headerBlock [] ++ rest = CRLF ++ rest := by simp [headerBlock]
    rw [hb, Parse_blank]
    simp only [OfNat.ofNat_ne_zero, if_false, if_true, setLines, List.foldl_nil]
    have hd : (CRLF ++ rest).drop 2 = rest := by simp [CRLF]
    rw [hd]
    rfl
  | cons l lines ih =>
    intro r rest hs hall
    simp only [List.all_cons, Bool.and_eq_true] at hall
    rw [parse_headers r _ hs, headerBlock_cons, List.append_assoc, List.append_assoc,
      Parse_line _ _ _ hall.1]
    simp only [Nat.add_one_ne_zero, if_false, Bool.false_eq_true]
    have hd : (l ++ (CRLF ++ (headerBlock lines ++ rest))).drop (l.length + 2) =
        headerBlock lines ++ rest := by
      rw [← List.append_assoc, List.drop_left' (by simp [CRLF])]
    rw [hd, ih { r with Headers := r.Headers.Set (lineName l) (lineValue l) } rest hs hall.2]
    have hlen := headerBlock_length_cons l lines
    rw [headerBlock_cons] at hlen
    simp only [setLines, List.foldl_cons]
    split_ifs
    · rfl
    · rw [Option.map_map]
      congr 1
      funext z
      rw [Function.comp_apply, shiftRes_shiftRes, hlen]

theorem parse_head (method target : Bytes) (lines : List Bytes) (rest : Bytes)
    (hrl : validRequestLine method target = true) (hl : lines.all validLine = true) :
    newRequest.parse (headBytes method target lines ++ rest) =
      if (setLines NewHeaders lines).Get (str "host") = [] then
        some ({ RequestLine :=
                  { Method := method, RequestTarget := target, HttpVersion := str "1.1" }
                Headers := setLines NewHeaders lines
                Body := []
                parserState := .PARSING_HEADERS }, 0, some .ERROR_MISSING_HOST_HEADER)
      else
        (Request.parse
          { RequestLine :=
              { Method := method, RequestTarget := target, HttpVersion := str "1.1" }
            Headers := setLines NewHeaders lines
            Body := []
            parserState := .PARSING_BODY } rest).map
          (shiftRes (headBytes method target lines).length) := by
  rw [parse_initialized newRequest _ rfl]
  have e1 : headBytes method target lines ++ rest =
      requestLineText method target ++ (CRLF ++ (headerBlock lines ++ rest)) := by
    simp [headBytes]
  rw [e1, parseRequestLine_valid _ _ _ hrl]
  simp only [Nat.add_one_ne_zero, if_false]
  have hd : (requestLineText method target ++ (CRLF ++ (headerBlock lines ++ rest))).drop
      ((requestLineText method target).length + 2) = headerBlock lines ++ rest := by
    rw [← List.append_assoc, List.drop_left' (by simp [CRLF])]
  rw [hd, parse_headerBlock lines _ rest rfl hl]
  have hlen : (headBytes method target lines).length =
      (requestLineText method target).length + 2 + (headerBlock lines).length := by
    simp [headBytes, CRLF]; omega
  simp only [newRequest]
  split_ifs
  · rfl
  · rw [Option.map_map, hlen]
    congr 1
    funext z
    rw [Function.comp_apply, shiftRes_shiftRes]

/-- An error of Request.parse on the whole input, other than the content-length error, is
what RequestFromReader returns for every read size. -/
theorem fromChunks_of_error (D : Bytes) (k : Nat) (r : Request) (n : Nat) (e : Error)
    (hparse : newRequest.parse D = some (r, n, some e))
    (he : e ≠ .ERROR_CONTENT_LENGTH_EXCEEDED) (hk : 1 ≤ k) (turns : Nat)
    (ht : D.length + 1 ≤ turns) : fromChunks D k turns = some (none, some e) := by
  obtain ⟨p, x, hp, hx, hs, hres⟩ := fromChunks_settles D k hk ⟨_, hparse, Or.inl (by simp)⟩
  rw [hres turns ht]
  obtain ⟨r1, n1, e1⟩ := x
  have hD : D.take p ++ D.drop p = D := List.take_append_drop p D
  cases e1 with
  | some e2 =>
    obtain ⟨r2, h2⟩ := parse_error_stable _ _ (D.drop p) _ _ _ hx
    rw [hD, hparse] at h2
    simp only [Option.some.injEq, Prod.mk.injEq] at h2
    obtain ⟨-, -, rfl⟩ := h2
    rfl
  | none =>
    have hd : r1.parserState = .DONE := by
      rcases hs with h | h
      · exact absurd rfl h
      · exact h
    rcases parse_done_stable _ _ (D.drop p) _ _ hx hd with h2 | ⟨r2, h2⟩
    · rw [hD, hparse] at h2
      simp at h2
    · rw [hD, hparse] at h2
      simp only [Option.some.injEq, Prod.mk.injEq] at h2
      exact absurd h2.2.2 (by simpa using he)

/-- When Request.parse on the whole input consumes all of it and leaves the request DONE,
RequestFromReader returns that request for every read size. -/
theorem fromChunks_of_done (D : Bytes) (k : Nat) (r : Request)
    (hparse : newRequest.parse D = some (r, D.length, none))
    (hd : r.parserState = .DONE) (hk : 1 ≤ k) (turns : Nat)
    (ht : D.length + 1 ≤ turns) : fromChunks D k turns = some (some r, none) := by
  obtain ⟨p, x, hp, hx, hs, hres⟩ := fromChunks_settles D k hk ⟨_, hparse, Or.inr hd⟩
  rw [hres turns ht]
  obtain ⟨r1, n1, e1⟩ := x
  have hD : D.take p ++ D.drop p = D := List.take_append_drop p D
  cases e1 with
  | some e2 =>
    obtain ⟨r2, h2⟩ := parse_error_stable _ _ (D.drop p) _ _ _ hx
    rw [hD, hparse] at h2
    simp at h2
  | none =>
    have hd1 : r1.parserState = .DONE := by
      rcases hs with h | h
      · exact absurd rfl h
      · exact h
    rcases parse_done_stable _ _ (D.drop p) _ _ hx hd1 with h2 | ⟨r2, h2⟩
    · rw [hD, hparse] at h2
      simp only [Option.some.injEq, Prod.mk.injEq] at h2
      obtain ⟨h3, -, -⟩ := h2
      subst h3
      rfl
    · rw [hD, hparse] at h2
      simp at h2

/-- C10. A valid request line followed by a header block of valid lines whose combined Host
value is empty or absent: Request.parse on the input fails with the missing-host error, and
so does RequestFromReader for every read size. -/
theorem missing_host (method target : Bytes) (lines : List Bytes) (k turns : Nat)
    (hrl : validRequestLine method target = true) (hl : lines.all validLine = true)
    (hhost : (setLines NewHeaders lines).Get (str "host") = [])
    (hk : 1 ≤ k) (ht : (headBytes method target lines).length + 1 ≤ turns) :
    (∃ r, newRequest.parse (headBytes method target lines) =
        some (r, 0, some .ERROR_MISSING_HOST_HEADER)) ∧
      fromChunks (headBytes method target lines) k turns =
        some (none, some .ERROR_MISSING_HOST_HEADER) := by
  have hp := parse_head method target lines [] hrl hl
  rw [if_pos hhost, List.append_nil] at hp
  exact ⟨⟨_, hp⟩, fromChunks_of_error _ k _ _ _ hp (by simp) hk turns ht⟩

theorem missing_host_witness :
    fromChunks (str "GET / HTTP/1.1\r\n\r\n") 3 19 =
      some (none, some .ERROR_MISSING_HOST_HEADER) :=
  (missing_host (str "GET") (str "/") [] 3 19 (by decide) (by decide) (by decide) (by decide)
    (by decide)).2

theorem atoi_pos_ne (s : Bytes) (v : Int) (h : strconvAtoi s = (v, none)) (hv : 0 < v) :
    ¬ (s = [] ∨ s = str "0") := by
  rintro (rfl | rfl)
  · simp [strconvAtoi] at h
  · have : strconvAtoi (str "0") = (0, none) := by decide
    rw [this] at h
    simp only [Prod.mk.injEq, and_true] at h
    omega

theorem wellFormed_iff (w : WireRequest) :
    w.wellFormed = true ↔
      validRequestLine w.method w.target = true ∧ w.lines.all validLine = true ∧
      (setLines NewHeaders w.lines).Get (str "host") ≠ [] ∧
      strconvAtoi ((setLines NewHeaders w.lines).Get (str "content-length")) =
        ((w.body.length : Int), none) ∧
      w.body ≠ [] := by
  simp only [WireRequest.wellFormed, Bool.and_eq_true, decide_eq_true_eq]
  tauto

/-- Request.parse on the whole of a well-formed request returns the request, DONE, and has
consumed every byte. -/
theorem parse_wellFormed (w : WireRequest) (hw : w.wellFormed = true) :
    newRequest.parse w.bytes = some (w.parsed, w.bytes.length, none) := by
  obtain ⟨hrl, hl, hhost, hat, hbody⟩ := (wellFormed_iff w).1 hw
  have hpos : (0 : Int) < (w.body.length : Int) := by
    have := List.length_pos.2 hbody
    omega
  have hc := atoi_pos_ne _ _ hat hpos
  rw [WireRequest.bytes, parse_head _ _ _ _ hrl hl, if_neg hhost, parse_body _ _ rfl]
  simp only [if_neg hc, hat, List.nil_append, lt_irrefl, if_false, if_true, Option.map_some',
    shiftRes, List.length_append]
  rfl

/-- Request.parse on a well-formed request followed by further bytes fails with the
content-length error. -/
theorem parse_wellFormed_extra (w : WireRequest) (extra : Bytes) (hw : w.wellFormed = true)
    (hextra : extra ≠ []) :
    ∃ r, newRequest.parse (w.bytes ++ extra) =
      some (r, 0, some .ERROR_CONTENT_LENGTH_EXCEEDED) := by
  obtain ⟨hrl, hl, hhost, hat, hbody⟩ := (wellFormed_iff w).1 hw
  have hpos : (0 : Int) < (w.body.length : Int) := by
    have := List.length_pos.2 hbody
    omega
  have hc := atoi_pos_ne _ _ hat hpos
  have hlt : (w.body.length : Int) < ((w.body ++ extra).length : Int) := by
    have := List.length_pos.2 hextra
    simp only [List.length_append, Nat.cast_add]
    omega
  rw [WireRequest.bytes, List.append_assoc, parse_head _ _ _ _ hrl hl, if_neg hhost,
    parse_body _ _ rfl]
  simp only [if_neg hc, hat, List.nil_append, hlt, if_true, Option.map_some', shiftRes]
  exact ⟨_, rfl⟩

/-- C1. For a well-formed request with a body and every read size k ≥ 1, RequestFromReader
over the chunk reader returns, within len(input) + 1 turns of its loop and without error, the
request with the method, target, version 1.1, header values and body of the input: the same
as when the read size is the length of the whole input. -/
theorem RequestFromReader_wellFormed (w : WireRequest) (k turns : Nat)
    (hw : w.wellFormed = true) (hk : 1 ≤ k) (ht : w.bytes.length + 1 ≤ turns) :
    fromChunks w.bytes k turns = some (some w.parsed, none) ∧
      fromChunks w.bytes k turns = fromChunks w.bytes w.bytes.length turns := by
  have hp := parse_wellFormed w hw
  have hlen : 1 ≤ w.bytes.length := by
    obtain ⟨-, -, -, -, hbody⟩ := (wellFormed_iff w).1 hw
    have := List.length_pos.2 hbody
    simp only [WireRequest.bytes, List.length_append]
    omega
  have h1 := fromChunks_of_done _ k _ hp rfl hk turns ht
  have h2 := fromChunks_of_done _ w.bytes.length _ hp rfl hlen turns ht
  exact ⟨h1, by rw [h1, h2]⟩

theorem RequestFromReader_wellFormed_witness :
    fromChunks
        (str "POST /submit HTTP/1.1\r\nHost: h\r\nContent-Length: 13\r\n\r\nhello world!\n")
        3 100 =
      some (some
        { RequestLine :=
            { Method := str "POST", RequestTarget := str "/submit", HttpVersion := str "1.1" }
          Headers := [(str "host", str "h"), (str "content-length", str "13")]
          Body := str "hello world!\n"
          parserState := .DONE }, none) :=
  (RequestFromReader_wellFormed
    { method := str "POST", target := str "/submit",
      lines := [str "Host: h", str "Content-Length: 13"], body := str "hello world!\n" }
    3 100 (by decide) (by decide) (by decide)).1

/-- C2 as stated fails: Content-Length 1 followed by the two body bytes ab, read one byte at
a time, is returned as a request with the body a and no error. -/
theorem RequestFromReader_extra_counterexample :
    fromChunks (str "GET / HTTP/1.1\r\nHost: h\r\nContent-Length: 1\r\n\r\nab") 1 49 =
      some (some
        { RequestLine :=
            { Method := str "GET", RequestTarget := str "/", HttpVersion := str "1.1" }
          Headers := [(str "host", str "h"), (str "content-length", str "1")]
          Body := str "a"
          parserState := .DONE }, none) := by
  decide

/-! ## Driving Headers.Parse over a buffer read in pieces -/

theorem driveHeaders_succ (turns : Nat) (h : Headers) (data : Bytes) :
    driveHeaders (turns + 1) h data =
      match h.Parse data with
      | (h1, _, _, some err) => some (h1, 0, .failed err)
      | (h1, n, done, none) =>
        if n = 0 then some (h1, 0, .waiting)
        else if done then some (h1, n, .terminator)
        else (driveHeaders turns h1 (data.drop n)).map fun x => (x.1, n + x.2.1, x.2.2) := rfl

theorem driveHeaders_mono (turns : Nat) : ∀ (h : Headers) (data : Bytes)
    (x : Headers × Nat × Outcome), driveHeaders turns h data = some x →
    driveHeaders (turns + 1) h data = some x := by
  induction turns with
  | zero => intro h data x hx; simp [driveHeaders] at hx
  | succ t ih =>
    intro h data x hx
    rw [driveHeaders_succ] at hx ⊢
    rcases hp : h.Parse data with ⟨h1, n, done, e⟩
    rw [hp] at hx
    cases e with
    | some err => exact hx
    | none =>
      simp only at hx ⊢
      by_cases hn : n = 0
      · rw [if_pos hn] at hx ⊢; exact hx
      · rw [if_neg hn] at hx ⊢
        cases done with
        | true => exact hx
        | false =>
          simp only [Bool.false_eq_true, if_false, Option.map_eq_some'] at hx ⊢
          obtain ⟨y, hy, hyx⟩ := hx
          exact ⟨y, ih _ _ _ hy, hyx⟩

theorem driveHeaders_mono_le (t1 t2 : Nat) (hle : t1 ≤ t2) (h : Headers) (data : Bytes)
    (x : Headers × Nat × Outcome) (hx : driveHeaders t1 h data = some x) :
    driveHeaders t2 h data = some x := by
  induction t2 with
  | zero =>
    have : t1 = 0 := by omega
    subst this; exact hx
  | succ n ih =>
    by_cases hn : t1 ≤ n
    · exact driveHeaders_mono n h data x (ih hn)
    · have : t1 = n + 1 := by omega
      subst this; exact hx

theorem driveHeaders_total (turns : Nat) : ∀ (h : Headers) (data : Bytes),
    data.length + 1 ≤ turns → ∃ x, driveHeaders turns h data = some x := by
  induction turns with
  | zero => intro h data hle; omega
  | succ t ih =>
    intro h data hle
    rw [driveHeaders_succ]
    rcases hp : h.Parse data with ⟨h1, n, done, e⟩
    cases e with
    | some err => exact ⟨_, rfl⟩
    | none =>
      simp only
      by_cases hn : n = 0
      · rw [if_pos hn]; exact ⟨_, rfl⟩
      · rw [if_neg hn]
        cases done with
        | true => exact ⟨_, rfl⟩
        | false =>
          simp only [Bool.false_eq_true, if_false]
          have hle2 := Parse_le _ _ _ _ _ _ hp
          obtain ⟨x, hx⟩ := ih h1 (data.drop n) (by simp only [List.length_drop]; omega)
          exact ⟨_, by rw [hx]; rfl⟩

/-- The run over a buffer ends: the turns it is given are enough. -/
theorem drive_total (h : Headers) (data : Bytes) : ∃ x, drive h data = some x :=
  driveHeaders_total _ h data (le_refl _)

/-- The run over a buffer, one call of Headers.Parse at a time. -/
theorem drive_unfold (h : Headers) (data : Bytes) :
    drive h data =
      match h.Parse data with
      | (h1, _, _, some err) => some (h1, 0, .failed err)
      | (h1, n, done, none) =>
        if n = 0 then some (h1, 0, .waiting)
        else if done then some (h1, n, .terminator)
        else (drive h1 (data.drop n)).map fun x => (x.1, n + x.2.1, x.2.2) := by
  rw [drive, driveHeaders_succ]
  rcases hp : h.Parse data with ⟨h1, n, done, e⟩
  cases e with
  | some err => rfl
  | none =>
    simp only
    by_cases hn : n = 0
    · rw [if_pos hn, if_pos hn]
    · rw [if_neg hn, if_neg hn]
      cases done with
      | true => rfl
      | false =>
        simp only [Bool.false_eq_true, if_false]
        have hle2 := Parse_le _ _ _ _ _ _ hp
        obtain ⟨x, hx⟩ := drive_total h1 (data.drop n)
        have := driveHeaders_mono_le _ data.length
          (by simp only [List.length_drop]; omega) h1 (data.drop n) x hx
        rw [this, hx]

theorem driveTwice_of_waiting (h : Headers) (a b : Bytes) (h1 : Headers) (n1 : Nat)
    (hd : drive h a = some (h1, n1, .waiting)) :
    driveTwice h a b = (drive h1 (a.drop n1 ++ b)).map fun x => (x.1, n1 + x.2.1, x.2.2) := by
  simp only [driveTwice, hd]

theorem driveTwice_of_ended (h : Headers) (a b : Bytes) (h1 : Headers) (n1 : Nat)
    (o : Outcome) (hd : drive h a = some (h1, n1, o)) (ho : o ≠ .waiting) :
    driveTwice h a b = some (h1, n1, o) := by
  cases o with
  | waiting => exact absurd rfl ho
  | terminator => simp only [driveTwice, hd]
  | failed e => simp only [driveTwice, hd]

theorem driveTwice_eq_aux (k : Nat) : ∀ (h : Headers) (a b : Bytes), a.length ≤ k →
    driveTwice h a b = drive h (a ++ b) := by
  induction k with
  | zero =>
    intro h a b hk
    have ha : a = [] := List.length_eq_zero.1 (by omega)
    subst ha
    have hd : drive h [] = some (h, 0, .waiting) := by
      rw [drive_unfold]
      have : h.Parse [] = (h, 0, false, none) := by simp [Headers.Parse, bytesIndex, hasPrefix, CRLF]
      rw [this]
      rfl
    rw [driveTwice_of_waiting h [] b h 0 hd]
    simp only [List.drop_nil, List.nil_append, Nat.zero_add]
    cases drive h b <;> rfl
  | succ k ih =>
    intro h a b hk
    cases hidx : bytesIndex a CRLF with
    | none =>
      have hd : drive h a = some (h, 0, .waiting) := by
        rw [drive_unfold]
        have : h.Parse a = (h, 0, false, none) := by simp only [Headers.Parse, hidx]
        rw [this]
        rfl
      rw [driveTwice_of_waiting h a b h 0 hd]
      simp only [List.drop_zero, Nat.zero_add]
      cases drive h (a ++ b) <;> rfl
    | some i =>
      have hle := bytesIndex_le a CRLF i hidx
      simp only [CRLF, List.length_cons, List.length_nil] at hle
      have hab := drive_unfold h (a ++ b)
      rw [Parse_append h a b i hidx] at hab
      have ha := drive_unfold h a
      rcases Parse_cases h a i hidx with ⟨e, he⟩ | ⟨h0, hblank⟩ | ⟨hpos, c1, hline⟩
      · rw [he] at ha hab
        rw [driveTwice_of_ended h a b _ _ _ ha (by simp), hab]
      · rw [hblank] at ha hab
        simp only [OfNat.ofNat_ne_zero, if_false, if_true] at ha hab
        rw [driveTwice_of_ended h a b _ _ _ ha (by simp), hab]
      · rw [hline] at ha hab
        simp only [Nat.add_one_ne_zero, if_false, Bool.false_eq_true] at ha hab
        rw [List.drop_append_of_le_length (by omega)] at hab
        have hrec := ih c1 (a.drop (i + 2)) b (by simp only [List.length_drop]; omega)
        obtain ⟨⟨h1, m, o⟩, hx⟩ := drive_total c1 (a.drop (i + 2))
        rw [hx] at ha
        simp only [Option.map_some'] at ha
        rw [hab, ← hrec]
        by_cases ho : o = .waiting
        · subst ho
          rw [driveTwice_of_waiting h a b _ _ ha, driveTwice_of_waiting c1 _ b _ _ hx,
            Option.map_map, List.drop_drop]
          congr 1
          funext z
          simp [Nat.add_assoc]
        · rw [driveTwice_of_ended h a b _ _ _ ha ho, driveTwice_of_ended c1 _ b _ _ _ hx ho]
          rfl

/-- C7. Driving Headers.Parse over the first piece of an input cut in two at any byte, and
then over what that run left unconsumed followed by the second piece, ends with the same
collection, the same number of consumed bytes and the same outcome as driving it over the
input in one piece; and the run over the input in one piece does end. -/
theorem driveTwice_eq (h : Headers) (a b : Bytes) :
    driveTwice h a b = drive h (a ++ b) ∧ ∃ x, drive h (a ++ b) = some x :=
  ⟨driveTwice_eq_aux _ h a b (le_refl _), drive_total h (a ++ b)⟩

theorem driveTwice_example :
    driveTwice NewHeaders (str "Host: localhost:42069\r\nUser-Ag") (str "ent: curl\r\n\r\nrest") =
      some ([(str "host", str "localhost:42069"), (str "user-agent", str "curl")], 43,
        .terminator) := by
  decide

theorem parse_headers_drive_aux (k : Nat) : ∀ (r : Request) (data : Bytes),
    data.length ≤ k → r.parserState = .PARSING_HEADERS →
    match drive r.Headers data with
    | some (h, n, .waiting) => r.parse data = some ({ r with Headers := h }, n, none)
    | some (h, _, .failed e) => r.parse data = some ({ r with Headers := h }, 0, some e)
    | some (h, n, .terminator) =>
      r.parse data =
        if h.Get (str "host") = [] then
          some ({ r with Headers := h }, 0, some .ERROR_MISSING_HOST_HEADER)
        else
          (Request.parse { r with Headers := h, parserState := .PARSING_BODY }
            (data.drop n)).map (shiftRes n)
    | none => False := by
  induction k with
  | zero =>
    intro r data hk hs
    have ha : data = [] := List.length_eq_zero.1 (by omega)
    subst ha
    have hp : r.Headers.Parse [] = (r.Headers, 0, false, none) := by
      simp [Headers.Parse, bytesIndex, hasPrefix, CRLF]
    rw [drive_unfold, parse_headers r _ hs, hp]
    simp
  | succ k ih =>
    intro r data hk hs
    rw [drive_unfold, parse_headers r _ hs]
    rcases hp : r.Headers.Parse data with ⟨h1, n, done, e⟩
    have hle := Parse_le _ _ _ _ _ _ hp
    cases e with
    | some err => simp
    | none =>
      simp only
      by_cases hn : n = 0
      · simp [hn]
      · rw [if_neg hn, if_neg hn]
        cases done with
        | true => simp
        | false =>
          simp only [Bool.false_eq_true, if_false]
          have hrec := ih { r with Headers := h1 } (data.drop n)
            (by simp only [List.length_drop]; omega) hs
          simp only at hrec
          rcases hd : drive h1 (data.drop n) with _ | ⟨h2, m, o⟩
          · rw [hd] at hrec; exact hrec.elim
          · rw [hd] at hrec
            cases o with
            | waiting =>
              simp only [Option.map_some'] at hrec ⊢
              rw [hrec]
              simp [shiftRes]
            | failed e2 =>
              simp only [Option.map_some'] at hrec ⊢
              rw [hrec]
              simp [shiftRes]
            | terminator =>
              simp only [Option.map_some'] at hrec ⊢
              rw [hrec]
              split_ifs
              · simp [shiftRes]
              · rw [Option.map_map, List.drop_drop]
                congr 1
                funext z
                rw [Function.comp_apply, shiftRes_shiftRes]

/-- The run of driveHeaders is what Request.parse does in the phase PARSING_HEADERS: waiting
and failure end the call with the collection of the run, the blank line leads on to the Host
check. -/
theorem parse_headers_drive (r : Request) (data : Bytes)
    (hs : r.parserState = .PARSING_HEADERS) :
    match drive r.Headers data with
    | some (h, n, .waiting) => r.parse data = some ({ r with Headers := h }, n, none)
    | some (h, _, .failed e) => r.parse data = some ({ r with Headers := h }, 0, some e)
    | some (h, n, .terminator) =>
      r.parse data =
        if h.Get (str "host") = [] then
          some ({ r with Headers := h }, 0, some .ERROR_MISSING_HOST_HEADER)
        else
          (Request.parse { r with Headers := h, parserState := .PARSING_BODY }
            (data.drop n)).map (shiftRes n)
    | none => False :=
  parse_headers_drive_aux _ r data (le_refl _) hs

/-! ## Requests without a body -/

/-- When Request.parse on the whole input leaves the request DONE, RequestFromReader returns
that request for every read size, whatever bytes are left over. -/
theorem fromChunks_of_done_at (D : Bytes) (k : Nat) (r : Request) (n : Nat)
    (hparse : newRequest.parse D = some (r, n, none))
    (hd : r.parserState = .DONE) (hk : 1 ≤ k) (turns : Nat)
    (ht : D.length + 1 ≤ turns) : fromChunks D k turns = some (some r, none) := by
  obtain ⟨p, x, hp, hx, hs, hres⟩ := fromChunks_settles D k hk ⟨_, hparse, Or.inr hd⟩
  rw [hres turns ht]
  obtain ⟨r1, n1, e1⟩ := x
  have hD : D.take p ++ D.drop p = D := List.take_append_drop p D
  cases e1 with
  | some e2 =>
    obtain ⟨r2, h2⟩ := parse_error_stable _ _ (D.drop p) _ _ _ hx
    rw [hD, hparse] at h2
    simp at h2
  | none =>
    have hd1 : r1.parserState = .DONE := by
      rcases hs with h | h
      · exact absurd rfl h
      · exact h
    rcases parse_done_stable _ _ (D.drop p) _ _ hx hd1 with h2 | ⟨r2, h2⟩
    · rw [hD, hparse] at h2
      simp only [Option.some.injEq, Prod.mk.injEq] at h2
      obtain ⟨h3, -, -⟩ := h2
      subst h3
      rfl
    · rw [hD, hparse] at h2
      simp at h2

theorem headBytes_length (method target : Bytes) (lines : List Bytes) :
    (headBytes method target lines).length =
      (requestLineText method target).length + 2 + (headerBlock lines).length := by
  simp [headBytes, CRLF]; omega

/-- Request.parse on a head with a Host and without a body length, followed by any bytes:
the request is DONE with an empty body and the bytes of the head are consumed. -/
theorem parse_head_noBody (method target : Bytes) (lines : List Bytes) (rest : Bytes)
    (hrl : validRequestLine method target = true) (hl : lines.all validLine = true)
    (hhost : (setLines NewHeaders lines).Get (str "host") ≠ [])
    (hcl : (setLines NewHeaders lines).Get (str "content-length") = [] ∨
      (setLines NewHeaders lines).Get (str "content-length") = str "0") :
    newRequest.parse (headBytes method target lines ++ rest) =
      some ({ RequestLine :=
                { Method := method, RequestTarget := target, HttpVersion := str "1.1" }
              Headers := setLines NewHeaders lines
              Body := []
              parserState := .DONE }, (headBytes method target lines).length, none) := by
  rw [parse_head _ _ _ _ hrl hl, if_neg hhost, parse_body _ _ rfl]
  simp only [if_pos hcl, Option.map_some', shiftRes, Nat.add_zero]

/-- C13. A buffer that holds a valid request line and a header block of valid lines with a
non-empty Host and no Content-Length, or the Content-Length 0, followed by any bytes or none:
one call of Request.parse on a fresh request returns no error, leaves the request DONE and
reports as consumed the length of the request line with its CRLF plus the length of the
header block with its blank line. -/
theorem parse_once_done (method target : Bytes) (lines : List Bytes) (rest : Bytes)
    (hrl : validRequestLine method target = true) (hl : lines.all validLine = true)
    (hhost : (setLines NewHeaders lines).Get (str "host") ≠ [])
    (hcl : (setLines NewHeaders lines).Get (str "content-length") = [] ∨
      (setLines NewHeaders lines).Get (str "content-length") = str "0") :
    ∃ r, newRequest.parse (headBytes method target lines ++ rest) =
        some (r, (requestLineText method target).length + 2 + (headerBlock lines).length,
          none) ∧
      r.done = true ∧ r.parserState = .DONE := by
  have hp := parse_head_noBody method target lines rest hrl hl hhost hcl
  rw [headBytes_length] at hp
  exact ⟨_, hp, rfl, rfl⟩

theorem parse_once_done_witness :
    ∃ r, newRequest.parse (str "GET / HTTP/1.1\r\nHost: localhost:42069\r\nAccept: */*\r\n\r\n") =
        some (r, 54, none) ∧ r.done = true ∧ r.parserState = .DONE :=
  parse_once_done (str "GET") (str "/") [str "Host: localhost:42069", str "Accept: */*"] []
    (by decide) (by decide) (by decide) (by decide)

/-- C11. A valid request line and a header block of valid lines with a non-empty Host and
no Content-Length, or the Content-Length 0, followed by any bytes or none: for every read
size k ≥ 1 RequestFromReader returns, without error, the request DONE with an empty body, and
Request.parse on the whole input reports only the bytes of the head as consumed. -/
theorem RequestFromReader_noBody (method target : Bytes) (lines : List Bytes) (rest : Bytes)
    (k turns : Nat)
    (hrl : validRequestLine method target = true) (hl : lines.all validLine = true)
    (hhost : (setLines NewHeaders lines).Get (str "host") ≠ [])
    (hcl : (setLines NewHeaders lines).Get (str "content-length") = [] ∨
      (setLines NewHeaders lines).Get (str "content-length") = str "0")
    (hk : 1 ≤ k) (ht : (headBytes method target lines ++ rest).length + 1 ≤ turns) :
    fromChunks (headBytes method target lines ++ rest) k turns =
        some (some { RequestLine :=
                       { Method := method, RequestTarget := target, HttpVersion := str "1.1" }
                     Headers := setLines NewHeaders lines
                     Body := []
                     parserState := .DONE }, none) ∧
      ∃ r, newRequest.parse (headBytes method target lines ++ rest) =
          some (r, (headBytes method target lines).length, none) ∧ r.Body = [] := by
  have hp := parse_head_noBody method target lines rest hrl hl hhost hcl
  exact ⟨fromChunks_of_done_at _ k _ _ hp rfl hk turns ht, _, hp, rfl⟩

theorem RequestFromReader_noBody_witness :
    fromChunks (str "POST /submit HTTP/1.1\r\nHost: localhost:42069\r\n\r\nhello world!\n") 3 80 =
      some (some { RequestLine :=
                     { Method := str "POST", RequestTarget := str "/submit",
                       HttpVersion := str "1.1" }
                   Headers := [(str "host", str "localhost:42069")]
                   Body := []
                   parserState := .DONE }, none) :=
  (RequestFromReader_noBody (str "POST") (str "/submit") [str "Host: localhost:42069"]
    (str "hello world!\n") 3 80 (by decide) (by decide) (by decide) (by decide) (by decide)
    (by decide)).1

/-! ## The errors of parseRequestLine -/

theorem parse_initialized_error (r : Request) (data : Bytes) (rl : Option RequestLine)
    (n : Nat) (e : Error) (hs : r.parserState = .INITIALIZED)
    (h : parseRequestLine data = (rl, n, some e)) : r.parse data = some (r, 0, some e) := by
  rw [parse_initialized r data hs, h]

theorem not_three_tokens (line : Bytes) (h : (stringsSplit line 0x20).length ≠ 3) :
    ¬ ∃ m t v, line = m ++ 0x20 :: (t ++ 0x20 :: v) ∧ 0x20 ∉ m ∧ 0x20 ∉ t ∧ 0x20 ∉ v := by
  rintro ⟨m, t, v, hm⟩
  rw [(stringsSplit_eq_three line m t v 0x20).2 hm] at h
  exact h rfl

/-- C12. When the buffer holds a CRLF, first at index, the errors of parseRequestLine come
in this order: the malformed-request-line error when the text before the CRLF is not three
tokens separated by two single spaces; otherwise the invalid-method error when a rune of the
first token is not an upper-case letter; otherwise the unsupported-version error when the
third token is not HTTP/1.1, the one string that splits at the slash into HTTP and 1.1. Each
time zero bytes are consumed, and Request.parse in the phase INITIALIZED returns the same
error, zero bytes consumed, and leaves the request as it was. -/
theorem parseRequestLine_errors (data : Bytes) (index : Nat) (r : Request)
    (hidx : bytesIndex data CRLF = some index) (hs : r.parserState = .INITIALIZED) :
    ((¬ ∃ m t v, data.take index = m ++ 0x20 :: (t ++ 0x20 :: v) ∧
          0x20 ∉ m ∧ 0x20 ∉ t ∧ 0x20 ∉ v) →
        parseRequestLine data = (none, 0, some .ERROR_MALFORMED_REQUEST_LINE) ∧
        r.parse data = some (r, 0, some .ERROR_MALFORMED_REQUEST_LINE)) ∧
    (∀ m t v, data.take index = m ++ 0x20 :: (t ++ 0x20 :: v) →
        0x20 ∉ m → 0x20 ∉ t → 0x20 ∉ v →
        ((¬ ∀ x ∈ runes m, unicodeIsUpper x = true) →
          parseRequestLine data = (none, 0, some .ERROR_INVALID_METHOD) ∧
          r.parse data = some (r, 0, some .ERROR_INVALID_METHOD)) ∧
        ((∀ x ∈ runes m, unicodeIsUpper x = true) →
          (v ≠ str "HTTP/1.1" ↔ stringsSplit v 0x2F ≠ [str "HTTP", str "1.1"]) ∧
          (v ≠ str "HTTP/1.1" →
            parseRequestLine data = (none, 0, some .ERROR_UNSUPPORTED_HTTP_VERSION) ∧
            r.parse data = some (r, 0, some .ERROR_UNSUPPORTED_HTTP_VERSION)))) := by
  constructor
  · intro hno
    have h1 : parseRequestLine data = (none, 0, some .ERROR_MALFORMED_REQUEST_LINE) := by
      simp only [parseRequestLine, hidx]
      split
      · rename_i m t v hsplit
        exact absurd ⟨m, t, v, (stringsSplit_eq_three _ _ _ _ _).1 hsplit⟩ hno
      · rfl
    exact ⟨h1, parse_initialized_error r data _ _ _ hs h1⟩
  · intro m t v hline hm ht hv
    have hsplit := (stringsSplit_eq_three _ m t v 0x20).2 ⟨hline, hm, ht, hv⟩
    constructor
    · intro hup
      have hup2 : isUpper m = false := by
        cases hu : isUpper m with
        | false => rfl
        | true =>
          exfalso
          apply hup
          simpa [isUpper] using hu
      have h1 : parseRequestLine data = (none, 0, some .ERROR_INVALID_METHOD) := by
        simp only [parseRequestLine, hidx, hsplit, hup2]
        rfl
      exact ⟨h1, parse_initialized_error r data _ _ _ hs h1⟩
    · intro hup
      have hup2 : isUpper m = true := by simpa [isUpper] using hup
      have hiff : v ≠ str "HTTP/1.1" ↔ stringsSplit v 0x2F ≠ [str "HTTP", str "1.1"] :=
        not_congr (stringsSplit_version v).symm
      refine ⟨hiff, ?_⟩
      intro hver
      have hver2 := hiff.1 hver
      have h1 : parseRequestLine data = (none, 0, some .ERROR_UNSUPPORTED_HTTP_VERSION) := by
        simp only [parseRequestLine, hidx, hsplit, hup2, Bool.not_true, Bool.false_eq_true,
          if_false]
        rcases hv2 : stringsSplit v 0x2F with _ | ⟨name, _ | ⟨number, _ | ⟨third, more⟩⟩⟩
        · rfl
        · rfl
        · simp only
          split_ifs with hc
          · rfl
          · exfalso
            apply hver2
            have hname : name = str "HTTP" := by
              by_contra hn; exact hc (Or.inl hn)
            have hnum : number = str "1.1" := by
              by_contra hn; exact hc (Or.inr hn)
            rw [hv2, hname, hnum]
        · rfl
      exact ⟨h1, parse_initialized_error r data _ _ _ hs h1⟩

theorem parseRequestLine_errors_witness :
    newRequest.parse (str "/coffee HTTP/1.1\r\nHost: localhost:42069\r\n\r\n") =
        some (newRequest, 0, some .ERROR_MALFORMED_REQUEST_LINE) ∧
      newRequest.parse (str "/coffee GET HTTP/1.1\r\nHost: localhost:42069\r\n\r\n") =
        some (newRequest, 0, some .ERROR_INVALID_METHOD) ∧
      newRequest.parse (str "GET /coffee HTTP/1.3\r\nHost: localhost:42069\r\n\r\n") =
        some (newRequest, 0, some .ERROR_UNSUPPORTED_HTTP_VERSION) :=
  ⟨((parseRequestLine_errors (str "/coffee HTTP/1.1\r\nHost: localhost:42069\r\n\r\n") 16
        newRequest (by decide) rfl).1 (not_three_tokens _ (by decide))).2,
    (((parseRequestLine_errors (str "/coffee GET HTTP/1.1\r\nHost: localhost:42069\r\n\r\n") 20
        newRequest (by decide) rfl).2 (str "/coffee") (str "GET") (str "HTTP/1.1") (by decide)
        (by decide) (by decide) (by decide)).1 (by decide)).2,
    ((((parseRequestLine_errors (str "GET /coffee HTTP/1.3\r\nHost: localhost:42069\r\n\r\n") 20
        newRequest (by decide) rfl).2 (str "GET") (str "/coffee") (str "HTTP/1.3") (by decide)
        (by decide) (by decide) (by decide)).2 (by decide)).2 (by decide)).2⟩

/-! ## The response writer -/

theorem WriteStatusLine_eq {σ : Type} (write : σ → Bytes → σ × Nat × Option Error)
    (w : Writer σ) (statusCode : Int) :
    w.WriteStatusLine write statusCode =
      if w.writerState ≠ .INITIALIZED then (w, some .ERROR_WRONG_WRITE_ORDER)
      else
        match write w.writer (statusLine statusCode) with
        | (s, _, some err) => ({ w with writer := s }, some err)
        | (s, _, none) => ({ writerState := .STATUS_LINE_DONE, writer := s }, none) := rfl

theorem accepted_write {σ : Type} (write : σ → Bytes → σ × Nat × Option Error)
    (hacc : ∀ s p, (write s p).2.2 = none) (s : σ) (p : Bytes) :
    ∃ s1 n, write s p = (s1, n, none) := by
  rcases h : write s p with ⟨s1, n, e⟩
  have := hacc s p
  rw [h] at this
  simp only at this
  subst this
  exact ⟨_, _, rfl⟩

/-- No call moves the phase backward, whatever the sink does. -/
theorem call_rank_le {σ : Type} (write : σ → Bytes → σ × Nat × Option Error) (w : Writer σ)
    (c : Call) : w.writerState.rank ≤ (w.call write c).1.writerState.rank := by
  obtain ⟨st, sink⟩ := w
  cases c with
  | WriteStatusLine code =>
    simp only [Writer.call, WriteStatusLine_eq]
    split_ifs with h
    · exact le_refl _
    · simp only [ne_eq, not_not] at h
      subst h
      split <;> simp [WriterState.rank]
  | WriteHeaders h =>
    simp only [Writer.call, Writer.WriteHeaders, Writer.writeHeadersImpl]
    split_ifs with hs
    · exact le_refl _
    · split <;> (cases st <;> simp_all [WriterState.rank])
  | WriteBody b =>
    simp only [Writer.call, Writer.WriteBody]
    split_ifs with hs
    · exact le_refl _
    · split <;> (cases st <;> simp_all [WriterState.rank])
  | WriteChunkedBody b =>
    simp only [Writer.call, Writer.WriteChunkedBody]
    split_ifs with hs
    · exact le_refl _
    · split <;> (cases st <;> simp_all [WriterState.rank])
  | WriteChunkedBodyDone =>
    simp only [Writer.call, Writer.WriteChunkedBodyDone]
    split_ifs with hs
    · exact le_refl _
    · simp only [ne_eq, not_not] at hs
      subst hs
      split <;> simp [WriterState.rank]
  | WriteTrailers h =>
    simp only [Writer.call, Writer.WriteTrailers, Writer.writeHeadersImpl]
    split_ifs with hs
    · exact le_refl _
    · split <;> (cases st <;> simp_all [WriterState.rank])

theorem calls_rank_le {σ : Type} (write : σ → Bytes → σ × Nat × Option Error)
    (cs : List Call) : ∀ w : Writer σ,
    w.writerState.rank ≤ (w.calls write cs).writerState.rank := by
  induction cs with
  | nil => intro w; exact le_refl _
  | cons c cs ih =>
    intro w
    simp only [Writer.calls, List.foldl_cons]
    exact le_trans (call_rank_le write w c) (ih _)

/-- C14. With a sink that accepts every write, an operation called in one of its legal
phases returns no error and leaves the writer in its target phase; and over any sequence of
calls the phase never moves backward in the order INITIALIZED, STATUS_LINE_DONE, HEADERS,
BODY, BODY_DONE, TRAILERS. -/
theorem call_legal {σ : Type} (write : σ → Bytes → σ × Nat × Option Error)
    (hacc : ∀ s p, (write s p).2.2 = none) :
    (∀ (w : Writer σ) (c : Call), c.legal w.writerState = true →
      (w.call write c).2 = none ∧ (w.call write c).1.writerState = c.target) ∧
    ∀ (w : Writer σ) (cs : List Call),
      w.writerState.rank ≤ (w.calls write cs).writerState.rank := by
  refine ⟨?_, fun w cs => calls_rank_le write cs w⟩
  intro w c hl
  obtain ⟨st, sink⟩ := w
  cases c with
  | WriteStatusLine code =>
    simp only [Call.legal, decide_eq_true_eq] at hl
    subst hl
    simp only [Writer.call, WriteStatusLine_eq, ne_eq, not_true_eq_false, if_false]
    obtain ⟨s1, n, hw⟩ := accepted_write write hacc sink (statusLine code)
    rw [hw]
    exact ⟨rfl, rfl⟩
  | WriteHeaders h =>
    simp only [Call.legal, Bool.or_eq_true, decide_eq_true_eq] at hl
    have hg : ¬ (st ≠ .STATUS_LINE_DONE ∧ st ≠ .HEADERS) := by
      rcases hl with h1 | h1 <;> simp [h1]
    simp only [Writer.call, Writer.WriteHeaders, Writer.writeHeadersImpl, if_neg hg]
    obtain ⟨s1, n, hw⟩ := accepted_write write hacc sink (headerBytes h)
    rw [hw]
    exact ⟨rfl, rfl⟩
  | WriteBody b =>
    simp only [Call.legal, Bool.or_eq_true, decide_eq_true_eq] at hl
    have hg : ¬ (st ≠ .HEADERS ∧ st ≠ .BODY) := by
      rcases hl with h1 | h1 <;> simp [h1]
    simp only [Writer.call, Writer.WriteBody, if_neg hg]
    obtain ⟨s1, n, hw⟩ := accepted_write write hacc sink b
    rw [hw]
    exact ⟨rfl, rfl⟩
  | WriteChunkedBody b =>
    simp only [Call.legal, Bool.or_eq_true, decide_eq_true_eq] at hl
    have hg : ¬ (st ≠ .HEADERS ∧ st ≠ .BODY) := by
      rcases hl with h1 | h1 <;> simp [h1]
    simp only [Writer.call, Writer.WriteChunkedBody, if_neg hg]
    obtain ⟨s1, n, hw⟩ := accepted_write write hacc sink
      (fmtInteger 16 true b.length ++ CRLF ++ b ++ CRLF)
    rw [hw]
    exact ⟨rfl, rfl⟩
  | WriteChunkedBodyDone =>
    simp only [Call.legal, decide_eq_true_eq] at hl
    subst hl
    simp only [Writer.call, Writer.WriteChunkedBodyDone, ne_eq, not_true_eq_false, if_false]
    obtain ⟨s1, n, hw⟩ := accepted_write write hacc sink (ZERO_CRLF ++ CRLF)
    rw [hw]
    exact ⟨rfl, rfl⟩
  | WriteTrailers h =>
    simp only [Call.legal, Bool.or_eq_true, decide_eq_true_eq] at hl
    have hg : ¬ (st ≠ .BODY_DONE ∧ st ≠ .TRAILERS) := by
      rcases hl with h1 | h1 <;> simp [h1]
    simp only [Writer.call, Writer.WriteTrailers, Writer.writeHeadersImpl, if_neg hg]
    obtain ⟨s1, n, hw⟩ := accepted_write write hacc sink (headerBytes h)
    rw [hw]
    exact ⟨rfl, rfl⟩

theorem call_legal_witness :
    ((NewWriter ([] : Bytes)).call bufferWrite (.WriteStatusLine 200)).2 = none ∧
      ((NewWriter ([] : Bytes)).call bufferWrite (.WriteStatusLine 200)).1.writerState =
        .STATUS_LINE_DONE :=
  (call_legal bufferWrite (fun _ _ => rfl)).1 (NewWriter []) (.WriteStatusLine 200) rfl

/-- C15. An operation called in a phase outside its legal set returns the wrong-write-order
error and leaves the writer as it was: the sink has not been written to and the phase is
unchanged. The operations that return a count return 0. -/
theorem call_illegal {σ : Type} (write : σ → Bytes → σ × Nat × Option Error) (w : Writer σ)
    (c : Call) (hl : c.legal w.writerState = false) :
    w.call write c = (w, some .ERROR_WRONG_WRITE_ORDER) ∧
      (∀ b, c = .WriteBody b → (w.WriteBody write b).2.1 = 0) ∧
      (∀ b, c = .WriteChunkedBody b → (w.WriteChunkedBody write b).2.1 = 0) ∧
      (c = .WriteChunkedBodyDone → (w.WriteChunkedBodyDone write).2.1 = 0) := by
  obtain ⟨st, sink⟩ := w
  cases c with
  | WriteStatusLine code =>
    simp only [Call.legal, decide_eq_false_iff_not] at hl
    simp [Writer.call, WriteStatusLine_eq, hl]
  | WriteHeaders h =>
    simp only [Call.legal, Bool.or_eq_false_iff, decide_eq_false_iff_not] at hl
    simp [Writer.call, Writer.WriteHeaders, hl]
  | WriteBody b =>
    simp only [Call.legal, Bool.or_eq_false_iff, decide_eq_false_iff_not] at hl
    simp [Writer.call, Writer.WriteBody, hl]
  | WriteChunkedBody b =>
    simp only [Call.legal, Bool.or_eq_false_iff, decide_eq_false_iff_not] at hl
    simp [Writer.call, Writer.WriteChunkedBody, hl]
  | WriteChunkedBodyDone =>
    simp only [Call.legal, decide_eq_false_iff_not] at hl
    simp [Writer.call, Writer.WriteChunkedBodyDone, hl]
  | WriteTrailers h =>
    simp only [Call.legal, Bool.or_eq_false_iff, decide_eq_false_iff_not] at hl
    simp [Writer.call, Writer.WriteTrailers, hl]

theorem call_illegal_witness :
    (NewWriter ([] : Bytes)).WriteBody bufferWrite (str "hello") =
        (NewWriter [], 0, some .ERROR_WRONG_WRITE_ORDER) ∧
      (Writer.mk .STATUS_LINE_DONE (str "HTTP/1.1 200 OK\r\n")).call bufferWrite
          (.WriteBody (str "hello")) =
        (Writer.mk .STATUS_LINE_DONE (str "HTTP/1.1 200 OK\r\n"),
          some .ERROR_WRONG_WRITE_ORDER) :=
  ⟨by
      have h := call_illegal bufferWrite (NewWriter ([] : Bytes)) (.WriteBody (str "hello")) rfl
      have h1 := h.1
      have h2 := h.2.1 _ rfl
      simp only [Writer.call, Prod.mk.injEq] at h1
      exact Prod.ext h1.1 (Prod.ext h2 h1.2),
    (call_illegal bufferWrite (Writer.mk .STATUS_LINE_DONE (str "HTTP/1.1 200 OK\r\n"))
      (.WriteBody (str "hello")) rfl).1⟩

/-! ## The bytes the writer writes -/

/-- C16. WriteStatusLine(500) on a fresh writer writes the reason phrase of the constant
REASON_INTERNAL_ERROR, which the source spells Interval Server Error: the status line is not
the one with the reason phrase Internal Server Error. -/
theorem WriteStatusLine_500 :
    ((NewWriter ([] : Bytes)).WriteStatusLine bufferWrite 500).1.writer =
        str "HTTP/1.1 500 Interval Server Error\r\n" ∧
      ((NewWriter ([] : Bytes)).WriteStatusLine bufferWrite 500).1.writer ≠
        str "HTTP/1.1 500 Internal Server Error\r\n" ∧
      ((NewWriter ([] : Bytes)).WriteStatusLine bufferWrite 200).1.writer =
        str "HTTP/1.1 200 OK\r\n" ∧
      ((NewWriter ([] : Bytes)).WriteStatusLine bufferWrite 400).1.writer =
        str "HTTP/1.1 400 Bad Request\r\n" ∧
      ((NewWriter ([] : Bytes)).WriteStatusLine bufferWrite 404).1.writer =
        str "HTTP/1.1 404 \r\n" := by
  decide

theorem hexValue_append (ds : Bytes) (d : Nat) :
    hexValue (ds ++ [d]) = hexValue ds * 16 + (if d < 0x3A then d - 0x30 else d - 0x41 + 10) := by
  simp [hexValue, List.foldl_append]

theorem digitByte_hex (d : Nat) (h : d < 16) :
    isUpperHexDigit (digitByte true d) = true ∧
      (if digitByte true d < 0x3A then digitByte true d - 0x30
        else digitByte true d - 0x41 + 10) = d ∧
      (d ≠ 0 → digitByte true d ≠ 0x30) := by
  unfold digitByte isUpperHexDigit
  by_cases h10 : d < 10
  · simp only [h10, if_true]
    refine ⟨?_, ?_, ?_⟩
    · simp only [Bool.or_eq_true, Bool.and_eq_true, decide_eq_true_eq]; omega
    · rw [if_pos (by omega)]; omega
    · omega
  · simp only [h10, if_false, if_true]
    refine ⟨?_, ?_, ?_⟩
    · simp only [Bool.or_eq_true, Bool.and_eq_true, decide_eq_true_eq]; omega
    · rw [if_neg (by omega)]; omega
    · omega

/-- The digits the loop of fmt writes for the verb %X: upper-case hexadecimal digits, whose
value is the number, with no leading zero. -/
theorem fmtUintLoop_hex (turns : Nat) : ∀ (u : Nat) (acc : Bytes), u ≤ turns →
    ∃ ds, fmtUintLoop 16 true turns u acc = ds ++ acc ∧ ds ≠ [] ∧
      (∀ c ∈ ds, isUpperHexDigit c = true) ∧ hexValue ds = u ∧
      (u = 0 → ds = [0x30]) ∧ (u ≠ 0 → ds.head? ≠ some 0x30) := by
  induction turns with
  | zero =>
    intro u acc hu
    have : u = 0 := by omega
    subst this
    exact ⟨[0x30], rfl, by simp, by decide, by decide, fun _ => rfl, fun h => absurd rfl h⟩
  | succ t ih =>
    intro u acc hu
    simp only [fmtUintLoop]
    by_cases h16 : 16 ≤ u
    · rw [if_pos h16]
      obtain ⟨ds, h1, h2, h3, h4, h5, h6⟩ := ih (u / 16) (digitByte true (u % 16) :: acc)
        (by omega)
      have hd := digitByte_hex (u % 16) (Nat.mod_lt _ (by decide))
      refine ⟨ds ++ [digitByte true (u % 16)], by rw [h1]; simp, by simp, ?_, ?_, ?_, ?_⟩
      · intro c hc
        simp only [List.mem_append, List.mem_singleton] at hc
        rcases hc with hc | rfl
        · exact h3 c hc
        · exact hd.1
      · rw [hexValue_append, h4, hd.2.1]
        omega
      · intro h0; omega
      · intro _
        have hne : u / 16 ≠ 0 := by omega
        have := h6 hne
        cases ds with
        | nil => exact absurd rfl h2
        | cons x xs => simpa using this
    · rw [if_neg h16]
      have hd := digitByte_hex u (by omega)
      refine ⟨[digitByte true u], rfl, by simp, ?_, ?_, ?_, ?_⟩
      · intro c hc
        simp only [List.mem_singleton] at hc
        subst hc
        exact hd.1
      · simp only [hexValue, List.foldl_cons, List.foldl_nil, Nat.zero_mul, Nat.zero_add]
        exact hd.2.1
      · intro h0; subst h0; rfl
      · intro h0
        simp only [List.head?_cons, ne_eq, Option.some.injEq]
        exact hd.2.2 h0

theorem fmtInteger_hex (n : Nat) :
    (∀ c ∈ fmtInteger 16 true n, isUpperHexDigit c = true) ∧
      hexValue (fmtInteger 16 true n) = n ∧
      (fmtInteger 16 true n = str "0" ∨ (fmtInteger 16 true n).head? ≠ some 0x30) := by
  have hneg : ¬ ((n : Int) < 0) := by omega
  obtain ⟨ds, h1, h2, h3, h4, h5, h6⟩ := fmtUintLoop_hex n n [] (le_refl _)
  have he : fmtInteger 16 true n = ds := by
    simp only [fmtInteger, hneg, if_false, Int.natAbs_ofNat, List.nil_append, h1,
      List.append_nil]
  rw [he]
  refine ⟨h3, h4, ?_⟩
  by_cases h0 : n = 0
  · left; rw [h5 h0]; decide
  · right; exact h6 h0

/-- C17. WriteChunkedBody in the phase HEADERS or BODY makes one write to the sink, of the
length of the body as a numeral, CRLF, the body unmodified and CRLF, returns the error of
that write and leaves the phase BODY. The numeral is in base 16 with the digits 0 to 9 and A
to F, its value is the length, and it has no leading zero. -/
theorem WriteChunkedBody_writes {σ : Type} (write : σ → Bytes → σ × Nat × Option Error)
    (w : Writer σ) (body : Bytes)
    (hs : w.writerState = .HEADERS ∨ w.writerState = .BODY) :
    (w.WriteChunkedBody write body).1 =
        { writerState := .BODY
          writer := (write w.writer
            (fmtInteger 16 true body.length ++ CRLF ++ body ++ CRLF)).1 } ∧
      (w.WriteChunkedBody write body).2.2 =
        (write w.writer (fmtInteger 16 true body.length ++ CRLF ++ body ++ CRLF)).2.2 ∧
      (∀ c ∈ fmtInteger 16 true body.length, isUpperHexDigit c = true) ∧
      hexValue (fmtInteger 16 true body.length) = body.length ∧
      (fmtInteger 16 true body.length = str "0" ∨
        (fmtInteger 16 true body.length).head? ≠ some 0x30) := by
  have hg : ¬ (w.writerState ≠ .HEADERS ∧ w.writerState ≠ .BODY) := by
    rcases hs with h1 | h1 <;> simp [h1]
  have hx := fmtInteger_hex body.length
  refine ⟨?_, ?_, hx.1, hx.2.1, hx.2.2⟩
  · simp only [Writer.WriteChunkedBody, if_neg hg]
    rcases hw : write w.writer (fmtInteger 16 true body.length ++ CRLF ++ body ++ CRLF) with
      ⟨s1, n, e⟩
    cases e <;> rfl
  · simp only [Writer.WriteChunkedBody, if_neg hg]
    rcases hw : write w.writer (fmtInteger 16 true body.length ++ CRLF ++ body ++ CRLF) with
      ⟨s1, n, e⟩
    cases e <;> rfl

theorem WriteChunkedBody_writes_witness :
    ((Writer.mk .HEADERS ([] : Bytes)).WriteChunkedBody bufferWrite
        (str "0123456789abcdefghijklmnop")).1.writer =
      str "1A\r\n0123456789abcdefghijklmnop\r\n" := by
  rw [(WriteChunkedBody_writes bufferWrite (Writer.mk .HEADERS ([] : Bytes))
    (str "0123456789abcdefghijklmnop") (Or.inl rfl)).1]
  decide

/-! ## The terminal chunk, the header block and failed writes -/

theorem WriteStatusLine_accepted {σ : Type} (write : σ → Bytes → σ × Nat × Option Error)
    (hacc : ∀ s p, (write s p).2.2 = none) (w : Writer σ) (statusCode : Int)
    (hs : w.writerState = .INITIALIZED) :
    w.WriteStatusLine write statusCode =
      ({ writerState := .STATUS_LINE_DONE, writer := (write w.writer (statusLine statusCode)).1 },
        none) := by
  obtain ⟨s1, n, hw⟩ := accepted_write write hacc w.writer (statusLine statusCode)
  rw [WriteStatusLine_eq, if_neg (by simp [hs]), hw]

theorem writeHeadersImpl_eq {σ : Type} (write : σ → Bytes → σ × Nat × Option Error)
    (w : Writer σ) (h : Headers) :
    w.writeHeadersImpl write h =
      ({ w with writer := (write w.writer (headerBytes h)).1 },
        (write w.writer (headerBytes h)).2.2) := by
  simp only [Writer.writeHeadersImpl]
  rcases hw : write w.writer (headerBytes h) with ⟨s1, n, e⟩
  cases e <;> rfl

theorem WriteHeaders_eq {σ : Type} (write : σ → Bytes → σ × Nat × Option Error)
    (w : Writer σ) (h : Headers)
    (hs : w.writerState = .STATUS_LINE_DONE ∨ w.writerState = .HEADERS) :
    w.WriteHeaders write h =
      ({ writerState := .HEADERS, writer := (write w.writer (headerBytes h)).1 },
        (write w.writer (headerBytes h)).2.2) := by
  have hg : ¬ (w.writerState ≠ .STATUS_LINE_DONE ∧ w.writerState ≠ .HEADERS) := by
    rcases hs with h1 | h1 <;> simp [h1]
  rw [Writer.WriteHeaders, if_neg hg, writeHeadersImpl_eq]

theorem WriteTrailers_eq {σ : Type} (write : σ → Bytes → σ × Nat × Option Error)
    (w : Writer σ) (h : Headers)
    (hs : w.writerState = .BODY_DONE ∨ w.writerState = .TRAILERS) :
    w.WriteTrailers write h =
      ({ writerState := .TRAILERS, writer := (write w.writer (headerBytes h)).1 },
        (write w.writer (headerBytes h)).2.2) := by
  have hg : ¬ (w.writerState ≠ .BODY_DONE ∧ w.writerState ≠ .TRAILERS) := by
    rcases hs with h1 | h1 <;> simp [h1]
  rw [Writer.WriteTrailers, if_neg hg, writeHeadersImpl_eq]

/-- C18 as stated fails: after the status line and the headers, with no body call made,
WriteChunkedBodyDone returns the wrong-write-order error, writes nothing and leaves the phase
HEADERS. -/
theorem WriteChunkedBodyDone_counterexample :
    ((((NewWriter ([] : Bytes)).WriteStatusLine bufferWrite 200).1.WriteHeaders bufferWrite
        NewHeaders).1.WriteChunkedBodyDone bufferWrite).2 =
        (0, some .ERROR_WRONG_WRITE_ORDER) ∧
      ((((NewWriter ([] : Bytes)).WriteStatusLine bufferWrite 200).1.WriteHeaders bufferWrite
        NewHeaders).1.WriteChunkedBodyDone bufferWrite).1.writerState = .HEADERS ∧
      ((((NewWriter ([] : Bytes)).WriteStatusLine bufferWrite 200).1.WriteHeaders bufferWrite
        NewHeaders).1.WriteChunkedBodyDone bufferWrite).1.writer =
        str "HTTP/1.1 200 OK\r\n\r\n" := by
  decide

/-- C18, as amended. With a sink that accepts every write, on a writer on which the status
line and the headers have been written and no body call made, the phase is HEADERS and
WriteChunkedBodyDone returns the wrong-write-order error and leaves the writer as it was;
in the phase BODY, reached from there by a WriteBody or WriteChunkedBody call, of no bytes
even, WriteChunkedBodyDone returns no error, makes the one write of 0 CRLF CRLF and leaves
the phase BODY_DONE. -/
theorem WriteChunkedBodyDone_phase {σ : Type} (write : σ → Bytes → σ × Nat × Option Error)
    (hacc : ∀ s p, (write s p).2.2 = none) (s0 : σ) (statusCode : Int) (h : Headers) :
    (((NewWriter s0).WriteStatusLine write statusCode).1.WriteHeaders write h).1.writerState =
        .HEADERS ∧
      (((NewWriter s0).WriteStatusLine write statusCode).1.WriteHeaders write
          h).1.WriteChunkedBodyDone write =
        ((((NewWriter s0).WriteStatusLine write statusCode).1.WriteHeaders write h).1, 0,
          some .ERROR_WRONG_WRITE_ORDER) ∧
      (∀ body,
        ((((NewWriter s0).WriteStatusLine write statusCode).1.WriteHeaders write
          h).1.WriteChunkedBody write body).1.writerState = .BODY ∧
        ((((NewWriter s0).WriteStatusLine write statusCode).1.WriteHeaders write
          h).1.WriteBody write body).1.writerState = .BODY) ∧
      ∀ w : Writer σ, w.writerState = .BODY →
        (w.WriteChunkedBodyDone write).1 =
            { writerState := .BODY_DONE, writer := (write w.writer (str "0\r\n\r\n")).1 } ∧
          (w.WriteChunkedBodyDone write).2.2 = none := by
  have h1 := WriteStatusLine_accepted write hacc (NewWriter s0) statusCode rfl
  have h2 := WriteHeaders_eq write ((NewWriter s0).WriteStatusLine write statusCode).1 h
    (by rw [h1]; exact Or.inl rfl)
  have hst : (((NewWriter s0).WriteStatusLine write statusCode).1.WriteHeaders write
      h).1.writerState = .HEADERS := by rw [h2]
  refine ⟨hst, ?_, ?_, ?_⟩
  · rw [Writer.WriteChunkedBodyDone, if_pos (by rw [hst]; simp)]
  · intro body
    constructor
    · rw [Writer.WriteChunkedBody, if_neg (by rw [hst]; simp)]
      simp only
      split <;> rfl
    · rw [Writer.WriteBody, if_neg (by rw [hst]; simp)]
      split <;> rfl
  · intro w hw
    have hz : ZERO_CRLF ++ CRLF = str "0\r\n\r\n" := by decide
    obtain ⟨s1, n, hwr⟩ := accepted_write write hacc w.writer (str "0\r\n\r\n")
    simp only [Writer.WriteChunkedBodyDone, hw, ne_eq, not_true_eq_false, if_false, hz, hwr]
    exact ⟨trivial, trivial⟩

theorem WriteChunkedBodyDone_phase_witness :
    ((((((NewWriter ([] : Bytes)).WriteStatusLine bufferWrite 200).1.WriteHeaders bufferWrite
        NewHeaders).1.WriteChunkedBody bufferWrite []).1.WriteChunkedBodyDone
        bufferWrite).1.writer = str "HTTP/1.1 200 OK\r\n\r\n0\r\n\r\n0\r\n\r\n") ∧
      (((((NewWriter ([] : Bytes)).WriteStatusLine bufferWrite 200).1.WriteHeaders bufferWrite
        NewHeaders).1.WriteChunkedBody bufferWrite []).1.WriteChunkedBodyDone
        bufferWrite).2.2 = none := by
  have h := (WriteChunkedBodyDone_phase bufferWrite (fun _ _ => rfl) ([] : Bytes) 200
    NewHeaders).2.2.2
    ((((NewWriter ([] : Bytes)).WriteStatusLine bufferWrite 200).1.WriteHeaders bufferWrite
      NewHeaders).1.WriteChunkedBody bufferWrite []).1 (by decide)
  refine ⟨?_, h.2⟩
  rw [h.1]
  decide

theorem lookup_cons (k1 v1 : Bytes) (rest : Headers) (k : Bytes) :
    Headers.lookup ((k1, v1) :: rest) k = if k1 = k then some v1 else Headers.lookup rest k :=
  rfl

theorem entriesFrom_cons (seen : List Bytes) (k v : Bytes) (rest : Headers) :
    Headers.entriesFrom seen ((k, v) :: rest) =
      if k ∈ seen then Headers.entriesFrom seen rest
      else (k, v) :: Headers.entriesFrom (k :: seen) rest := rfl

/-- The entries a range loop visits are the keys not seen before, each with the value a read
of the key returns. -/
theorem mem_entriesFrom (h : Headers) : ∀ (seen : List Bytes) (k v : Bytes),
    (k, v) ∈ Headers.entriesFrom seen h ↔ k ∉ seen ∧ Headers.lookup h k = some v := by
  induction h with
  | nil => intro seen k v; simp [Headers.entriesFrom, Headers.lookup]
  | cons e rest ih =>
    obtain ⟨k1, v1⟩ := e
    intro seen k v
    rw [entriesFrom_cons, lookup_cons]
    by_cases hk1 : k1 ∈ seen
    · rw [if_pos hk1, ih]
      constructor
      · rintro ⟨h1, h2⟩
        have hne : ¬ k1 = k := fun e => h1 (e ▸ hk1)
        exact ⟨h1, by rw [if_neg hne]; exact h2⟩
      · rintro ⟨h1, h2⟩
        have hne : ¬ k1 = k := fun e => h1 (e ▸ hk1)
        rw [if_neg hne] at h2
        exact ⟨h1, h2⟩
    · rw [if_neg hk1, List.mem_cons, ih]
      by_cases hkk : k1 = k
      · subst hkk
        rw [if_pos rfl]
        constructor
        · rintro (heq | ⟨hn, -⟩)
          · simp only [Prod.mk.injEq, true_and] at heq
            exact ⟨hk1, by rw [heq]⟩
          · exact absurd (List.mem_cons_self _ _) hn
        · rintro ⟨-, hv⟩
          simp only [Option.some.injEq] at hv
          left
          rw [hv]
      · rw [if_neg hkk]
        have hkk2 : ¬ k = k1 := fun e => hkk e.symm
        constructor
        · rintro (heq | ⟨hn, hv⟩)
          · simp only [Prod.mk.injEq] at heq
            exact absurd heq.1 hkk2
          · simp only [List.mem_cons, not_or] at hn
            exact ⟨hn.2, hv⟩
        · rintro ⟨h1, h2⟩
          right
          refine ⟨?_, h2⟩
          simp only [List.mem_cons, not_or]
          exact ⟨hkk2, h1⟩

theorem nodup_entriesFrom (h : Headers) : ∀ seen : List Bytes,
    ((Headers.entriesFrom seen h).map Prod.fst).Nodup := by
  induction h with
  | nil => intro seen; simp [Headers.entriesFrom]
  | cons e rest ih =>
    obtain ⟨k1, v1⟩ := e
    intro seen
    rw [entriesFrom_cons]
    by_cases hk1 : k1 ∈ seen
    · rw [if_pos hk1]; exact ih seen
    · rw [if_neg hk1, List.map_cons, List.nodup_cons]
      refine ⟨?_, ih _⟩
      intro hmem
      rw [List.mem_map] at hmem
      obtain ⟨⟨k, v⟩, hkv, hk⟩ := hmem
      simp only at hk
      subst hk
      have := ((mem_entriesFrom rest (k :: seen) k v).1 hkv).1
      exact this (List.mem_cons_self _ _)

/-- C19. On a fresh writer over a sink that keeps what is written, WriteStatusLine(200) and
then WriteHeaders(h) return no error and leave on the sink the line HTTP/1.1 200 OK, then
for every entry of h one line key, colon, space, value, CRLF, then one CRLF. The entries are
those of the map, each key once with the value stored for it. WriteTrailers writes the same
block. -/
theorem WriteHeaders_bytes (h : Headers) :
    ((NewWriter ([] : Bytes)).WriteStatusLine bufferWrite 200).2 = none ∧
      (((NewWriter ([] : Bytes)).WriteStatusLine bufferWrite 200).1.WriteHeaders bufferWrite h) =
        ({ writerState := .HEADERS
           writer := str "HTTP/1.1 200 OK\r\n" ++
             (h.entries.flatMap fun e => e.1 ++ str ": " ++ e.2 ++ str "\r\n") ++
             str "\r\n" }, none) ∧
      (∀ k v, (k, v) ∈ h.entries ↔ h.lookup k = some v) ∧
      (h.entries.map Prod.fst).Nodup ∧
      ∀ (w : Writer Bytes), w.writerState = .BODY_DONE ∨ w.writerState = .TRAILERS →
        w.WriteTrailers bufferWrite h =
          ({ writerState := .TRAILERS
             writer := w.writer ++
               ((h.entries.flatMap fun e => e.1 ++ str ": " ++ e.2 ++ str "\r\n") ++
                 str "\r\n") }, none) := by
  have hcr : str "\r\n" = CRLF := by decide
  have hb : (bufferWrite (NewWriter ([] : Bytes)).writer (statusLine 200)).1 =
      str "HTTP/1.1 200 OK\r\n" := by decide
  have h1 : (NewWriter ([] : Bytes)).WriteStatusLine bufferWrite 200 =
      ({ writerState := .STATUS_LINE_DONE, writer := str "HTTP/1.1 200 OK\r\n" }, none) := by
    rw [WriteStatusLine_accepted bufferWrite (fun _ _ => rfl) _ 200 rfl, hb]
  refine ⟨by rw [h1], ?_, ?_, nodup_entriesFrom h [], ?_⟩
  · rw [h1, WriteHeaders_eq bufferWrite _ h (Or.inl rfl)]
    simp only [bufferWrite, headerBytes, hcr, List.append_assoc]
  · intro k v
    have := mem_entriesFrom h [] k v
    simpa [Headers.entries] using this
  · intro w hw
    rw [WriteTrailers_eq bufferWrite w h hw]
    simp only [bufferWrite, headerBytes, hcr]

theorem WriteHeaders_bytes_witness :
    (((NewWriter ([] : Bytes)).WriteStatusLine bufferWrite 200).1.WriteHeaders bufferWrite
        ((NewHeaders.Set (str "Content-Length") (str "0")).Set (str "Connection")
          (str "close"))).1.writer =
      str "HTTP/1.1 200 OK\r\ncontent-length: 0\r\nconnection: close\r\n\r\n" ∧
    ((Writer.mk .BODY_DONE (str "0\r\n\r\n")).WriteTrailers bufferWrite
        (NewHeaders.Set (str "X-Sum") (str "1"))).1.writer =
      str "0\r\n\r\nx-sum: 1\r\n\r\n" := by
  constructor
  · rw [(WriteHeaders_bytes ((NewHeaders.Set (str "Content-Length") (str "0")).Set
      (str "Connection") (str "close"))).2.1]
    decide
  · rw [(WriteHeaders_bytes (NewHeaders.Set (str "X-Sum") (str "1"))).2.2.2.2
      (Writer.mk .BODY_DONE (str "0\r\n\r\n")) (Or.inl rfl)]
    decide

/-- Every operation called in one of its legal phases makes exactly one write to the sink
and returns the error of that write. -/
theorem call_writes_once {σ : Type} (write : σ → Bytes → σ × Nat × Option Error)
    (w : Writer σ) (c : Call) (hl : c.legal w.writerState = true) :
    ∃ p, (w.call write c).1.writer = (write w.writer p).1 ∧
      (w.call write c).2 = (write w.writer p).2.2 := by
  obtain ⟨st, sink⟩ := w
  cases c with
  | WriteStatusLine code =>
    simp only [Call.legal, decide_eq_true_eq] at hl
    subst hl
    refine ⟨statusLine code, ?_⟩
    simp only [Writer.call, WriteStatusLine_eq, ne_eq, not_true_eq_false, if_false]
    rcases hw : write sink (statusLine code) with ⟨s1, n, e⟩
    cases e <;> exact ⟨rfl, rfl⟩
  | WriteHeaders h =>
    simp only [Call.legal, Bool.or_eq_true, decide_eq_true_eq] at hl
    refine ⟨headerBytes h, ?_⟩
    simp only [Writer.call, WriteHeaders_eq write ⟨st, sink⟩ h hl]
    exact ⟨trivial, trivial⟩
  | WriteBody b =>
    simp only [Call.legal, Bool.or_eq_true, decide_eq_true_eq] at hl
    have hg : ¬ (st ≠ .HEADERS ∧ st ≠ .BODY) := by
      rcases hl with h1 | h1 <;> simp [h1]
    refine ⟨b, ?_⟩
    simp only [Writer.call, Writer.WriteBody, if_neg hg]
    rcases hw : write sink b with ⟨s1, n, e⟩
    cases e <;> exact ⟨rfl, rfl⟩
  | WriteChunkedBody b =>
    simp only [Call.legal, Bool.or_eq_true, decide_eq_true_eq] at hl
    have hg : ¬ (st ≠ .HEADERS ∧ st ≠ .BODY) := by
      rcases hl with h1 | h1 <;> simp [h1]
    refine ⟨fmtInteger 16 true b.length ++ CRLF ++ b ++ CRLF, ?_⟩
    simp only [Writer.call, Writer.WriteChunkedBody, if_neg hg]
    rcases hw : write sink (fmtInteger 16 true b.length ++ CRLF ++ b ++ CRLF) with ⟨s1, n, e⟩
    cases e <;> exact ⟨rfl, rfl⟩
  | WriteChunkedBodyDone =>
    simp only [Call.legal, decide_eq_true_eq] at hl
    subst hl
    refine ⟨ZERO_CRLF ++ CRLF, ?_⟩
    simp only [Writer.call, Writer.WriteChunkedBodyDone, ne_eq, not_true_eq_false, if_false]
    rcases hw : write sink (ZERO_CRLF ++ CRLF) with ⟨s1, n, e⟩
    cases e <;> exact ⟨rfl, rfl⟩
  | WriteTrailers h =>
    simp only [Call.legal, Bool.or_eq_true, decide_eq_true_eq] at hl
    refine ⟨headerBytes h, ?_⟩
    simp only [Writer.call, WriteTrailers_eq write ⟨st, sink⟩ h hl]
    exact ⟨trivial, trivial⟩

/-- C20. Over a sink whose write fails, WriteStatusLine on a fresh writer returns the error
and leaves the phase INITIALIZED, and WriteChunkedBodyDone in the phase BODY returns the
error and leaves the phase BODY: neither has moved to its target phase. WriteHeaders,
WriteBody, WriteChunkedBody and WriteTrailers return the error and have moved on. -/
theorem failed_write_phase :
    ((NewWriter ([] : Bytes)).WriteStatusLine brokenWrite 200).2 = some (.writeError 0) ∧
      ((NewWriter ([] : Bytes)).WriteStatusLine brokenWrite 200).1.writerState =
        .INITIALIZED ∧
      ((Writer.mk .BODY ([] : Bytes)).WriteChunkedBodyDone brokenWrite).2.2 =
        some (.writeError 0) ∧
      ((Writer.mk .BODY ([] : Bytes)).WriteChunkedBodyDone brokenWrite).1.writerState =
        .BODY ∧
      ((Writer.mk .STATUS_LINE_DONE ([] : Bytes)).WriteHeaders brokenWrite NewHeaders).2 =
        some (.writeError 0) ∧
      ((Writer.mk .STATUS_LINE_DONE ([] : Bytes)).WriteHeaders brokenWrite
        NewHeaders).1.writerState = .HEADERS ∧
      ((Writer.mk .HEADERS ([] : Bytes)).WriteBody brokenWrite (str "a")).1.writerState =
        .BODY ∧
      ((Writer.mk .HEADERS ([] : Bytes)).WriteChunkedBody brokenWrite (str "a")).1.writerState =
        .BODY ∧
      ((Writer.mk .BODY_DONE ([] : Bytes)).WriteTrailers brokenWrite NewHeaders).1.writerState =
        .TRAILERS := by
  decide

/-! ## The phases of the parser -/

/-- A turn of the loop of Request.parse that returns leaves a phase that is not before the
one it found. -/
theorem parseTurn_returns_rank (r : Request) (data : Bytes) (s t : Nat) (r1 : Request)
    (n : Nat) (e : Option Error) (h : r.parseTurn data s t = .returns r1 n e) :
    r.parserState.rank ≤ r1.parserState.rank := by
  rcases hs : r.parserState with _ | _ | _ | _
  · simp only [Request.parseTurn, hs] at h
    rcases hp : parseRequestLine (List.drop s data) with ⟨rl, m, _ | err⟩
    · rw [hp] at h
      simp only at h
      split_ifs at h
      · injection h with h1; subst h1; rw [hs]
      · rcases rl with _ | rl
        · simp only at h; injection h with h1; subst h1; rw [hs]
        · simp only at h; cases h
    · rw [hp] at h
      simp only at h
      injection h with h1; subst h1; rw [hs]
  · simp only [Request.parseTurn, hs] at h
    rcases hp : r.Headers.Parse (List.drop s data) with ⟨c, m, done, _ | err⟩
    · rw [hp] at h
      simp only at h
      split_ifs at h
      · injection h with h1; subst h1; simp [hs]
      · injection h with h1; subst h1; simp [hs]
    · rw [hp] at h
      simp only at h
      injection h with h1; subst h1; simp [hs]
  · simp only [Request.parseTurn, hs] at h
    split_ifs at h
    · injection h with h1; subst h1; simp [ParserState.rank]
    · rcases ha : strconvAtoi (r.Headers.Get (str "content-length")) with ⟨v, _ | err⟩
      · rw [ha] at h
        simp only at h
        split_ifs at h
        · injection h with h1; subst h1; simp [hs]
        · injection h with h1; subst h1; simp [hs]
      · rw [ha] at h
        simp only at h
        injection h with h1; subst h1; rw [hs]
  · simp only [Request.parseTurn, hs] at h
    injection h with h1; subst h1; rw [hs]

/-- A turn of the loop of Request.parse after which the loop goes on leaves a phase that is
not before the one it found. -/
theorem parseTurn_again_rank (r : Request) (data : Bytes) (s t : Nat) (r1 : Request)
    (s1 t1 : Nat) (h : r.parseTurn data s t = .again r1 s1 t1) :
    r.parserState.rank ≤ r1.parserState.rank := by
  rcases parseTurn_again r data s t r1 s1 t1 h with h1 | h1 | h1 | h1 <;>
    rw [h1.1, h1.2.1] <;> decide

/-- The loop of Request.parse never leaves a phase that is before the one it found. -/
theorem parseLoop_rank (data : Bytes) : ∀ (turns : Nat) (r : Request) (s t : Nat)
    (x : Request × Nat × Option Error), Request.parseLoop turns r data s t = some x →
    r.parserState.rank ≤ x.1.parserState.rank := by
  intro turns
  induction turns with
  | zero => intro r s t x h; rw [parseLoop_zero] at h; cases h
  | succ k ih =>
    intro r s t x h
    rw [parseLoop_succ] at h
    rcases ht : r.parseTurn data s t with ⟨r1, s1, t1⟩ | ⟨r1, n, e⟩
    · rw [ht] at h
      exact le_trans (parseTurn_again_rank r data s t r1 s1 t1 ht) (ih r1 s1 t1 x h)
    · rw [ht] at h
      simp only [Option.some.injEq] at h
      subst h
      exact parseTurn_returns_rank r data s t r1 n e ht

/-- C22. Request.parse returns, and the phase it leaves is not before the phase it found in
the order INITIALIZED, PARSING_HEADERS, PARSING_BODY, DONE, with or without an error; a call
on a request that is DONE returns zero and no error and leaves the request as it was. -/
theorem parse_forward (r : Request) (data : Bytes) :
    ∃ r1 n e, r.parse data = some (r1, n, e) ∧
      r.parserState.rank ≤ r1.parserState.rank ∧
      (r.parserState = .DONE → r1 = r ∧ n = 0 ∧ e = none) := by
  obtain ⟨⟨r1, n, e⟩, hx⟩ := parse_total r data
  refine ⟨r1, n, e, hx, ?_, ?_⟩
  · rw [parse_eq] at hx
    exact parseLoop_rank data _ r 0 0 _ hx
  · intro hd
    rw [parse_done r data hd] at hx
    simp only [Option.some.injEq, Prod.mk.injEq] at hx
    exact ⟨hx.1.symm, hx.2.1.symm, hx.2.2.symm⟩

theorem parse_forward_witness :
    ∃ r1 n e, ({ newRequest with parserState := .DONE } : Request).parse (str "GET / HTTP/1.1\r\n") =
        some (r1, n, e) ∧ r1 = { newRequest with parserState := .DONE } ∧ n = 0 ∧ e = none := by
  obtain ⟨r1, n, e, h, -, hd⟩ :=
    parse_forward { newRequest with parserState := .DONE } (str "GET / HTTP/1.1\r\n")
  exact ⟨r1, n, e, h, hd rfl⟩

/-- C25. Request.parse returns, and its count is at most the length of the buffer, and zero
when it returns an error: the slice RequestFromReader takes from the count on holds the
length of the buffer less the count bytes. -/
theorem parse_count (r : Request) (data : Bytes) :
    ∃ r1 n e, r.parse data = some (r1, n, e) ∧ n ≤ data.length ∧ (e ≠ none → n = 0) ∧
      (data.drop n).length + n = data.length := by
  obtain ⟨⟨r1, n, e⟩, hx⟩ := parse_total r data
  have hle := parse_consumed_le r data r1 n e hx
  refine ⟨r1, n, e, hx, hle, ?_, ?_⟩
  · intro he
    rcases e with _ | err
    · exact absurd rfl he
    · exact parse_error_zero r data r1 n err hx
  · rw [List.length_drop]; omega

theorem parse_count_witness :
    ∃ r1 n e, newRequest.parse (str "/coffee HTTP/1.1\r\n") = some (r1, n, e) ∧ e ≠ none ∧
      n = 0 := by
  obtain ⟨r1, n, e, h, -, hz, -⟩ := parse_count newRequest (str "/coffee HTTP/1.1\r\n")
  have he : e ≠ none := by
    have h2 : newRequest.parse (str "/coffee HTTP/1.1\r\n") =
        some (newRequest, 0, some .ERROR_MALFORMED_REQUEST_LINE) := by decide
    rw [h2] at h
    simp only [Option.some.injEq, Prod.mk.injEq] at h
    rw [← h.2.2]; simp
  exact ⟨r1, n, e, h, he, hz he⟩

/-! ## The request line parseRequestLine returns -/

/-- C24 as stated fails: parseRequestLine returns an empty method for a line that starts
with the space, and an empty target for a line with nothing between its two spaces. -/
theorem parseRequestLine_empty_counterexample :
    parseRequestLine (str " / HTTP/1.1\r\n") =
        (some { Method := [], RequestTarget := str "/", HttpVersion := str "1.1" }, 13, none) ∧
      parseRequestLine (str "GET  HTTP/1.1\r\n") =
        (some { Method := str "GET", RequestTarget := [], HttpVersion := str "1.1" }, 15,
          none) := by
  decide

/-- C24, as amended. When parseRequestLine returns a request line, it returns no error, the
method has only upper-case runes and no space, the target has no space, the version is 1.1,
and the buffer holds method, space, target, space, HTTP/1.1 before its first CRLF, the count
being the length of that text and the CRLF. The method and the target may be empty. -/
theorem parseRequestLine_returned (data : Bytes) (rl : RequestLine) (n : Nat)
    (e : Option Error) (h : parseRequestLine data = (some rl, n, e)) :
    e = none ∧ (∀ r ∈ runes rl.Method, unicodeIsUpper r = true) ∧ 0x20 ∉ rl.Method ∧
      0x20 ∉ rl.RequestTarget ∧ rl.HttpVersion = str "1.1" ∧
      ∃ index, bytesIndex data CRLF = some index ∧ n = index + 2 ∧
        data.take index = rl.Method ++ 0x20 :: (rl.RequestTarget ++ 0x20 :: str "HTTP/1.1") := by
  rcases hidx : bytesIndex data CRLF with _ | index
  · simp [parseRequestLine, hidx] at h
  · simp only [parseRequestLine, hidx] at h
    split at h
    · rename_i method target version hsplit
      split_ifs at h with hup
      · simp at h
      · split at h
        · rename_i name number hv
          split_ifs at h with hver
          · simp at h
          · simp only [Prod.mk.injEq, Option.some.injEq] at h
            obtain ⟨hrl, hn, he⟩ := h
            have hname : name = str "HTTP" := by
              by_contra hc; exact hver (Or.inl hc)
            have hnum : number = str "1.1" := by
              by_contra hc; exact hver (Or.inr hc)
            subst hname hnum
            have hversion := (stringsSplit_version version).1 hv
            subst hversion
            obtain ⟨hline, hm, ht, -⟩ := (stringsSplit_eq_three _ _ _ _ _).1 hsplit
            subst hrl
            refine ⟨he.symm, ?_, hm, ht, rfl, index, rfl, ?_, hline⟩
            · simpa [isUpper] using hup
            · simp [CRLF] at hn; omega
        · simp at h
    · simp at h

theorem parseRequestLine_returned_witness :
    (∀ r ∈ runes (str "GET"), unicodeIsUpper r = true) ∧ (0x20 : Nat) ∉ str "/coffee" := by
  have h := parseRequestLine_returned (str "GET /coffee HTTP/1.1\r\nHost: a\r\n\r\n")
    { Method := str "GET", RequestTarget := str "/coffee", HttpVersion := str "1.1" } 22 none
    (by decide)
  exact ⟨h.2.1, h.2.2.2.1⟩

/-! ## The empty chunk -/

/-- C26. WriteChunkedBody of no bytes in the phase HEADERS or BODY makes the one write
0 CRLF CRLF and leaves the phase BODY; WriteChunkedBodyDone in the phase BODY makes the
same write; after the empty chunk a further WriteChunkedBody is not refused and makes its
write; and the bytes of a chunk that is not empty do not start with the digit 0. -/
theorem WriteChunkedBody_empty {σ : Type} (write : σ → Bytes → σ × Nat × Option Error)
    (w : Writer σ) (hs : w.writerState = .HEADERS ∨ w.writerState = .BODY) :
    (w.WriteChunkedBody write []).1 =
        { writerState := .BODY, writer := (write w.writer (str "0\r\n\r\n")).1 } ∧
      (w.WriteChunkedBody write []).2.2 = (write w.writer (str "0\r\n\r\n")).2.2 ∧
      (∀ w2 : Writer σ, w2.writerState = .BODY →
        (w2.WriteChunkedBodyDone write).1.writer = (write w2.writer (str "0\r\n\r\n")).1 ∧
          (w2.WriteChunkedBodyDone write).2.2 = (write w2.writer (str "0\r\n\r\n")).2.2) ∧
      (∀ body : Bytes,
        ((w.WriteChunkedBody write []).1.WriteChunkedBody write body).1.writer =
          (write (write w.writer (str "0\r\n\r\n")).1
            (fmtInteger 16 true body.length ++ CRLF ++ body ++ CRLF)).1) ∧
      ∀ body : Bytes, body ≠ [] →
        (fmtInteger 16 true body.length ++ CRLF ++ body ++ CRLF).head? ≠ some 0x30 ∧
          hasPrefix (fmtInteger 16 true body.length ++ CRLF ++ body ++ CRLF) (str "0\r\n") =
            false := by
  have hg : ¬ (w.writerState ≠ .HEADERS ∧ w.writerState ≠ .BODY) := by
    rcases hs with h1 | h1 <;> simp [h1]
  have hz : fmtInteger 16 true ((([] : Bytes).length : Nat) : Int) ++ CRLF ++ [] ++ CRLF =
      str "0\r\n\r\n" := by decide
  have h1 : (w.WriteChunkedBody write []).1 =
      { writerState := .BODY, writer := (write w.writer (str "0\r\n\r\n")).1 } := by
    simp only [Writer.WriteChunkedBody, if_neg hg, hz]
    rcases hw : write w.writer (str "0\r\n\r\n") with ⟨s1, n, e⟩
    cases e <;> rfl
  refine ⟨h1, ?_, ?_, ?_, ?_⟩
  · simp only [Writer.WriteChunkedBody, if_neg hg, hz]
    rcases hw : write w.writer (str "0\r\n\r\n") with ⟨s1, n, e⟩
    cases e <;> rfl
  · intro w2 hw2
    have hd : ZERO_CRLF ++ CRLF = str "0\r\n\r\n" := by decide
    simp only [Writer.WriteChunkedBodyDone, hw2, ne_eq, not_true_eq_false, if_false, hd]
    rcases hw : write w2.writer (str "0\r\n\r\n") with ⟨s1, n, e⟩
    cases e <;> exact ⟨rfl, rfl⟩
  · intro body
    rw [h1]
    simp only [Writer.WriteChunkedBody, ne_eq, not_true_eq_false, and_false, if_false]
    rcases hw : write (write w.writer (str "0\r\n\r\n")).1
      (fmtInteger 16 true body.length ++ CRLF ++ body ++ CRLF) with ⟨s1, n, e⟩
    cases e <;> rfl
  · intro body hb
    obtain ⟨-, hval, hlead⟩ := fmtInteger_hex body.length
    have hlen : body.length ≠ 0 := by
      intro h0; exact hb (List.length_eq_zero.1 h0)
    have hhead : (fmtInteger 16 true body.length ++ CRLF ++ body ++ CRLF).head? ≠
        some 0x30 := by
      rcases hf : fmtInteger 16 true (body.length : Int) with _ | ⟨d, ds⟩
      · simp [CRLF]
      · rcases hlead with h0 | h0
        · rw [h0] at hval
          exact absurd hval.symm (by simpa [hexValue, str, encodeRune] using hlen)
        · rw [hf] at h0
          simpa using h0
    refine ⟨hhead, ?_⟩
    rcases hc : fmtInteger 16 true (body.length : Int) ++ CRLF ++ body ++ CRLF with _ | ⟨d, ds⟩
    · rfl
    · rw [hc] at hhead
      have hd : d ≠ 0x30 := by simpa using hhead
      have : str "0\r\n" = [0x30, 13, 10] := by decide
      rw [this, hasPrefix_cons]
      simp [hd]

theorem WriteChunkedBody_empty_witness :
    ((((Writer.mk .HEADERS ([] : Bytes)).WriteChunkedBody bufferWrite []).1.WriteChunkedBody
        bufferWrite (str "abc")).1.WriteChunkedBodyDone bufferWrite).1.writer =
      str "0\r\n\r\n3\r\nabc\r\n0\r\n\r\n" ∧
    ((((Writer.mk .HEADERS ([] : Bytes)).WriteChunkedBody bufferWrite []).1.WriteChunkedBody
        bufferWrite (str "abc")).1.WriteChunkedBodyDone bufferWrite).1.writerState =
      .BODY_DONE := by
  have h := WriteChunkedBody_empty bufferWrite (Writer.mk .HEADERS ([] : Bytes)) (Or.inl rfl)
  rw [h.1]
  decide

/-! ## The length of the body -/

theorem parseRequestLine_error (data : Bytes) (rl : Option RequestLine) (n : Nat) (e : Error)
    (h : parseRequestLine data = (rl, n, some e)) : e ≠ .ERROR_CONTENT_LENGTH_EXCEEDED := by
  intro he
  subst he
  simp only [parseRequestLine] at h
  split at h
  · simp at h
  · split at h
    · split_ifs at h
      · simp at h
      · split at h
        · split_ifs at h <;> simp at h
        · simp at h
    · simp at h

theorem Parse_error (c : Headers) (data : Bytes) (c1 : Headers) (n : Nat) (done : Bool)
    (e : Error) (h : c.Parse data = (c1, n, done, some e)) :
    e ≠ .ERROR_CONTENT_LENGTH_EXCEEDED := by
  intro he
  subst he
  simp only [Headers.Parse] at h
  split at h
  · simp at h
  · split_ifs at h
    · simp at h
    · split at h
      · simp at h
      · split_ifs at h <;> simp at h

theorem strconvAtoi_error (s : Bytes) (v : Int) (e : Error)
    (h : strconvAtoi s = (v, some e)) : e ≠ .ERROR_CONTENT_LENGTH_EXCEEDED := by
  intro he
  subst he
  rcases s with _ | ⟨c, rest⟩
  · simp [strconvAtoi] at h
  · simp only [strconvAtoi] at h
    generalize (if c = 0x2B ∨ c = 0x2D then rest else c :: rest) = digits at h
    by_cases hd : digits = []
    · simp [hd] at h
    · rw [if_neg hd] at h
      rcases hp : parseUintLoop digits 0 with ⟨un, _ | err⟩
      · rw [hp] at h
        simp only at h
        split_ifs at h <;> simp at h
      · rw [hp] at h
        cases err <;> simp only at h <;> (try split_ifs at h) <;> simp at h

/-- A turn of the loop of Request.parse keeps the body within the declared length, but for
the return of the content-length error, which leaves a longer body. -/
theorem parseTurn_body (r : Request) (data : Bytes) (s t : Nat) (hr : r.bodyWithin) :
    match r.parseTurn data s t with
    | .again r1 _ _ => r1.bodyWithin
    | .returns r1 _ e =>
      (e ≠ some .ERROR_CONTENT_LENGTH_EXCEEDED → r1.bodyWithin) ∧
        (e = some .ERROR_CONTENT_LENGTH_EXCEEDED → r1.bodyExceeds) := by
  rcases hs : r.parserState with _ | _ | _ | _
  · simp only [Request.bodyWithin, hs] at hr
    simp only [Request.parseTurn, hs]
    rcases hp : parseRequestLine (List.drop s data) with ⟨rl, m, _ | err⟩
    · simp only
      split_ifs
      · simp only
        exact ⟨fun _ => by simp only [Request.bodyWithin, hs]; exact hr, fun h => by cases h⟩
      · rcases rl with _ | rl
        · simp only
          exact ⟨fun _ => by simp only [Request.bodyWithin, hs]; exact hr, fun h => by cases h⟩
        · simp only [Request.bodyWithin]
          exact hr
    · simp only
      refine ⟨fun _ => by simp only [Request.bodyWithin, hs]; exact hr, fun h => ?_⟩
      simp only [Option.some.injEq] at h
      exact absurd h (parseRequestLine_error _ _ _ _ hp)
  · simp only [Request.bodyWithin, hs] at hr
    simp only [Request.parseTurn, hs]
    rcases hp : r.Headers.Parse (List.drop s data) with ⟨c, m, done, _ | err⟩
    · simp only
      split_ifs
      · simp only
        exact ⟨fun _ => by simp only [Request.bodyWithin, hs]; exact hr, fun h => by cases h⟩
      · simp only
        exact ⟨fun _ => by simp only [Request.bodyWithin, hs]; exact hr, fun h => by cases h⟩
      · simp only [Request.bodyWithin]
        exact Or.inl hr
      · simp only [Request.bodyWithin, hs]
        exact hr
    · simp only
      refine ⟨fun _ => by simp only [Request.bodyWithin, hs]; exact hr, fun h => ?_⟩
      simp only [Option.some.injEq] at h
      exact absurd h (Parse_error _ _ _ _ _ _ hp)
  · simp only [Request.bodyWithin, hs] at hr
    simp only [Request.parseTurn, hs]
    split_ifs with hcl
    · simp only
      refine ⟨fun _ => ?_, fun h => by cases h⟩
      simp only [Request.bodyWithin]
      rcases hr with hr | hr
      · exact Or.inl ⟨hcl, hr⟩
      · rcases hcl with h0 | h0
        · exact absurd h0 hr.1
        · exact absurd h0 hr.2.1
    · have hne : r.Headers.Get (str "content-length") ≠ [] := fun h0 => hcl (Or.inl h0)
      have hnz : r.Headers.Get (str "content-length") ≠ str "0" := fun h0 => hcl (Or.inr h0)
      rcases ha : strconvAtoi (r.Headers.Get (str "content-length")) with ⟨v, _ | err⟩
      · simp only
        split_ifs with h1 h2
        · simp only
          refine ⟨fun h => absurd rfl h, fun _ => ?_⟩
          simp only [Request.bodyExceeds]
          exact ⟨trivial, hne, hnz, by rw [ha], by rw [ha]; exact h1⟩
        · simp only [Request.bodyWithin]
          exact Or.inr ⟨hne, hnz, by rw [ha], by rw [ha]; exact h2⟩
        · simp only
          refine ⟨fun _ => ?_, fun h => by cases h⟩
          simp only [Request.bodyWithin, hs]
          refine Or.inr ⟨hne, hnz, by rw [ha], ?_⟩
          rw [ha]
          simp only
          omega
      · simp only
        refine ⟨fun _ => by simp only [Request.bodyWithin, hs]; exact hr, fun h => ?_⟩
        simp only [Option.some.injEq] at h
        exact absurd h (strconvAtoi_error _ _ _ ha)
  · simp only [Request.parseTurn, hs]
    exact ⟨fun _ => hr, fun h => by cases h⟩

theorem parseLoop_body (data : Bytes) : ∀ (turns : Nat) (r : Request) (s t : Nat)
    (x : Request × Nat × Option Error), r.bodyWithin →
    Request.parseLoop turns r data s t = some x →
    (x.2.2 ≠ some .ERROR_CONTENT_LENGTH_EXCEEDED → x.1.bodyWithin) ∧
      (x.2.2 = some .ERROR_CONTENT_LENGTH_EXCEEDED → x.1.bodyExceeds) := by
  intro turns
  induction turns with
  | zero => intro r s t x _ h; rw [parseLoop_zero] at h; cases h
  | succ k ih =>
    intro r s t x hr h
    rw [parseLoop_succ] at h
    have hb := parseTurn_body r data s t hr
    rcases ht : r.parseTurn data s t with ⟨r1, s1, t1⟩ | ⟨r1, n, e⟩
    · rw [ht] at h hb
      exact ih r1 s1 t1 x hb h
    · rw [ht] at h hb
      simp only [Option.some.injEq] at h
      subst h
      exact hb

theorem parse_bodyWithin (r : Request) (data : Bytes) (r1 : Request) (n : Nat)
    (e : Option Error) (hr : r.bodyWithin) (h : r.parse data = some (r1, n, e)) :
    (e ≠ some .ERROR_CONTENT_LENGTH_EXCEEDED → r1.bodyWithin) ∧
      (e = some .ERROR_CONTENT_LENGTH_EXCEEDED → r1.bodyExceeds) := by
  rw [parse_eq] at h
  exact parseLoop_body data _ r 0 0 _ hr h

theorem parseCalls_nil (r : Request) : r.parseCalls [] = some (r, none) := rfl

theorem parseCalls_cons (r : Request) (data : Bytes) (rest : List Bytes) :
    r.parseCalls (data :: rest) =
      match r.parse data with
      | none => none
      | some (r1, _, some err) => some (r1, some err)
      | some (r1, _, none) => Request.parseCalls r1 rest := rfl

theorem parseCalls_bodyWithin (bufs : List Bytes) : ∀ r : Request, r.bodyWithin →
    ∃ r1 e, r.parseCalls bufs = some (r1, e) ∧
      (e ≠ some .ERROR_CONTENT_LENGTH_EXCEEDED → r1.bodyWithin) ∧
      (e = some .ERROR_CONTENT_LENGTH_EXCEEDED → r1.bodyExceeds) := by
  induction bufs with
  | nil =>
    intro r hr
    exact ⟨r, none, rfl, fun _ => hr, fun h => by cases h⟩
  | cons data rest ih =>
    intro r hr
    obtain ⟨⟨r1, n, e⟩, hx⟩ := parse_total r data
    have hb := parse_bodyWithin r data r1 n e hr hx
    rw [parseCalls_cons, hx]
    rcases e with _ | err
    · exact ih r1 (hb.1 (by simp))
    · exact ⟨r1, some err, rfl, hb⟩

/-- C21 as stated fails: a call that returns the content-length error has appended the
bytes of the buffer to the body before the check, so with Content-Length 1 and the bytes ab
after the blank line it leaves a body of two bytes. -/
theorem parse_body_counterexample :
    (newRequest.parse
        (str "POST / HTTP/1.1\r\nHost: a\r\nContent-Length: 1\r\n\r\nab")).map
      (fun x => (x.1.Headers.Get (str "content-length"), x.1.Body, x.2)) =
      some (str "1", str "ab", 0, some .ERROR_CONTENT_LENGTH_EXCEEDED) := by
  decide

/-- C21, as amended. Calls of Request.parse on a fresh request, on whatever buffers, made
until one returns an error, leave a request in which: unless the last call returned the
content-length error, the body holds no more bytes than a declared Content-Length that is
present and not 0; the body of a request that is DONE is empty when Content-Length is absent
or 0 and has the declared length otherwise; and after the content-length error the body holds
more bytes than declared. -/
theorem parseCalls_body (bufs : List Bytes) :
    ∃ r e, newRequest.parseCalls bufs = some (r, e) ∧
      (e ≠ some .ERROR_CONTENT_LENGTH_EXCEEDED →
        ∀ N : Nat, r.Headers.Get (str "content-length") ≠ [] →
          r.Headers.Get (str "content-length") ≠ str "0" →
          strconvAtoi (r.Headers.Get (str "content-length")) = ((N : Int), none) →
          r.Body.length ≤ N) ∧
      (r.parserState = .DONE →
        if r.Headers.Get (str "content-length") = [] ∨
            r.Headers.Get (str "content-length") = str "0" then r.Body = []
        else strconvAtoi (r.Headers.Get (str "content-length")) =
          ((r.Body.length : Int), none)) ∧
      (e = some .ERROR_CONTENT_LENGTH_EXCEEDED →
        (strconvAtoi (r.Headers.Get (str "content-length"))).2 = none ∧
          (strconvAtoi (r.Headers.Get (str "content-length"))).1 < (r.Body.length : Int)) := by
  obtain ⟨r, e, hx, hin, hex⟩ := parseCalls_bodyWithin bufs newRequest rfl
  refine ⟨r, e, hx, ?_, ?_, ?_⟩
  · intro he N hne hnz hN
    have hw := hin he
    rcases hs : r.parserState with _ | _ | _ | _ <;> simp only [Request.bodyWithin, hs] at hw
    · rw [hw]; simp
    · rw [hw]; simp
    · rcases hw with hw | hw
      · rw [hw]; simp
      · rw [hN] at hw
        have := hw.2.2.2
        simp only at this
        omega
    · rcases hw with hw | hw
      · rw [hw.2]; simp
      · rw [hN] at hw
        have := hw.2.2.2
        simp only at this
        omega
  · intro hd
    by_cases he : e = some .ERROR_CONTENT_LENGTH_EXCEEDED
    · have hp := (hex he).1
      rw [hd] at hp
      cases hp
    · have hw := hin he
      simp only [Request.bodyWithin, hd] at hw
      rcases hw with hw | hw
      · rw [if_pos hw.1]; exact hw.2
      · rw [if_neg (by rintro (h0 | h0); exact hw.1 h0; exact hw.2.1 h0)]
        rw [hw.2.2.2]
        rw [← hw.2.2.1]
  · intro he
    exact ⟨(hex he).2.2.2.1, (hex he).2.2.2.2⟩

theorem parseCalls_body_witness :
    ∃ r e, newRequest.parseCalls
        [str "POST / HTTP/1.1\r\nHost: a\r\nContent-Length: 3\r\n\r\na", str "bc"] =
          some (r, e) ∧
      r.parserState = .DONE ∧ r.Body.length ≤ 3 ∧
      strconvAtoi (r.Headers.Get (str "content-length")) = ((r.Body.length : Int), none) := by
  obtain ⟨r, e, hx, ha, hd, -⟩ := parseCalls_body
    [str "POST / HTTP/1.1\r\nHost: a\r\nContent-Length: 3\r\n\r\na", str "bc"]
  have hc : (newRequest.parseCalls
      [str "POST / HTTP/1.1\r\nHost: a\r\nContent-Length: 3\r\n\r\na", str "bc"]).map
      (fun x => (x.1.parserState, x.1.Headers.Get (str "content-length"), x.2)) =
      some (.DONE, str "3", none) := by decide
  rw [hx] at hc
  simp only [Option.map_some', Option.some.injEq, Prod.mk.injEq] at hc
  obtain ⟨hst, hcl, he⟩ := hc
  have hne : r.Headers.Get (str "content-length") ≠ [] := by rw [hcl]; decide
  have hnz : r.Headers.Get (str "content-length") ≠ str "0" := by rw [hcl]; decide
  have h3 : strconvAtoi (r.Headers.Get (str "content-length")) = (((3 : Nat) : Int), none) := by
    rw [hcl]; decide
  have hdone := hd hst
  rw [if_neg (by rintro (h0 | h0); exact hne h0; exact hnz h0)] at hdone
  exact ⟨r, e, hx, hst, ha (by rw [he]; simp) 3 hne hnz h3, hdone⟩

/-! ## Decoding what was encoded -/

theorem validRune_iff (r : Nat) :
    validRune r = true ↔ r < 0xD800 ∨ (0xE000 ≤ r ∧ r ≤ 0x10FFFF) := by
  simp [validRune]

theorem decodeRune_two (p0 b1 : Nat) (rest : Bytes) (h0 : 0xC2 ≤ p0) (h1 : p0 < 0xE0)
    (h2 : 0x80 ≤ b1) (h3 : b1 ≤ 0xBF) :
    decodeRune (p0 :: b1 :: rest) = (p0 % 32 * 64 + b1 % 64, 2) := by
  have ha : acceptLo p0 = 0x80 := by
    simp only [acceptLo]; rw [if_neg (by omega), if_neg (by omega)]
  have hb : acceptHi p0 = 0xBF := by
    simp only [acceptHi]; rw [if_neg (by omega), if_neg (by omega)]
  have hs : runeSize p0 = 2 := by simp only [runeSize]; rw [if_pos h1]
  simp only [decodeRune, ha, hb, hs]
  rw [if_neg (by omega), if_neg (by omega), if_neg (by omega), if_pos (le_refl _)]

theorem decodeRune_three (p0 b1 b2 : Nat) (rest : Bytes) (h0 : 0xE0 ≤ p0) (h1 : p0 < 0xF0)
    (h2 : acceptLo p0 ≤ b1) (h3 : b1 ≤ acceptHi p0) (h4 : 0x80 ≤ b2) (h5 : b2 ≤ 0xBF) :
    decodeRune (p0 :: b1 :: b2 :: rest) = (p0 % 16 * 4096 + b1 % 64 * 64 + b2 % 64, 3) := by
  have hs : runeSize p0 = 3 := by
    simp only [runeSize]; rw [if_neg (by omega), if_pos h1]
  simp only [decodeRune, hs]
  rw [if_neg (by omega), if_neg (by omega), if_neg (by omega), if_neg (by omega),
    if_neg (by omega), if_pos (le_refl _)]

theorem decodeRune_four (p0 b1 b2 b3 : Nat) (rest : Bytes) (h0 : 0xF0 ≤ p0) (h1 : p0 ≤ 0xF4)
    (h2 : acceptLo p0 ≤ b1) (h3 : b1 ≤ acceptHi p0) (h4 : 0x80 ≤ b2) (h5 : b2 ≤ 0xBF)
    (h6 : 0x80 ≤ b3) (h7 : b3 ≤ 0xBF) :
    decodeRune (p0 :: b1 :: b2 :: b3 :: rest) =
      (p0 % 8 * 262144 + b1 % 64 * 4096 + b2 % 64 * 64 + b3 % 64, 4) := by
  have hs : runeSize p0 = 4 := by
    simp only [runeSize]; rw [if_neg (by omega), if_neg (by omega)]
  simp only [decodeRune, hs]
  rw [if_neg (by omega), if_neg (by omega), if_neg (by omega), if_neg (by omega),
    if_neg (by omega), if_neg (by omega), if_neg (by omega)]

theorem acceptLo_cases (p0 : Nat) :
    (p0 = 0xE0 ∧ acceptLo p0 = 0xA0) ∨ (p0 = 0xF0 ∧ acceptLo p0 = 0x90) ∨
      (p0 ≠ 0xE0 ∧ p0 ≠ 0xF0 ∧ acceptLo p0 = 0x80) := by
  simp only [acceptLo]
  split_ifs with h1 h2
  · exact Or.inl ⟨h1, rfl⟩
  · exact Or.inr (Or.inl ⟨h2, rfl⟩)
  · exact Or.inr (Or.inr ⟨h1, h2, rfl⟩)

theorem acceptHi_cases (p0 : Nat) :
    (p0 = 0xED ∧ acceptHi p0 = 0x9F) ∨ (p0 = 0xF4 ∧ acceptHi p0 = 0x8F) ∨
      (p0 ≠ 0xED ∧ p0 ≠ 0xF4 ∧ acceptHi p0 = 0xBF) := by
  simp only [acceptHi]
  split_ifs with h1 h2
  · exact Or.inl ⟨h1, rfl⟩
  · exact Or.inr (Or.inl ⟨h2, rfl⟩)
  · exact Or.inr (Or.inr ⟨h1, h2, rfl⟩)

theorem runeSize_cases (p0 : Nat) :
    (p0 < 0xE0 ∧ runeSize p0 = 2) ∨ (0xE0 ≤ p0 ∧ p0 < 0xF0 ∧ runeSize p0 = 3) ∨
      (0xF0 ≤ p0 ∧ runeSize p0 = 4) := by
  simp only [runeSize]
  split_ifs with h1 h2
  · exact Or.inl ⟨h1, rfl⟩
  · exact Or.inr (Or.inl ⟨by omega, h2, rfl⟩)
  · exact Or.inr (Or.inr ⟨by omega, rfl⟩)

/-- Decoding the encoding of a scalar value gives the value back, and the width of the
encoding. -/
theorem decodeRune_encodeRune (r : Nat) (rest : Bytes) (hv : validRune r = true) :
    decodeRune (encodeRune r ++ rest) = (r, (encodeRune r).length) := by
  rw [validRune_iff] at hv
  simp only [encodeRune]
  split_ifs with h1 h2 h3 h4
  · exact decodeRune_ascii r rest (by omega)
  · simp only [List.cons_append, List.nil_append, List.length_cons, List.length_nil]
    rw [decodeRune_two _ _ _ (by omega) (by omega) (by omega) (by omega)]
    simp only [Prod.mk.injEq, and_true]
    omega
  · omega
  · simp only [List.cons_append, List.nil_append, List.length_cons, List.length_nil]
    have hlo : acceptLo (0xE0 + r / 4096) ≤ 0x80 + r / 64 % 64 := by
      rcases acceptLo_cases (0xE0 + r / 4096) with h | h | h <;> omega
    have hhi : 0x80 + r / 64 % 64 ≤ acceptHi (0xE0 + r / 4096) := by
      rcases acceptHi_cases (0xE0 + r / 4096) with h | h | h <;> omega
    rw [decodeRune_three _ _ _ _ (by omega) (by omega) hlo hhi (by omega) (by omega)]
    simp only [Prod.mk.injEq, and_true]
    omega
  · simp only [List.cons_append, List.nil_append, List.length_cons, List.length_nil]
    have hlo : acceptLo (0xF0 + r / 262144) ≤ 0x80 + r / 4096 % 64 := by
      rcases acceptLo_cases (0xF0 + r / 262144) with h | h | h <;> omega
    have hhi : 0x80 + r / 4096 % 64 ≤ acceptHi (0xF0 + r / 262144) := by
      rcases acceptHi_cases (0xF0 + r / 262144) with h | h | h <;> omega
    rw [decodeRune_four _ _ _ _ _ (by omega) (by omega) hlo hhi (by omega) (by omega)
      (by omega) (by omega)]
    simp only [Prod.mk.injEq, and_true]
    omega

theorem encodeRune_ne_nil (r : Nat) : encodeRune r ≠ [] := by
  simp only [encodeRune]
  split_ifs <;> simp

/-- Every rune DecodeRune returns is a scalar value. -/
theorem decodeRune_valid (p : Bytes) : validRune (decodeRune p).1 = true := by
  have herr : validRune RuneError = true := by decide
  rcases p with _ | ⟨p0, _ | ⟨b1, _ | ⟨b2, _ | ⟨b3, rest⟩⟩⟩⟩ <;> simp only [decodeRune] <;>
    (try split_ifs) <;>
    first
    | exact herr
    | (rw [validRune_iff]
       simp only
       rcases runeSize_cases p0 with h | h | h <;>
         rcases acceptLo_cases p0 with ha | ha | ha <;>
         rcases acceptHi_cases p0 with hb | hb | hb <;> omega)

theorem runesAux_valid (s : Bytes) : ∀ k : Nat, ∀ r ∈ runesAux k s, validRune r = true := by
  induction s with
  | nil => intro k r hr; cases k <;> simp [runesAux] at hr
  | cons b rest ih =>
    intro k r hr
    rcases k with _ | k
    · rw [runesAux_cons_zero, List.mem_cons] at hr
      rcases hr with hr | hr
      · rw [hr]; exact decodeRune_valid _
      · exact ih _ r hr
    · rw [runesAux_cons_succ] at hr
      exact ih _ r hr

theorem runesAux_skip (bs rest : Bytes) : runesAux bs.length (bs ++ rest) = runesAux 0 rest := by
  induction bs with
  | nil => rfl
  | cons b bs ih => rw [List.length_cons, List.cons_append, runesAux_cons_succ, ih]

/-- The runes of the encodings of scalar values are those values. -/
theorem runes_encode (rs : List Nat) (hv : ∀ r ∈ rs, validRune r = true) :
    runes (rs.flatMap encodeRune) = rs := by
  induction rs with
  | nil => rfl
  | cons r rs ih =>
    have hr := hv r (List.mem_cons_self _ _)
    have hd := decodeRune_encodeRune r (rs.flatMap encodeRune) hr
    rw [List.flatMap_cons]
    rcases he : encodeRune r with _ | ⟨b, bs⟩
    · exact absurd he (encodeRune_ne_nil r)
    · rw [he] at hd
      simp only [runes] at ih ⊢
      rw [List.cons_append, runesAux_cons_zero, ← List.cons_append, hd]
      simp only [List.length_cons, Nat.add_sub_cancel]
      rw [runesAux_skip, ih fun x hx => hv x (List.mem_cons_of_mem _ hx)]

/-! ## Lower case is a fixed point of lower-casing -/

theorem testBit_pointMask (lo stride y : Nat) : ∀ n : Nat,
    (pointMask lo stride n).testBit y = true ↔ ∃ i, i < n ∧ y = lo + i * stride := by
  intro n
  induction n with
  | zero => simp [pointMask]
  | succ n ih =>
    simp only [pointMask, Nat.testBit_lor, Bool.or_eq_true, ih, Nat.testBit_two_pow,
      decide_eq_true_eq]
    constructor
    · rintro (⟨i, hi, hy⟩ | hy)
      · exact ⟨i, by omega, hy⟩
      · exact ⟨n, by omega, hy.symm⟩
    · rintro ⟨i, hi, hy⟩
      by_cases hin : i = n
      · subst hin; exact Or.inr hy.symm
      · exact Or.inl ⟨i, by omega, hy⟩

theorem testBit_tableMask (y : Nat) (t : List (Nat × Nat × Nat × Int)) :
    (tableMask t).testBit y = true ↔
      ∃ e ∈ t, ∃ i, i < caseRangeCount e ∧ y = e.1 + i * e.2.2.1 := by
  induction t with
  | nil => simp [tableMask]
  | cons e rest ih =>
    simp only [tableMask, Nat.testBit_lor, Bool.or_eq_true, ih, testBit_pointMask,
      List.mem_cons, exists_eq_or_imp]

theorem caseRange_point (e : Nat × Nat × Nat × Int) (y : Nat)
    (h : (decide (e.1 ≤ y) && decide (y ≤ e.2.1) && (y - e.1) % e.2.2.1 == 0) = true) :
    ∃ i, i < caseRangeCount e ∧ y = e.1 + i * e.2.2.1 := by
  simp only [Bool.and_eq_true, decide_eq_true_eq, beq_iff_eq] at h
  obtain ⟨⟨h1, h2⟩, h3⟩ := h
  refine ⟨(y - e.1) / e.2.2.1, ?_, ?_⟩
  · have := Nat.div_le_div_right (c := e.2.2.1) (show y - e.1 ≤ e.2.1 - e.1 by omega)
    simp only [caseRangeCount]
    omega
  · rw [Nat.div_mul_cancel (Nat.dvd_of_mod_eq_zero h3)]
    omega

theorem imagesFixed_spec (mask lo stride : Nat) (delta : Int) : ∀ n : Nat,
    imagesFixed mask lo stride delta n = true →
    ∀ i, i < n → lowerFixed mask (((lo + i * stride : Nat) : Int) + delta).toNat = true := by
  intro n
  induction n with
  | zero => intro _ i hi; omega
  | succ n ih =>
    intro h i hi
    simp only [imagesFixed, Bool.and_eq_true] at h
    by_cases hin : i = n
    · subst hin; exact h.1
    · exact ih h.2 i (by omega)

theorem tableFixed_spec (mask : Nat) (t : List (Nat × Nat × Nat × Int))
    (h : tableFixed mask t = true) :
    ∀ e ∈ t, ∀ i, i < caseRangeCount e →
      lowerFixed mask (((e.1 + i * e.2.2.1 : Nat) : Int) + e.2.2.2).toNat = true := by
  induction t with
  | nil => intro e he; cases he
  | cons e0 rest ih =>
    intro e he i hi
    simp only [tableFixed, Bool.and_eq_true] at h
    rw [List.mem_cons] at he
    rcases he with he | he
    · subst he; exact imagesFixed_spec _ _ _ _ _ h.1 i hi
    · exact ih h.2 e he i hi

theorem caseRangesFixed_spec (t : List (Nat × Nat × Nat × Int))
    (h : caseRangesFixed t = true) : tableFixed (tableMask t) t = true := by
  simp only [caseRangesFixed] at h
  rcases hm : tableMask t with _ | k
  · rw [hm] at h; exact h
  · rw [hm] at h; exact h

set_option maxRecDepth 100000 in
/-- The check succeeds on the case ranges of unicode.ToLower. -/
theorem tableToLower_fixed : caseRangesFixed tableToLower = true := by decide!

theorem unicodeToLower_eq (r : Nat) :
    unicodeToLower r =
      if r ≤ 0x7F then (if 0x41 ≤ r ∧ r ≤ 0x5A then r + 0x20 else r)
      else
        match tableToLower.find? fun e => e.1 ≤ r && r ≤ e.2.1 && (r - e.1) % e.2.2.1 == 0 with
        | some e => ((r : Int) + e.2.2.2).toNat
        | none => r := rfl

/-- A rune that passes the check is left as it is by unicode.ToLower. -/
theorem unicodeToLower_of_lowerFixed (y : Nat)
    (h : lowerFixed (tableMask tableToLower) y = true) : unicodeToLower y = y := by
  simp only [lowerFixed, Bool.and_eq_true, Bool.or_eq_true, decide_eq_true_eq,
    Bool.not_eq_true', ] at h
  obtain ⟨⟨-, hup⟩, hbit⟩ := h
  rw [unicodeToLower_eq]
  by_cases h7 : y ≤ 0x7F
  · rw [if_pos h7, if_neg (by omega)]
  · rw [if_neg h7]
    rcases hf : tableToLower.find?
      (fun e => decide (e.1 ≤ y) && decide (y ≤ e.2.1) && (y - e.1) % e.2.2.1 == 0) with _ | e
    · rw [hf]
    · exfalso
      have hmem := List.mem_of_find?_eq_some hf
      have hp := List.find?_some hf
      have hb := (testBit_tableMask y tableToLower).2 ⟨e, hmem, caseRange_point e y hp⟩
      rw [hb] at hbit
      cases hbit

/-- The function unicode.ToLower maps a scalar value to a scalar value that it leaves as it
is. -/
theorem unicodeToLower_fixed (r : Nat) (hv : validRune r = true) :
    validRune (unicodeToLower r) = true ∧
      unicodeToLower (unicodeToLower r) = unicodeToLower r := by
  by_cases h7 : r ≤ 0x7F
  · have h1 : unicodeToLower r = if 0x41 ≤ r ∧ r ≤ 0x5A then r + 0x20 else r := by
      rw [unicodeToLower_eq, if_pos h7]
    rw [h1]
    split_ifs with hup
    · refine ⟨by rw [validRune_iff]; omega, ?_⟩
      rw [unicodeToLower_eq, if_pos (by omega), if_neg (by omega)]
    · refine ⟨hv, ?_⟩
      rw [unicodeToLower_eq, if_pos h7, if_neg hup]
  · rcases hf : tableToLower.find?
      (fun e => decide (e.1 ≤ r) && decide (r ≤ e.2.1) && (r - e.1) % e.2.2.1 == 0) with _ | e
    · have h1 : unicodeToLower r = r := by rw [unicodeToLower_eq, if_neg h7, hf]
      rw [h1]
      exact ⟨hv, h1⟩
    · have h1 : unicodeToLower r = ((r : Int) + e.2.2.2).toNat := by
        rw [unicodeToLower_eq, if_neg h7, hf]
      have hmem := List.mem_of_find?_eq_some hf
      have hp := List.find?_some hf
      obtain ⟨i, hi, hy⟩ := caseRange_point e r hp
      have hfix := tableFixed_spec _ _ (caseRangesFixed_spec _ tableToLower_fixed) e hmem i hi
      rw [← hy, ← h1] at hfix
      refine ⟨?_, unicodeToLower_of_lowerFixed _ hfix⟩
      simp only [lowerFixed, Bool.and_eq_true] at hfix
      exact hfix.1.1

theorem encodeRune_ascii (x b : Nat) (hb : b ∈ encodeRune x) (h : b < 0x80) :
    x = b ∧ x ≤ 0x7F := by
  simp only [encodeRune] at hb
  split_ifs at hb with h1 h2 h3 h4 <;> simp only [List.mem_cons, List.mem_singleton,
    List.not_mem_nil, or_false] at hb
  · exact ⟨hb.symm, h1⟩
  all_goals omega

theorem stringsToLower_eq (s : Bytes) :
    stringsToLower s =
      if s.all (· < 0x80) then s.map fun c => if 0x41 ≤ c ∧ c ≤ 0x5A then c + 0x20 else c
      else (runes s).flatMap fun r => encodeRune (unicodeToLower r) := rfl

theorem flatMap_encode_map (f : Nat → Nat) (rs : List Nat) :
    (rs.flatMap fun r => encodeRune (f r)) = (rs.map f).flatMap encodeRune := by
  induction rs with
  | nil => rfl
  | cons r rs ih => simp only [List.flatMap_cons, List.map_cons, ih]

/-- The encodings of scalar values that unicode.ToLower leaves as they are make up a string
that strings.ToLower leaves as it is. -/
theorem stringsToLower_encode (rs : List Nat)
    (h : ∀ x ∈ rs, validRune x = true ∧ unicodeToLower x = x) :
    stringsToLower (rs.flatMap encodeRune) = rs.flatMap encodeRune := by
  rw [stringsToLower_eq]
  by_cases hall : (rs.flatMap encodeRune).all (· < 0x80) = true
  · rw [if_pos hall]
    rw [List.all_eq_true] at hall
    conv_rhs => rw [← List.map_id (rs.flatMap encodeRune)]
    apply List.map_congr_left
    intro b hb
    have hlt := hall b hb
    simp only [decide_eq_true_eq] at hlt
    rw [List.mem_flatMap] at hb
    obtain ⟨x, hx, hbx⟩ := hb
    obtain ⟨hxb, hx7⟩ := encodeRune_ascii x b hbx hlt
    subst hxb
    have hfix := (h x hx).2
    rw [unicodeToLower_eq, if_pos hx7] at hfix
    simp only [id]
    exact hfix
  · rw [if_neg hall, runes_encode rs fun x hx => (h x hx).1, flatMap_encode_map]
    congr 1
    conv_rhs => rw [← List.map_id rs]
    apply List.map_congr_left
    intro x hx
    exact (h x hx).2

/-- Go strings.ToLower leaves its own results as they are. -/
theorem stringsToLower_idem (s : Bytes) :
    stringsToLower (stringsToLower s) = stringsToLower s := by
  by_cases hall : s.all (· < 0x80) = true
  · have h1 : stringsToLower s =
        s.map fun c => if 0x41 ≤ c ∧ c ≤ 0x5A then c + 0x20 else c := by
      rw [stringsToLower_eq, if_pos hall]
    rw [List.all_eq_true] at hall
    have hall2 : (s.map fun c => if 0x41 ≤ c ∧ c ≤ 0x5A then c + 0x20 else c).all
        (· < 0x80) = true := by
      rw [List.all_eq_true]
      intro b hb
      rw [List.mem_map] at hb
      obtain ⟨c, hc, rfl⟩ := hb
      have := hall c hc
      simp only [decide_eq_true_eq] at this ⊢
      split_ifs <;> omega
    rw [h1, stringsToLower_eq, if_pos hall2, List.map_map]
    apply List.map_congr_left
    intro c _
    simp only [Function.comp]
    split_ifs <;> omega
  · have h1 : stringsToLower s =
        ((runes s).map unicodeToLower).flatMap encodeRune := by
      rw [stringsToLower_eq, if_neg hall, flatMap_encode_map]
    rw [h1]
    apply stringsToLower_encode
    intro x hx
    rw [List.mem_map] at hx
    obtain ⟨r, hr, rfl⟩ := hx
    exact unicodeToLower_fixed r (runesAux_valid s 0 r hr)

/-! ## The keys of the header collection -/

theorem lookup_store (h : Headers) (k0 v0 k v : Bytes)
    (hl : (h.store k0 v0).lookup k = some v) : k = k0 ∨ h.lookup k = some v := by
  by_cases hk : k = k0
  · exact Or.inl hk
  · rw [lookup_store_other h k0 v0 k hk] at hl
    exact Or.inr hl

theorem lookup_Delete (h : Headers) (key k : Bytes) :
    (h.Delete key).lookup k = if k = stringsToLower key then none else h.lookup k := by
  induction h with
  | nil => simp [Headers.Delete, Headers.lookup]
  | cons e rest ih =>
    obtain ⟨k1, v1⟩ := e
    simp only [Headers.Delete] at ih ⊢
    by_cases h1 : k1 = stringsToLower key
    · rw [List.filter_cons_of_neg (by simpa using h1), ih, lookup_cons]
      by_cases h2 : k = stringsToLower key
      · rw [if_pos h2, if_pos h2]
      · have h3 : ¬ k1 = k := by rw [h1]; exact fun e => h2 e.symm
        rw [if_neg h2, if_neg h2, if_neg h3]
    · rw [List.filter_cons_of_pos (by simpa using h1), lookup_cons, lookup_cons, ih]
      by_cases h2 : k1 = k
      · have h3 : ¬ k = stringsToLower key := by rw [← h2]; exact h1
        rw [if_pos h2, if_neg h3, if_pos h2]
      · rw [if_neg h2]
        by_cases h3 : k = stringsToLower key
        · rw [if_pos h3, if_pos h3]
        · rw [if_neg h3, if_neg h3, if_neg h2]

theorem Delete_absent (h : Headers) (key : Bytes)
    (hno : h.lookup (stringsToLower key) = none) : h.Delete key = h := by
  induction h with
  | nil => rfl
  | cons e rest ih =>
    obtain ⟨k1, v1⟩ := e
    rw [lookup_cons] at hno
    by_cases h1 : k1 = stringsToLower key
    · rw [if_pos h1] at hno; cases hno
    · rw [if_neg h1] at hno
      simp only [Headers.Delete] at ih ⊢
      rw [List.filter_cons_of_pos (by simpa using h1), ih hno]

theorem Parse_collection (h : Headers) (data : Bytes) :
    (h.Parse data).1 = h ∨ ∃ key value, (h.Parse data).1 = h.Set key value := by
  simp only [Headers.Parse]
  split
  · exact Or.inl rfl
  · split_ifs
    · exact Or.inl rfl
    · split
      · exact Or.inl rfl
      · split_ifs
        · exact Or.inl rfl
        · exact Or.inr ⟨_, _, rfl⟩

theorem Set_store (h : Headers) (key value : Bytes) :
    ∃ v, h.Set key value = h.store (stringsToLower key) v := by
  simp only [Headers.Set]
  split
  · exact ⟨_, rfl⟩
  · exact ⟨_, rfl⟩

/-- A call keeps the keys of the collection lower-case. -/
theorem call_lower (h : Headers) (c : HeaderCall)
    (hh : ∀ k v, h.lookup k = some v → stringsToLower k = k) :
    ∀ k v, (h.call c).lookup k = some v → stringsToLower k = k := by
  have hset : ∀ key value k v, (h.Set key value).lookup k = some v → stringsToLower k = k := by
    intro key value k v hl
    obtain ⟨v0, hs⟩ := Set_store h key value
    rw [hs] at hl
    rcases lookup_store h _ _ k v hl with hk | hk
    · rw [hk]; exact stringsToLower_idem key
    · exact hh k v hk
  intro k v hl
  cases c with
  | Set key value => exact hset key value k v hl
  | Replace key value =>
    simp only [Headers.call, Headers.Replace] at hl
    rcases lookup_store h _ _ k v hl with hk | hk
    · rw [hk]; exact stringsToLower_idem key
    · exact hh k v hk
  | Delete key =>
    simp only [Headers.call] at hl
    rw [lookup_Delete] at hl
    split_ifs at hl
    exact hh k v hl
  | Parse data =>
    simp only [Headers.call] at hl
    rcases Parse_collection h data with hp | ⟨key, value, hp⟩
    · rw [hp] at hl; exact hh k v hl
    · rw [hp] at hl; exact hset key value k v hl

theorem calls_lower (cs : List HeaderCall) : ∀ h : Headers,
    (∀ k v, h.lookup k = some v → stringsToLower k = k) →
    ∀ k v, (h.calls cs).lookup k = some v → stringsToLower k = k := by
  induction cs with
  | nil => intro h hh; exact hh
  | cons c cs ih =>
    intro h hh
    simp only [Headers.calls, List.foldl_cons] at ih ⊢
    exact ih (h.call c) (call_lower h c hh)

/-- C23. Starting from the collection of NewHeaders, every key a sequence of Set, Replace,
Delete and Parse calls leaves in the collection is its own lower-casing; after Replace, Get
of a name that differs only in letter case returns the value of the call as it is; after
Delete, Get of such a name returns the empty string; and Delete of a name with no entry
leaves the collection as it was. -/
theorem calls_lower_case (cs : List HeaderCall) :
    (∀ k v, (NewHeaders.calls cs).lookup k = some v → stringsToLower k = k) ∧
      (∀ (h : Headers) (name name2 value : Bytes), differOnlyInCase name name2 = true →
        (h.Replace name value).Get name2 = value) ∧
      (∀ (h : Headers) (name name2 : Bytes), differOnlyInCase name name2 = true →
        (h.Delete name).Get name2 = []) ∧
      ∀ (h : Headers) (name : Bytes), h.lookup (stringsToLower name) = none →
        h.Delete name = h := by
  refine ⟨calls_lower cs NewHeaders (fun k v hl => by cases hl), ?_, ?_, Delete_absent⟩
  · intro h name name2 value hcase
    rw [Get_eq, ← stringsToLower_congr name name2 hcase, Headers.Replace, lookup_store_same]
    rfl
  · intro h name name2 hcase
    rw [Get_eq, ← stringsToLower_congr name name2 hcase, lookup_Delete, if_pos rfl]
    rfl

theorem calls_lower_case_witness :
    stringsToLower (str "host") = str "host" ∧
      ((NewHeaders.Set (str "Host") (str "a")).Replace (str "hOST") (str "b")).Get
        (str "HOST") = str "b" ∧
      ((NewHeaders.Set (str "Host") (str "a")).Delete (str "hOST")).Get (str "HOST") = [] ∧
      (NewHeaders.Set (str "Host") (str "a")).Delete (str "Accept") =
        NewHeaders.Set (str "Host") (str "a") :=
  ⟨(calls_lower_case [.Set (str "Accept") (str "x"), .Parse (str "Host: a\r\n"),
      .Replace (str "HOST") (str "b"), .Delete (str "accept")]).1 (str "host") (str "b")
      (by decide),
    (calls_lower_case []).2.1 _ (str "hOST") (str "HOST") _ (by decide),
    (calls_lower_case []).2.2.1 _ (str "hOST") (str "HOST") (by decide),
    (calls_lower_case []).2.2.2 _ (str "Accept") (by decide)⟩

/-! ## A request followed by further bytes -/

theorem readTrace_succ {σ : Type} (read : σ → Nat → σ × Bytes × Option Error) (turns : Nat)
    (request : Request) (lenBuf : Nat) (buf : Bytes) (reader : σ) :
    readTrace read (turns + 1) request lenBuf buf reader =
      if request.done then []
      else
        match read reader
            ((if buf.length ≥ lenBuf then lenBuf + BUFFER_SIZE else lenBuf) - buf.length) with
        | (_, _, some _) => []
        | (reader, bytes, none) =>
          match request.parse (buf ++ bytes) with
          | some (request, parsedN, none) =>
            reader :: readTrace read turns request
              (if buf.length ≥ lenBuf then lenBuf + BUFFER_SIZE else lenBuf)
              ((buf ++ bytes).drop parsedN) reader
          | _ => [reader] := rfl

/-- A read of the chunk reader before the end of its data hands over at least one byte, at
most the read size and at most as many as fit, and they are the next bytes of the data. -/
theorem Read_spec_le (D : Bytes) (k pos lenP : Nat) (hpos : pos < D.length) (hk : 1 ≤ k)
    (hl : 1 ≤ lenP) :
    ∃ n, 1 ≤ n ∧ n ≤ k ∧ n ≤ lenP ∧ pos + n ≤ D.length ∧
      ChunkReader.Read { data := D, byteCountPerRead := k, pos := pos } lenP =
        ({ data := D, byteCountPerRead := k, pos := pos + n }, (D.drop pos).take n, none) := by
  refine ⟨min (min (pos + k) D.length - pos) lenP, ?_, ?_, ?_, ?_, ?_⟩
  · omega
  · omega
  · omega
  · omega
  · simp only [ChunkReader.Read]
    rw [if_neg (by omega)]
    have e1 : ((D.take (min (pos + k) D.length)).drop pos).take lenP =
        (D.drop pos).take (min (min (pos + k) D.length - pos) lenP) := by
      rw [List.drop_take, List.take_take, Nat.min_comm]
    rw [e1]
    simp only [List.length_take, List.length_drop, Prod.mk.injEq, and_true,
      ChunkReader.mk.injEq, true_and]
    omega

/-- The loop of RequestFromReader over the chunk reader, started after pos bytes of the
input D have been read, with the positions at which its reads end: the loop ends at the first
of them where Request.parse on the bytes read so far is settled, and returns the outcome of
that call; the read ends are at most the read size apart. -/
theorem readTrace_chunks (D : Bytes) (k : Nat) (hk : 1 ≤ k)
    (hset : ∃ x, newRequest.parse D = some x ∧ settled x) :
    ∀ (m pos : Nat) (request : Request) (c lenBuf : Nat), D.length - pos ≤ m → pos ≤ D.length →
      newRequest.parse (D.take pos) = some (request, c, none) → c ≤ pos →
      ((D.take pos).drop c).length ≤ lenBuf →
      ∃ p x ends, pos ≤ p ∧ p ≤ D.length ∧ newRequest.parse (D.take p) = some x ∧ settled x ∧
        (request.parserState = .DONE → p = pos) ∧
        (p = pos ∨ p ∈ ends) ∧
        (∀ q ∈ ends, q = p ∨
          ∃ r n, newRequest.parse (D.take q) = some (r, n, none) ∧ r.parserState ≠ .DONE) ∧
        (∀ q, pos < q → q ≤ p → ∃ e ∈ ends, q ≤ e ∧ e < q + k) ∧
        ∀ turns, m + 1 ≤ turns →
          readLoop ChunkReader.Read turns request lenBuf ((D.take pos).drop c)
              { data := D, byteCountPerRead := k, pos := pos } = some (outcome x) ∧
            (readTrace ChunkReader.Read turns request lenBuf ((D.take pos).drop c)
              { data := D, byteCountPerRead := k, pos := pos }).map (fun cr => cr.pos) =
              ends := by
  have hstop : ∀ (pos : Nat) (request : Request) (c lenBuf m : Nat), pos ≤ D.length →
      newRequest.parse (D.take pos) = some (request, c, none) →
      request.parserState = .DONE →
      ∃ p x ends, pos ≤ p ∧ p ≤ D.length ∧ newRequest.parse (D.take p) = some x ∧ settled x ∧
        (request.parserState = .DONE → p = pos) ∧
        (p = pos ∨ p ∈ ends) ∧
        (∀ q ∈ ends, q = p ∨
          ∃ r n, newRequest.parse (D.take q) = some (r, n, none) ∧ r.parserState ≠ .DONE) ∧
        (∀ q, pos < q → q ≤ p → ∃ e ∈ ends, q ≤ e ∧ e < q + k) ∧
        ∀ turns, m + 1 ≤ turns →
          readLoop ChunkReader.Read turns request lenBuf ((D.take pos).drop c)
              { data := D, byteCountPerRead := k, pos := pos } = some (outcome x) ∧
            (readTrace ChunkReader.Read turns request lenBuf ((D.take pos).drop c)
              { data := D, byteCountPerRead := k, pos := pos }).map (fun cr => cr.pos) =
              ends := by
    intro pos request c lenBuf m hpos hparse hd
    refine ⟨pos, (request, c, none), [], le_refl _, hpos, hparse, Or.inr hd, fun _ => rfl,
      Or.inl rfl, ?_, ?_, ?_⟩
    · intro q hq
      exact absurd hq (List.not_mem_nil q)
    · intro q h1 h2
      omega
    intro turns ht
    obtain ⟨t, rfl⟩ : ∃ t, turns = t + 1 := ⟨turns - 1, by omega⟩
    have hdone : request.done = true := by simp [Request.done, hd]
    rw [readLoop_succ, readTrace_succ, if_pos hdone, if_pos hdone]
    exact ⟨rfl, rfl⟩
  intro m
  induction m with
  | zero =>
    intro pos request c lenBuf hm hpos hparse hc hbuf
    have hp : pos = D.length := by omega
    have hd : request.parserState = .DONE := by
      subst hp
      rw [List.take_length] at hparse
      obtain ⟨x, hx, hsx⟩ := hset
      rw [hparse] at hx
      simp only [Option.some.injEq] at hx
      subst hx
      rcases hsx with h | h
      · exact absurd rfl h
      · exact h
    exact hstop pos request c lenBuf 0 hpos hparse hd
  | succ m ih =>
    intro pos request c lenBuf hm hpos hparse hc hbuf
    by_cases hd : request.parserState = .DONE
    · exact hstop pos request c lenBuf (m + 1) hpos hparse hd
    · have hlt : pos < D.length := by
        by_contra hge
        have hp : pos = D.length := by omega
        subst hp
        rw [List.take_length] at hparse
        obtain ⟨x, hx, hsx⟩ := hset
        rw [hparse] at hx
        simp only [Option.some.injEq] at hx
        subst hx
        rcases hsx with h | h
        · exact absurd rfl h
        · exact hd h
      have hblen : ((D.take pos).drop c).length = pos - c := by
        simp only [List.length_drop, List.length_take]; omega
      obtain ⟨n, hn1, hnk, hn2, hn3, hread⟩ := Read_spec_le D k pos
        ((if ((D.take pos).drop c).length ≥ lenBuf then lenBuf + BUFFER_SIZE else lenBuf) -
          ((D.take pos).drop c).length) hlt hk (by
            simp only [BUFFER_SIZE]; split_ifs <;> omega)
      have htake : D.take (pos + n) = D.take pos ++ (D.drop pos).take n := List.take_add _ _ _
      have hres := parse_resume newRequest (D.take pos) ((D.drop pos).take n) request c hparse hd
      rw [← htake] at hres
      have hbuf2 : (D.take pos).drop c ++ (D.drop pos).take n = (D.take (pos + n)).drop c := by
        rw [htake, List.drop_append_of_le_length (by simp only [List.length_take]; omega)]
      obtain ⟨y, hy⟩ := parse_total request ((D.take pos).drop c ++ (D.drop pos).take n)
      rw [hy] at hres
      obtain ⟨r2, n2, e2⟩ := y
      have hn2le := parse_consumed_le _ _ _ _ _ hy
      rw [hbuf2] at hn2le
      simp only [List.length_drop, List.length_take] at hn2le
      cases e2 with
      | some e =>
        refine ⟨pos + n, (r2, 0, some e), [pos + n], by omega, hn3, hres, Or.inl (by simp),
          fun h => absurd h hd, Or.inr (List.mem_singleton.2 rfl), ?_, ?_, ?_⟩
        · intro q hq
          exact Or.inl (List.mem_singleton.1 hq)
        · intro q h1 h2
          exact ⟨pos + n, List.mem_singleton.2 rfl, h2, by omega⟩
        · intro turns ht
          obtain ⟨t, rfl⟩ : ∃ t, turns = t + 1 := ⟨turns - 1, by omega⟩
          have hnd : ¬ request.done = true := by simp [Request.done, hd]
          rw [readLoop_succ, readTrace_succ, if_neg hnd, if_neg hnd, hread]
          simp only [hy]
          exact ⟨rfl, rfl⟩
      | none =>
        have hparse2 : newRequest.parse (D.take (pos + n)) = some (r2, c + n2, none) := hres
        obtain ⟨p, x, ends, hp1, hp2, hp3, hp4, hpd, hpe, hpq, hpw, hp5⟩ := ih (pos + n) r2
          (c + n2)
          (if ((D.take pos).drop c).length ≥ lenBuf then lenBuf + BUFFER_SIZE else lenBuf)
          (by omega) hn3 hparse2 (by omega) (by
            simp only [List.length_drop, List.length_take]
            simp only [List.length_drop, List.length_take] at hn2 hbuf
            split_ifs at hn2 ⊢ <;> omega)
        refine ⟨p, x, (pos + n) :: ends, by omega, hp2, hp3, hp4, fun h => absurd h hd, ?_, ?_,
          ?_, ?_⟩
        · rcases hpe with h | h
          · exact Or.inr (by rw [h]; exact List.mem_cons_self _ _)
          · exact Or.inr (List.mem_cons_of_mem _ h)
        · intro q hq
          rw [List.mem_cons] at hq
          rcases hq with hq | hq
          · by_cases hd2 : r2.parserState = .DONE
            · exact Or.inl (by rw [hq, hpd hd2])
            · exact Or.inr ⟨r2, c + n2, by rw [hq]; exact hparse2, hd2⟩
          · exact hpq q hq
        · intro q h1 h2
          by_cases hqn : q ≤ pos + n
          · exact ⟨pos + n, List.mem_cons_self _ _, hqn, by omega⟩
          · obtain ⟨e, he, he1, he2⟩ := hpw q (by omega) h2
            exact ⟨e, List.mem_cons_of_mem _ he, he1, he2⟩
        · intro turns ht
          obtain ⟨t, rfl⟩ : ∃ t, turns = t + 1 := ⟨turns - 1, by omega⟩
          have hnd : ¬ request.done = true := by simp [Request.done, hd]
          rw [readLoop_succ, readTrace_succ, if_neg hnd, if_neg hnd, hread]
          simp only [hy]
          rw [hbuf2, List.drop_drop]
          obtain ⟨h5a, h5b⟩ := hp5 t (by omega)
          exact ⟨h5a, by rw [List.map_cons, h5b]⟩

/-- Where Request.parse is settled on the bytes read so far of a well-formed request followed
by further bytes: not before the end of the request; at its end, with the request; after it,
with the content-length error. -/
theorem settled_position (w : WireRequest) (extra : Bytes) (hw : w.wellFormed = true)
    (q : Nat) (y : Request × Nat × Option Error) (hqle : q ≤ (w.bytes ++ extra).length)
    (hy : newRequest.parse ((w.bytes ++ extra).take q) = some y) (hs : settled y) :
    (q = w.bytes.length ∧ y = (w.parsed, w.bytes.length, none)) ∨
      (w.bytes.length < q ∧ ∃ r, y = (r, 0, some .ERROR_CONTENT_LENGTH_EXCEEDED)) := by
  have hq := parse_wellFormed w hw
  obtain ⟨r1, n1, e1⟩ := y
  by_cases hpq : q ≤ w.bytes.length
  · left
    have htk : (w.bytes ++ extra).take q = w.bytes.take q := List.take_append_of_le_length hpq
    rw [htk] at hy
    have hsp : w.bytes.take q ++ w.bytes.drop q = w.bytes := List.take_append_drop q _
    cases e1 with
    | some e =>
      obtain ⟨r2, h2⟩ := parse_error_stable _ _ (w.bytes.drop q) _ _ _ hy
      rw [hsp, hq] at h2
      simp at h2
    | none =>
      have hd1 : r1.parserState = .DONE := by
        rcases hs with h | h
        · exact absurd rfl h
        · exact h
      have hn1 := parse_consumed_le _ _ _ _ _ hy
      simp only [List.length_take] at hn1
      rcases parse_done_stable _ _ (w.bytes.drop q) _ _ hy hd1 with h2 | ⟨r2, h2⟩
      · rw [hsp, hq] at h2
        simp only [Option.some.injEq, Prod.mk.injEq] at h2
        obtain ⟨h2a, h2b, -⟩ := h2
        subst h2a h2b
        exact ⟨by omega, rfl⟩
      · rw [hsp, hq] at h2
        simp at h2
  · right
    have hlt : w.bytes.length < q := by omega
    have htk : (w.bytes ++ extra).take q = w.bytes ++ extra.take (q - w.bytes.length) := by
      rw [List.take_append_eq_append_take, List.take_of_length_le (by omega)]
    rw [htk] at hy
    have hex : extra.take (q - w.bytes.length) ≠ [] := by
      intro h0
      have hex2 := congrArg List.length h0
      simp only [List.length_take, List.length_nil, List.length_append] at hex2 hqle
      omega
    obtain ⟨r, hr⟩ := parse_wellFormed_extra w _ hw hex
    rw [hy] at hr
    simp only [Option.some.injEq] at hr
    exact ⟨hlt, r, hr⟩

/-- C2, as amended. For a well-formed request with Content-Length N > 0 followed by further
bytes, Request.parse on the whole input fails with the content-length error. The reads of
RequestFromReader with a read size k ≥ 1 end at positions that do not depend on the number
of turns allowed; when one of them is the end of the N-th body byte, RequestFromReader returns
the request whose body is the first N body bytes, and otherwise it fails with the
content-length error. With one-byte reads a read does end there. -/
theorem RequestFromReader_overlong (w : WireRequest) (extra : Bytes) (k : Nat)
    (hw : w.wellFormed = true) (hextra : extra ≠ []) (hk : 1 ≤ k) :
    (∃ r, newRequest.parse (w.bytes ++ extra) =
        some (r, 0, some .ERROR_CONTENT_LENGTH_EXCEEDED)) ∧
      ∃ ends : List Nat,
        (∀ turns, (w.bytes ++ extra).length + 1 ≤ turns →
          readEnds (w.bytes ++ extra) k turns = ends) ∧
        (w.bytes.length ∈ ends →
          ∀ turns, (w.bytes ++ extra).length + 1 ≤ turns →
            fromChunks (w.bytes ++ extra) k turns = some (some w.parsed, none)) ∧
        (w.bytes.length ∉ ends →
          ∀ turns, (w.bytes ++ extra).length + 1 ≤ turns →
            fromChunks (w.bytes ++ extra) k turns =
              some (none, some .ERROR_CONTENT_LENGTH_EXCEEDED)) ∧
        (k = 1 → w.bytes.length ∈ ends) := by
  obtain ⟨rD, hD⟩ := parse_wellFormed_extra w extra hw hextra
  refine ⟨⟨rD, hD⟩, ?_⟩
  have hq := parse_wellFormed w hw
  have hbody : w.body ≠ [] := ((wellFormed_iff w).1 hw).2.2.2.2
  have hpos : 0 < w.bytes.length := by
    simp only [WireRequest.bytes, List.length_append]
    have := List.length_pos.2 hbody
    omega
  obtain ⟨p, x, ends, -, hp2, hp3, hp4, -, hpe, hpq, hpw, hp5⟩ :=
    readTrace_chunks (w.bytes ++ extra) k hk ⟨_, hD, Or.inl (by simp)⟩
      (w.bytes ++ extra).length 0 newRequest 0 BUFFER_SIZE (by omega) (by omega)
      (by simp; rfl) (le_refl _) (by simp)
  have hfrom : ∀ turns, (w.bytes ++ extra).length + 1 ≤ turns →
      fromChunks (w.bytes ++ extra) k turns = some (outcome x) :=
    fun turns ht => (hp5 turns ht).1
  have hends : ∀ turns, (w.bytes ++ extra).length + 1 ≤ turns →
      readEnds (w.bytes ++ extra) k turns = ends :=
    fun turns ht => (hp5 turns ht).2
  have hp0 : p ≠ 0 := by
    intro h0
    subst h0
    have h1 : newRequest.parse ((w.bytes ++ extra).take 0) = some (newRequest, 0, none) := by
      simp; rfl
    rw [h1] at hp3
    simp only [Option.some.injEq] at hp3
    subst hp3
    rcases hp4 with h | h
    · exact h rfl
    · exact absurd h (by decide)
  have hpmem : p ∈ ends := by
    rcases hpe with h | h
    · exact absurd h hp0
    · exact h
  have hcases := settled_position w extra hw p x hp2 hp3 hp4
  have htakeP : (w.bytes ++ extra).take w.bytes.length = w.bytes := by
    rw [List.take_append_of_le_length (le_refl _), List.take_length]
  refine ⟨ends, hends, ?_, ?_, ?_⟩
  · intro hmem turns ht
    rw [hfrom turns ht]
    have hpP : w.bytes.length = p := by
      rcases hpq _ hmem with h | ⟨r, n, h1, h2⟩
      · exact h
      · rw [htakeP, hq] at h1
        simp only [Option.some.injEq, Prod.mk.injEq] at h1
        exact absurd (by rw [← h1.1]; rfl) h2
    rcases hcases with ⟨-, hx⟩ | ⟨hlt, -⟩
    · rw [hx]; rfl
    · omega
  · intro hnot turns ht
    rw [hfrom turns ht]
    rcases hcases with ⟨hpP, -⟩ | ⟨-, r, hx⟩
    · exact absurd (hpP ▸ hpmem) hnot
    · rw [hx]; rfl
  · intro hk1
    have hle : w.bytes.length ≤ p := by
      rcases hcases with ⟨hpP, -⟩ | ⟨hlt, -⟩ <;> omega
    obtain ⟨e, he, he1, he2⟩ := hpw w.bytes.length hpos hle
    have : e = w.bytes.length := by omega
    rw [this] at he
    exact he

theorem RequestFromReader_overlong_witness :
    fromChunks
        (str "POST /submit HTTP/1.1\r\nHost: h\r\nContent-Length: 5\r\n\r\npartial content")
        1 100 = some (some
          { RequestLine :=
              { Method := str "POST", RequestTarget := str "/submit", HttpVersion := str "1.1" }
            Headers := [(str "host", str "h"), (str "content-length", str "5")]
            Body := str "parti"
            parserState := .DONE }, none) ∧
      fromChunks
        (str "POST /submit HTTP/1.1\r\nHost: h\r\nContent-Length: 5\r\n\r\npartial content")
        3 100 = some (none, some .ERROR_CONTENT_LENGTH_EXCEEDED) := by
  constructor
  · obtain ⟨ends, -, hin, -, hone⟩ := (RequestFromReader_overlong
      { method := str "POST", target := str "/submit",
        lines := [str "Host: h", str "Content-Length: 5"], body := str "parti" }
      (str "al content") 1 (by decide) (by decide) (by decide)).2
    exact hin (hone rfl) 100 (by decide)
  · obtain ⟨ends, hends, -, hout, -⟩ := (RequestFromReader_overlong
      { method := str "POST", target := str "/submit",
        lines := [str "Host: h", str "Content-Length: 5"], body := str "parti" }
      (str "al content") 3 (by decide) (by decide) (by decide)).2
    refine hout ?_ 100 (by decide)
    rw [← hends 100 (by decide)]
    decide

/-! ## Two inputs of request_test.go -/

/-- The input request_test.go lists under an invalid version, read 7 bytes at a time: the
first token /coffee is no upper-case method, so RequestFromReader returns the invalid-method
error and the version is not looked at. -/
theorem invalid_version_test_input :
    fromChunks
        (str "/coffee GET HTTP/1.3\r\nHost: localhost:42069\r\n" ++
          str "User-Agent: curl/7.81.0\r\nAccept: */*\r\n\r\n")
        7 100 = some (none, some .ERROR_INVALID_METHOD) := by
  decide

/-- The input request_test.go lists under a malformed header, read 3 bytes at a time: the
line holds a colon, so the field name is Host localhost, and RequestFromReader returns the
invalid-field-name error, not the malformed-header error. -/
theorem malformed_header_test_input :
    fromChunks (str "GET / HTTP/1.1\r\nHost localhost:42069\r\n\r\n") 3 100 =
      some (none, some .ERROR_INVALID_FIELD_NAME) := by
  decide

end HttpFromTcp
